import Mathlib

/-!
ParFrame: the SFrame query planner.

A shallow embedding of `oss_src/sframe_query_engine/planning/planner.cpp`.

Planner nodes live in a heap addressed by handles (`pnode_ptr`); the functions of
`planner.cpp` are state transformers over that heap.  Code of the repository that
`planner.cpp` calls but that is not part of the sources at hand (the optimizer, the
subplan executor, the operator property tables) is collected in the record `Env`.
-/

namespace graphlab
namespace query_eval

/-! ## Exceptions -/

/-- Ways in which the embedded code stops without a result.  Reads outside a
`std::vector`, `front()` of an empty vector and dereferencing a handle that names no node
are undefined behaviour in C++; the embedding stops with `undefined_behaviour` there.
`logged` is what `log_and_throw(message)` raises. -/
inductive Exn
  | out_of_range
  | bad_any_cast
  | assertion_failure
  | undefined_behaviour
  | null_column
  | external (code : Nat)
  | logged (message : String)
deriving DecidableEq

/-- Outcome of the functions that recurse over the plan graph: they run with a recursion
budget and report its exhaustion apart from the exceptions of the code. -/
inductive Err
  | out_of_fuel
  | exn (e : Exn)
deriving DecidableEq

/-- Runs a computation that needs no recursion budget inside one that has one. -/
def liftExn {α : Type} : Except Exn α → Except Err α
  | .ok a => .ok a
  | .error e => .error (.exn e)

/-! ## Data model -/

/-- The tags of the cell variants (`flex_type_enum`). -/
inductive flex_type_enum
  | INTEGER
  | FLOAT
  | STRING
  | VECTOR
  | LIST
  | DICT
  | DATETIME
  | UNDEFINED
  | IMAGE
deriving DecidableEq

/-- Modelled from the spec: the cell type `flexible_type` (flexible_type.hpp is not among
the sources), "a tagged value with variants: integer (64-bit signed), float (64-bit IEEE),
string, timestamp, image-blob, vector-of-float, list-of-cell, dict, and undefined".  A float
is kept as its bit pattern; the payloads of list, dict and image cells, which the embedded
code never inspects, are kept as handles. -/
inductive flexible_type
  | INTEGER (v : Int)
  | FLOAT (bits : Nat)
  | STRING (v : String)
  | VECTOR (bits : List Nat)
  | LIST (handle : Nat)
  | DICT (handle : Nat)
  | DATETIME (posix : Int)
  | UNDEFINED
  | IMAGE (handle : Nat)
deriving DecidableEq

/-- The method `get_type()` of a cell. -/
def flexible_type.get_type : flexible_type → flex_type_enum
  | .INTEGER _ => .INTEGER
  | .FLOAT _ => .FLOAT
  | .STRING _ => .STRING
  | .VECTOR _ => .VECTOR
  | .LIST _ => .LIST
  | .DICT _ => .DICT
  | .DATETIME _ => .DATETIME
  | .UNDEFINED => .UNDEFINED
  | .IMAGE _ => .IMAGE

/-- The comparison `flexible_type == size_t` used on `begin_index` and `end_index`. -/
def flexible_type.eq_size_t : flexible_type → Nat → Bool
  | .INTEGER v, n => decide (v = (n : Int))
  | _, _ => false

/-- A column: the sequence of its cells. -/
abbrev sarray := List flexible_type

/-- Modelled from the spec: the class `sframe` (sframe.hpp is not among the sources), "an
ordered collection of named, equal-length columns".  The record keeps the columns and the
names it was given. -/
structure sframe where
  columns : List sarray
  column_names : List String
deriving DecidableEq

/-- Number of columns of a frame. -/
def sframe.num_columns (sf : sframe) : Nat := sf.columns.length

/-- Number of rows of a frame: the common length of its columns. -/
def sframe.num_rows (sf : sframe) : Nat :=
  match sf.columns with
  | [] => 0
  | c :: _ => c.length

/-- The call `sf.set_column_name(i, name)`. -/
def sframe.set_column_name (sf : sframe) (i : Nat) (name : String) : sframe :=
  { sf with column_names := sf.column_names.set i name }

/-- The call `sf.select_column(i)`, which raises when there is no column `i`. -/
def sframe.select_column (sf : sframe) (i : Nat) : Except Exn sarray :=
  match sf.columns[i]? with
  | some c => .ok c
  | none => .error .out_of_range

/-- The constructor `sframe(columns, names)` over a vector of column handles, any of which
may be null: a null handle cannot be read. -/
def sframe.construct (cols : List (Option sarray)) (names : List String) : Except Exn sframe :=
  if cols.all Option.isSome then
    .ok { columns := cols.filterMap id, column_names := names }
  else
    .error .null_column

/-- The operator kinds of `operator_properties.hpp`. -/
inductive planner_node_type
  | CONSTANT_NODE
  | APPEND_NODE
  | BINARY_TRANSFORM_NODE
  | LOGICAL_FILTER_NODE
  | PROJECT_NODE
  | RANGE_NODE
  | SARRAY_SOURCE_NODE
  | SFRAME_SOURCE_NODE
  | TRANSFORM_NODE
  | LAMBDA_TRANSFORM_NODE
  | GENERALIZED_TRANSFORM_NODE
  | UNION_NODE
  | GENERALIZED_UNION_PROJECT_NODE
  | REDUCE_NODE
  | IDENTITY_NODE
  | INVALID
deriving DecidableEq

/-- A handle to a planner node (`pnode_ptr`): an address in the heap of nodes. -/
abbrev pnode_ptr := Nat

/-- The values held in `any_operator_parameters`. -/
inductive any_value
  | of_sframe (sf : sframe)
  | of_sarray (sa : sarray)
  | of_column_map (m : List (Nat × sarray))
  | other (tag : Nat)
deriving DecidableEq

/-- The cast `.as<sframe>()`. -/
def any_value.as_sframe : any_value → Except Exn sframe
  | .of_sframe sf => .ok sf
  | _ => .error .bad_any_cast

/-- The cast `.as<std::shared_ptr<sarray<flexible_type>>>()`. -/
def any_value.as_sarray : any_value → Except Exn sarray
  | .of_sarray sa => .ok sa
  | _ => .error .bad_any_cast

/-- The cast `.as<std::map<size_t, std::shared_ptr<sarray<flexible_type>>>>()`. -/
def any_value.as_column_map : any_value → Except Exn (List (Nat × sarray))
  | .of_column_map m => .ok m
  | _ => .error .bad_any_cast

/-- Modelled from the spec: the record `planner_node` (planner_node.hpp is not among the
sources): operator kind, scalar parameters, opaque parameters and input edges. -/
structure planner_node where
  operator_type : planner_node_type
  operator_parameters : List (String × flexible_type)
  any_operator_parameters : List (String × any_value)
  inputs : List pnode_ptr
deriving DecidableEq

/-- The lookup `m.at(key)` of a `std::map`, which raises on a missing key. -/
def map_at {α : Type} (m : List (String × α)) (key : String) : Except Exn α :=
  match m.lookup key with
  | some v => .ok v
  | none => .error .out_of_range

/-- The fields of `materialize_options` that `planner.cpp` reads.  A write callback is
represented by a token that identifies it. -/
structure materialize_options where
  num_segments : Nat
  write_callback : Option Nat
  output_index_file : String
  output_column_names : List String
  partial_materialize : Bool
  disable_optimization : Bool
  naive_mode : Bool
deriving DecidableEq

/-- The heap of planner nodes; a handle is an index into it. -/
abbrev Heap := List planner_node

/-- What the planner asks of its collaborators, in the order asked. -/
inductive Call
  | run (n : pnode_ptr) (exec_params : materialize_options)
  | run_concat (segments : List pnode_ptr) (exec_params : materialize_options)
  | save (sf : sframe) (index_file : String)
deriving DecidableEq

/-- The state the planner works on: the nodes, and the log of executor runs and saves. -/
structure State where
  heap : Heap
  trace : List Call
deriving DecidableEq

/-- Reads the node behind a handle. -/
def State.deref (st : State) (p : pnode_ptr) : Except Exn planner_node :=
  match st.heap[p]? with
  | some node => .ok node
  | none => .error .undefined_behaviour

/-- The assignment `(*p) = node`. -/
def State.assign (st : State) (p : pnode_ptr) (node : planner_node) : Except Exn State :=
  if p < st.heap.length then .ok { st with heap := st.heap.set p node }
  else .error .undefined_behaviour

/-- The attribute record of an operator kind. -/
structure query_operator_attributes where
  attribute_bitfield : Nat
  num_inputs : Int
deriving DecidableEq

/-- The collaborators of `planner.cpp` whose code is not among the sources. -/
structure Env where
  /-- The method `optimization_engine::optimize_planner_graph`; it may add nodes. -/
  optimize_planner_graph : Heap → pnode_ptr → materialize_options → Except Exn (Heap × pnode_ptr)
  /-- The factory `op_project::make_planner_node(node, indices)`. -/
  op_project_make_planner_node : Heap → pnode_ptr → List Nat → Except Exn (Heap × pnode_ptr)
  /-- The function `make_segmented_graph(node, segment_idx, num_segments, memo)`, called
  with a fresh memo. -/
  make_segmented_graph : Heap → pnode_ptr → Nat → Nat → Except Exn (Heap × pnode_ptr)
  /-- The method `subplan_executor().run`.  The executor reads the plan; it does not change
  planner nodes. -/
  run : Heap → pnode_ptr → materialize_options → Except Exn sframe
  /-- The method `subplan_executor().run_concat`. -/
  run_concat : Heap → List pnode_ptr → materialize_options → Except Exn sframe
  /-- The method `sframe::save(index_file)`. -/
  save : sframe → String → Except Exn Unit
  is_parallel_slicable : Heap → pnode_ptr → Bool
  get_parallel_slicable_codes : Heap → pnode_ptr → List Nat
  infer_planner_node_num_output_columns : Heap → pnode_ptr → Nat
  infer_planner_node_num_dependency_nodes : Heap → pnode_ptr → Nat
  planner_node_type_to_attributes : planner_node_type → query_operator_attributes
  consumes_inputs_at_same_rates : query_operator_attributes → Bool
  is_linear_transform : query_operator_attributes → Bool
  is_sublinear_transform : query_operator_attributes → Bool
  /-- The flag `query_operator_attributes::SOURCE`. -/
  SOURCE : Nat
  /-- The value of `thread::cpu_count()`. -/
  cpu_count : Nat
  /-- The current value of the tunable `SFRAME_MAX_LAZY_NODE_SIZE`. -/
  SFRAME_MAX_LAZY_NODE_SIZE : Nat

/-- The initial value of the tunable: `size_t SFRAME_MAX_LAZY_NODE_SIZE = 10000;`. -/
def SFRAME_MAX_LAZY_NODE_SIZE_default : Nat := 10000

/-- The overloads of the property tests taking a node: they look at the attributes of the
node's operator kind. -/
def Env.node_consumes_inputs_at_same_rates (env : Env) (node : planner_node) : Bool :=
  env.consumes_inputs_at_same_rates (env.planner_node_type_to_attributes node.operator_type)

/-- The overload `is_linear_transform(n)` on a node. -/
def Env.node_is_linear_transform (env : Env) (node : planner_node) : Bool :=
  env.is_linear_transform (env.planner_node_type_to_attributes node.operator_type)

/-- The overload `is_sublinear_transform(n)` on a node. -/
def Env.node_is_sublinear_transform (env : Env) (node : planner_node) : Bool :=
  env.is_sublinear_transform (env.planner_node_type_to_attributes node.operator_type)

namespace op_sframe_source

/-- Modelled from the spec: the factory `op_sframe_source::make_planner_node(sf)` (the
operator classes are not among the sources), "a fresh `SFrameSource` over the result": a
node of kind `SFRAME_SOURCE_NODE` without inputs that holds the frame and covers all of its
rows, in the parameters `execute_node` reads back. -/
def make_planner_node (sf : sframe) : planner_node :=
  { operator_type := .SFRAME_SOURCE_NODE
    operator_parameters :=
      [("begin_index", .INTEGER 0), ("end_index", .INTEGER (sf.num_rows : Int))]
    any_operator_parameters := [("sframe", .of_sframe sf)]
    inputs := [] }

end op_sframe_source

/-! ## Executing a linear plan: `execute_node_impl` and `execute_node` -/

/-- The loop of `execute_node_impl` that fills `segments`: one segmented copy of the plan
for every segment index. -/
def make_segments (env : Env) (input_n : pnode_ptr) (num_segments : Nat) :
    List Nat → Heap → Except Exn (Heap × List pnode_ptr)
  | [], h => .ok (h, [])
  | segment_idx :: rest, h => do
    let (h1, seg) ← env.make_segmented_graph h input_n segment_idx num_segments
    let (h2, segs) ← make_segments env input_n num_segments rest h1
    pure (h2, seg :: segs)

/-- The function `execute_node_impl`: runs the plan directly, or as parallel segments when
it is parallel slicable.  No fast paths. -/
def execute_node_impl (env : Env) (st : State) (input_n : pnode_ptr)
    (exec_params : materialize_options) : Except Exn (State × sframe) :=
  if env.is_parallel_slicable st.heap input_n && exec_params.num_segments != 0 then do
    let num_segments := exec_params.num_segments
    let (h1, segments) ← make_segments env input_n num_segments (List.range num_segments) st.heap
    let sf ← env.run_concat h1 segments exec_params
    pure ({ heap := h1, trace := st.trace ++ [Call.run_concat segments exec_params] }, sf)
  else do
    let sf ← env.run st.heap input_n exec_params
    pure ({ st with trace := st.trace ++ [Call.run input_n exec_params] }, sf)

/-- The renaming loop of the `SFRAME_SOURCE_NODE` fast path:
`for (i = 0; i < sf.num_columns(); ++i) sf.set_column_name(i, output_column_names[i]);`.
The read `output_column_names[i]` is unchecked. -/
def rename_all_columns (output_column_names : List String) :
    List Nat → sframe → Except Exn sframe
  | [], sf => .ok sf
  | i :: rest, sf =>
    match output_column_names[i]? with
    | some name => rename_all_columns output_column_names rest (sf.set_column_name i name)
    | none => .error .undefined_behaviour

/-- The first loop of the `GENERALIZED_UNION_PROJECT_NODE` fast path: the columns found in
`existing_columns` go to their slots, the other indices are queued. -/
def split_existing_columns (existing_columns : List (Nat × sarray)) :
    List Nat → List Nat × List (Option sarray) → List Nat × List (Option sarray)
  | [], acc => acc
  | i :: rest, (columns_to_materialize, resulting_sframe_columns) =>
    match existing_columns.lookup i with
    | none =>
      split_existing_columns existing_columns rest
        (columns_to_materialize ++ [i], resulting_sframe_columns)
    | some col =>
      split_existing_columns existing_columns rest
        (columns_to_materialize, resulting_sframe_columns.set i (some col))

/-- The second loop of that fast path: slot `columns_to_materialize[i]` receives column `i`
of the frame just materialized. -/
def fill_materialized_columns (columns_to_materialize : List Nat) (new_columns : sframe) :
    List Nat → List (Option sarray) → Except Exn (List (Option sarray))
  | [], resulting_sframe_columns => .ok resulting_sframe_columns
  | i :: rest, resulting_sframe_columns =>
    match columns_to_materialize[i]? with
    | none => .error .undefined_behaviour
    | some slot => do
      let col ← new_columns.select_column i
      fill_materialized_columns columns_to_materialize new_columns rest
        (resulting_sframe_columns.set slot (some col))

/-- The guarded assertion of the two source fast paths:
`if (!output_column_names.empty()) ASSERT_EQ(expected, output_column_names.size());`. -/
def assert_names_match (expected : Nat) (output_column_names : List String) :
    Except Exn Unit :=
  if output_column_names ≠ [] then
    if expected ≠ output_column_names.length then .error .assertion_failure else .ok ()
  else .ok ()

/-- The checked read `v.at(i)` of a `std::vector`. -/
def vector_at {α : Type} (v : List α) (i : Nat) : Except Exn α :=
  match v[i]? with
  | some a => .ok a
  | none => .error .out_of_range

/-- The test `operator_parameters.at("begin_index") == 0 &&
operator_parameters.at("end_index") == size` of the two source fast paths. -/
def covers_full_range (node : planner_node) (size : Nat) : Except Exn Bool := do
  let begin_index ← map_at node.operator_parameters "begin_index"
  if begin_index.eq_size_t 0 then do
    let end_index ← map_at node.operator_parameters "end_index"
    pure (end_index.eq_size_t size)
  else pure false

/-- The fast path of `execute_node` for an `SFRAME_SOURCE_NODE` without a write callback:
a source over all rows of its frame is returned as that frame, renamed and saved when an
output location is given. -/
def execute_sframe_source (env : Env) (st : State) (node : planner_node)
    (input_n : pnode_ptr) (exec_params : materialize_options) : Except Exn (State × sframe) := do
  let sf ← (← map_at node.any_operator_parameters "sframe").as_sframe
  if ← covers_full_range node sf.num_rows then
    if exec_params.output_index_file ≠ "" then do
      assert_names_match sf.num_columns exec_params.output_column_names
      let sf ← rename_all_columns exec_params.output_column_names
        (List.range sf.num_columns) sf
      env.save sf exec_params.output_index_file
      pure ({ st with trace := st.trace ++ [Call.save sf exec_params.output_index_file] }, sf)
    else pure (st, sf)
  else execute_node_impl env st input_n exec_params

/-- The fast path of `execute_node` for an `SARRAY_SOURCE_NODE` without a write callback:
a source over a whole column is returned as the one-column frame `sframe({sa},{"X1"})`. -/
def execute_sarray_source (env : Env) (st : State) (node : planner_node)
    (input_n : pnode_ptr) (exec_params : materialize_options) : Except Exn (State × sframe) := do
  let sa ← (← map_at node.any_operator_parameters "sarray").as_sarray
  if ← covers_full_range node sa.length then do
    let sf ← sframe.construct [some sa] ["X1"]
    if exec_params.output_index_file ≠ "" then do
      assert_names_match 1 exec_params.output_column_names
      let name ← vector_at exec_params.output_column_names 0
      let sf := sf.set_column_name 0 name
      env.save sf exec_params.output_index_file
      pure ({ st with trace := st.trace ++ [Call.save sf exec_params.output_index_file] }, sf)
    else pure (st, sf)
  else execute_node_impl env st input_n exec_params

/-- The part of the `GENERALIZED_UNION_PROJECT_NODE` fast path that runs when some column
is not passed through: a projection on those columns is built, optimized and executed, and
its columns fill the gaps. -/
def materialize_missing_columns (env : Env) (st : State) (input_n : pnode_ptr)
    (exec_params : materialize_options) (columns_to_materialize : List Nat)
    (resulting_sframe_columns : List (Option sarray)) :
    Except Exn (State × List (Option sarray)) := do
  let new_exec_params := { exec_params with output_column_names := [] }
  let (h1, project_n) ←
    env.op_project_make_planner_node st.heap input_n columns_to_materialize
  let (h2, optimized_n) ← env.optimize_planner_graph h1 project_n new_exec_params
  let (st3, new_columns) ←
    execute_node_impl env { st with heap := h2 } optimized_n new_exec_params
  let resulting_sframe_columns ←
    fill_materialized_columns columns_to_materialize new_columns
      (List.range columns_to_materialize.length) resulting_sframe_columns
  pure (st3, resulting_sframe_columns)

/-- The fast path of `execute_node` for a `GENERALIZED_UNION_PROJECT_NODE` without a write
callback: with a non-empty `direct_source_mapping` only the columns that are not passed
through are materialized. -/
def execute_union_project (env : Env) (st : State) (node : planner_node)
    (input_n : pnode_ptr) (exec_params : materialize_options) : Except Exn (State × sframe) :=
  match node.any_operator_parameters.lookup "direct_source_mapping" with
  | none => execute_node_impl env st input_n exec_params
  | some v => do
    let existing_columns ← v.as_column_map
    if existing_columns ≠ [] then do
      let ncolumns := env.infer_planner_node_num_output_columns st.heap input_n
      let (columns_to_materialize, resulting_sframe_columns) :=
        split_existing_columns existing_columns (List.range ncolumns)
          ([], List.replicate ncolumns none)
      let (st3, resulting_sframe_columns) ←
        if columns_to_materialize ≠ [] then
          materialize_missing_columns env st input_n exec_params columns_to_materialize
            resulting_sframe_columns
        else pure (st, resulting_sframe_columns)
      let sf ← sframe.construct resulting_sframe_columns exec_params.output_column_names
      pure (st3, sf)
    else execute_node_impl env st input_n exec_params

/-- The function `execute_node`: `execute_node_impl` behind three fast paths that apply
when no write callback is set. -/
def execute_node (env : Env) (st : State) (input_n : pnode_ptr)
    (exec_params : materialize_options) : Except Exn (State × sframe) :=
  match exec_params.write_callback with
  | some _ => execute_node_impl env st input_n exec_params
  | none => do
    let node ← st.deref input_n
    if node.operator_type = .SFRAME_SOURCE_NODE then
      execute_sframe_source env st node input_n exec_params
    else if node.operator_type = .SARRAY_SOURCE_NODE then
      execute_sarray_source env st node input_n exec_params
    else if node.operator_type = .GENERALIZED_UNION_PROJECT_NODE then
      execute_union_project env st node input_n exec_params
    else execute_node_impl env st input_n exec_params

/-! ## Partial materialization -/

/-- The memo `std::map<pnode_ptr, pnode_ptr>`; the entry found first is the current one. -/
abbrev Memo := List (pnode_ptr × pnode_ptr)

/-- The result type of `partial_materialize_impl`. -/
abbrev ImplResult := Except Err (State × Memo × pnode_ptr)

/-- The statement
`(*n->inputs[i]) = (*op_sframe_source::make_planner_node(execute_node(n->inputs[i], exec_params)));`
of `partial_materialize_impl`.  The handle in slot `i` is read once. -/
def materialize_input_in_place (env : Env) (exec_params : materialize_options)
    (n : pnode_ptr) (i : Nat) (st : State) : Except Exn State := do
  let node ← st.deref n
  match node.inputs[i]? with
  | none => throw Exn.undefined_behaviour
  | some input => do
    let (st1, sf) ← execute_node env st input exec_params
    st1.assign input (op_sframe_source.make_planner_node sf)

/-- The loop `for (i = 1; i < slicing_codes.size(); ++i)` of `partial_materialize_impl`,
with the running value of `allowed_non_source_slicing_code`. -/
def materialize_mismatched_inputs (env : Env) (exec_params : materialize_options)
    (n : pnode_ptr) (slicing_codes : List Nat) : List Nat → Nat → State → Except Exn State
  | [], _, st => .ok st
  | i :: rest, allowed_non_source_slicing_code, st =>
    match slicing_codes[i]? with
    | none => .error .undefined_behaviour
    | some c =>
      if c ≠ 1 then
        if allowed_non_source_slicing_code ≠ 0 then
          if c ≠ allowed_non_source_slicing_code then do
            let st1 ← materialize_input_in_place env exec_params n i st
            materialize_mismatched_inputs env exec_params n slicing_codes rest
              allowed_non_source_slicing_code st1
          else
            materialize_mismatched_inputs env exec_params n slicing_codes rest
              allowed_non_source_slicing_code st
        else
          materialize_mismatched_inputs env exec_params n slicing_codes rest c st
      else
        materialize_mismatched_inputs env exec_params n slicing_codes rest
          allowed_non_source_slicing_code st

/-- The branch of `partial_materialize_impl` taken when `consumes_inputs_at_same_rates(n)`:
the inputs whose slicing code disagrees with the allowed one are materialized. -/
def materialize_for_same_rates (env : Env) (exec_params : materialize_options)
    (n : pnode_ptr) (st : State) : Except Exn State :=
  let slicing_codes := env.get_parallel_slicable_codes st.heap n
  match slicing_codes with
  | [] => .error .undefined_behaviour
  | code_0 :: _ =>
    let allowed_non_source_slicing_code := if code_0 ≠ 1 then code_0 else 0
    materialize_mismatched_inputs env exec_params n slicing_codes
      (List.range' 1 (slicing_codes.length - 1)) allowed_non_source_slicing_code st

/-- The loop `for (auto& i : n->inputs)` of `partial_materialize_impl`, taken when the node
consumes its inputs at different rates: every input is optimized, executed and overwritten
by a source over the result.  The positions are those of the vector when the loop starts;
the handle in a slot is read when its turn comes. -/
def materialize_all_inputs (env : Env) (exec_params : materialize_options)
    (n : pnode_ptr) : List Nat → State → Except Exn State
  | [], st => .ok st
  | k :: rest, st => do
    let node ← st.deref n
    match node.inputs[k]? with
    | none => throw Exn.undefined_behaviour
    | some i => do
      let (h1, optimized_i) ← env.optimize_planner_graph st.heap i exec_params
      let (st2, sf) ← execute_node env { st with heap := h1 } optimized_i exec_params
      let st3 ← st2.assign i (op_sframe_source.make_planner_node sf)
      materialize_all_inputs env exec_params n rest st3

/-- The loop
`for (i = 0; i < n->inputs.size(); ++i) n->inputs[i] = partial_materialize_impl(n->inputs[i], ...)`,
over the recursive call `recurse`.  The size is read again on every round. -/
def materialize_inputs_loop (recurse : State → Memo → pnode_ptr → ImplResult) (n : pnode_ptr) :
    Nat → Nat → State → Memo → Except Err (State × Memo)
  | 0, i, st, memo => do
    let node ← liftExn (st.deref n)
    if i < node.inputs.length then throw Err.out_of_fuel else pure (st, memo)
  | budget + 1, i, st, memo => do
    let node ← liftExn (st.deref n)
    match node.inputs[i]? with
    | none => pure (st, memo)
    | some input => do
      let (st1, memo1, r) ← recurse st memo input
      let node1 ← liftExn (st1.deref n)
      if i < node1.inputs.length then do
        let st2 ← liftExn (st1.assign n { node1 with inputs := node1.inputs.set i r })
        materialize_inputs_loop recurse n budget (i + 1) st2 memo1
      else throw (Err.exn Exn.undefined_behaviour)

/-- The end of `partial_materialize_impl`: a node that is neither a linear nor a sublinear
transform is optimized, executed and overwritten by a source over the result. -/
def instantiate_unless_linear (env : Env) (exec_params : materialize_options)
    (n : pnode_ptr) (st : State) : Except Exn State := do
  let node ← st.deref n
  if env.node_is_linear_transform node || env.node_is_sublinear_transform node then
    pure st
  else do
    let (h1, optimized_n) ← env.optimize_planner_graph st.heap n exec_params
    let (st2, sf) ← execute_node env { st with heap := h1 } optimized_n exec_params
    st2.assign n (op_sframe_source.make_planner_node sf)

/-- The middle of `partial_materialize_impl`, for a node with inputs: the inputs are made
parallel slicable together when the node consumes them at the same rates, and are all
materialized when it does not. -/
def materialize_where_needed (env : Env) (exec_params : materialize_options)
    (n : pnode_ptr) (node : planner_node) (st : State) : Except Exn State :=
  if env.node_consumes_inputs_at_same_rates node then
    materialize_for_same_rates env exec_params n st
  else
    materialize_all_inputs env exec_params n (List.range node.inputs.length) st

/-- The function `partial_materialize_impl`: materializes deeper nodes until the node can
be executed linearly.  The first argument bounds the depth of the recursion and the number
of rounds of the loop over the inputs.  `DASSERT_TRUE(is_source_node(n))` is compiled in
debug builds only and has no counterpart here. -/
def partial_materialize_impl (env : Env) (exec_params : materialize_options) :
    Nat → State → Memo → pnode_ptr → ImplResult
  | 0, _, _, _ => .error .out_of_fuel
  | fuel + 1, st, memo, n =>
    match memo.lookup n with
    | some r => .ok (st, memo, r)
    | none => do
      let (st1, memo1) ←
        materialize_inputs_loop (partial_materialize_impl env exec_params fuel) n fuel 0 st memo
      let node ← liftExn (st1.deref n)
      if node.inputs = [] then
        pure (st1, (n, n) :: memo1, n)
      else do
        let st2 ← liftExn (materialize_where_needed env exec_params n node st1)
        let st3 ← liftExn (instantiate_unless_linear env exec_params n st2)
        pure (st3, (n, n) :: memo1, n)

/-- Allocates a node and returns its handle. -/
def State.alloc (st : State) (node : planner_node) : State × pnode_ptr :=
  ({ st with heap := st.heap ++ [node] }, st.heap.length)

/-- The loop of `naive_partial_materialize` over the inputs of `n`, over the recursive call
`recurse`: an input that is not a source is replaced by a fresh source over its result. -/
def naive_inputs_loop (env : Env) (exec_params : materialize_options)
    (recurse : State → pnode_ptr → Except Err (State × pnode_ptr)) (n : pnode_ptr) :
    Nat → Nat → State → Except Err State
  | 0, i, st => do
    let node ← liftExn (st.deref n)
    if i < node.inputs.length then throw Err.out_of_fuel else pure st
  | budget + 1, i, st => do
    let node ← liftExn (st.deref n)
    match node.inputs[i]? with
    | none => pure st
    | some input => do
      let input_node ← liftExn (st.deref input)
      if (env.planner_node_type_to_attributes input_node.operator_type).attribute_bitfield
          &&& env.SOURCE = 0 then do
        let (st1, p) ← recurse st input
        let (st2, sf) ← liftExn (execute_node env st1 p exec_params)
        let (st3, fresh) := st2.alloc (op_sframe_source.make_planner_node sf)
        let node3 ← liftExn (st3.deref n)
        if i < node3.inputs.length then do
          let st4 ← liftExn (st3.assign n { node3 with inputs := node3.inputs.set i fresh })
          naive_inputs_loop env exec_params recurse n budget (i + 1) st4
        else throw (Err.exn Exn.undefined_behaviour)
      else
        naive_inputs_loop env exec_params recurse n budget (i + 1) st

/-- The function `naive_partial_materialize`. -/
def naive_partial_materialize (env : Env) (exec_params : materialize_options) :
    Nat → State → pnode_ptr → Except Err (State × pnode_ptr)
  | 0, _, _ => .error .out_of_fuel
  | fuel + 1, st, n => do
    let st1 ←
      naive_inputs_loop env exec_params (naive_partial_materialize env exec_params fuel) n fuel 0 st
    pure (st1, n)

/-- The function `partial_materialize`: the naive mode is for error checking. -/
def partial_materialize (env : Env) (fuel : Nat) (st : State) (ptip : pnode_ptr)
    (exec_params : materialize_options) : Except Err (State × pnode_ptr) :=
  if exec_params.naive_mode then
    naive_partial_materialize env exec_params fuel st ptip
  else do
    let (st1, _, r) ← partial_materialize_impl env exec_params fuel st [] ptip
    pure (st1, r)

/-! ## The public entry points -/

namespace planner

/-- The first statement of `planner::materialize`: a segment count of 0 stands for the
number of processors. -/
def default_num_segments (env : Env) (exec_params : materialize_options) :
    materialize_options :=
  if exec_params.num_segments = 0 then { exec_params with num_segments := env.cpu_count }
  else exec_params

/-- The step "Optimize Query Plan" of `planner::materialize`. -/
def optimize_tip (env : Env) (st : State) (ptip : pnode_ptr)
    (exec_params : materialize_options) : Except Exn (State × pnode_ptr) :=
  if !exec_params.disable_optimization then do
    let (h1, optimized) ← env.optimize_planner_graph st.heap ptip exec_params
    pure ({ st with heap := h1 }, optimized)
  else pure (st, ptip)

/-- The step "Partially materialize the graph first" of `planner::materialize`: the
recursive calls run without the output location and the callback of the caller. -/
def partial_materialize_tip (env : Env) (fuel : Nat) (st : State) (ptip : pnode_ptr)
    (exec_params : materialize_options) : Except Err (State × pnode_ptr) :=
  if exec_params.partial_materialize then
    let recursive_exec_params :=
      { exec_params with
        num_segments := env.cpu_count, output_index_file := "", write_callback := none }
    partial_materialize env fuel st ptip recursive_exec_params
  else pure (st, ptip)

/-- The last step of `planner::materialize`: the final node is executed, and without a
write callback the node of the caller is rewritten to a source over the result. -/
def execute_final_node (env : Env) (st : State) (original_ptip final_node : pnode_ptr)
    (exec_params : materialize_options) : Except Exn (State × sframe) :=
  match exec_params.write_callback with
  | none => do
    let (st3, ret_sf) ← execute_node env st final_node exec_params
    let st4 ← st3.assign original_ptip (op_sframe_source.make_planner_node ret_sf)
    pure (st4, ret_sf)
  | some _ => execute_node env st final_node exec_params

/-- The method `planner::materialize(ptip, exec_params)`.  The global query lock and the
log lines have no counterpart here. -/
def materialize (env : Env) (fuel : Nat) (st : State) (ptip : pnode_ptr)
    (exec_params : materialize_options) : Except Err (State × sframe) := do
  let exec_params := default_num_segments env exec_params
  let original_ptip := ptip
  let (st1, ptip) ← liftExn (optimize_tip env st ptip exec_params)
  let (st2, final_node) ← partial_materialize_tip env fuel st1 ptip exec_params
  liftExn (execute_final_node env st2 original_ptip final_node exec_params)

/-- The method `planner::online_materialization_recommended(tip)`. -/
def online_materialization_recommended (env : Env) (st : State) (tip : pnode_ptr) : Bool :=
  let lazy_node_size := env.infer_planner_node_num_dependency_nodes st.heap tip
  decide (lazy_node_size ≥ env.SFRAME_MAX_LAZY_NODE_SIZE)

end planner

/-! ## Sample collaborators and plans

A small set of collaborators on which the embedding can be run: the optimizer returns the
plan it is given, a projection is a new node over its input, and the executor returns a
one-column frame that records the node it ran. -/

/-- Attributes of the sample collaborators: bit 1 is `LINEAR`, bit 2 `SUB_LINEAR`, bit 4
`SOURCE`. -/
def sample_attributes : planner_node_type → query_operator_attributes
  | .SFRAME_SOURCE_NODE => ⟨4, 0⟩
  | .SARRAY_SOURCE_NODE => ⟨4, 0⟩
  | .CONSTANT_NODE => ⟨4, 0⟩
  | .RANGE_NODE => ⟨4, 0⟩
  | .REDUCE_NODE => ⟨2, 1⟩
  | .LOGICAL_FILTER_NODE => ⟨2, 2⟩
  | .APPEND_NODE => ⟨0, 2⟩
  | _ => ⟨1, -1⟩

/-- Slicing codes of the sample collaborators: `1` for an input without inputs of its own,
otherwise a code owned by the input. -/
def sample_codes (h : Heap) (n : pnode_ptr) : List Nat :=
  match h[n]? with
  | none => []
  | some node =>
    node.inputs.map fun q =>
      match h[q]? with
      | some inner => if inner.inputs = [] then 1 else q + 2
      | none => 1

/-- The frame the sample executor returns for node `n`. -/
def sample_frame (n : pnode_ptr) : sframe :=
  { columns := [[.INTEGER (n : Int)]], column_names := ["X1"] }

/-- The sample collaborators. -/
def sample_env : Env :=
  { optimize_planner_graph := fun h p _ => .ok (h, p)
    op_project_make_planner_node := fun h p _ =>
      .ok (h ++ [{ operator_type := .PROJECT_NODE, operator_parameters := [],
                   any_operator_parameters := [], inputs := [p] }], h.length)
    make_segmented_graph := fun h p _ _ => .ok (h, p)
    run := fun _ p _ => .ok (sample_frame p)
    run_concat := fun _ ps _ => .ok (sample_frame ps.length)
    save := fun _ _ => .ok ()
    is_parallel_slicable := fun _ _ => false
    get_parallel_slicable_codes := sample_codes
    infer_planner_node_num_output_columns := fun _ _ => 2
    infer_planner_node_num_dependency_nodes := fun _ p => p + 1
    planner_node_type_to_attributes := sample_attributes
    consumes_inputs_at_same_rates := fun a => a.attribute_bitfield &&& 1 != 0
    is_linear_transform := fun a => a.attribute_bitfield &&& 1 != 0
    is_sublinear_transform := fun a => a.attribute_bitfield &&& 2 != 0
    SOURCE := 4
    cpu_count := 2
    SFRAME_MAX_LAZY_NODE_SIZE := SFRAME_MAX_LAZY_NODE_SIZE_default }

/-- Default options: no callback, no output location, partial materialization on. -/
def sample_options : materialize_options :=
  { num_segments := 0, write_callback := none, output_index_file := "",
    output_column_names := [], partial_materialize := true, disable_optimization := false,
    naive_mode := false }

/-- A node of the given kind over the given inputs, without parameters. -/
def plain_node (t : planner_node_type) (inputs : List pnode_ptr) : planner_node :=
  { operator_type := t, operator_parameters := [], any_operator_parameters := [],
    inputs := inputs }

/-- A source node over a whole column. -/
def sarray_source_node (sa : sarray) : planner_node :=
  { operator_type := .SARRAY_SOURCE_NODE
    operator_parameters := [("begin_index", .INTEGER 0), ("end_index", .INTEGER (sa.length : Int))]
    any_operator_parameters := [("sarray", .of_sarray sa)]
    inputs := [] }

/-- A frame with one column `a` of three rows. -/
def frame_a : sframe :=
  { columns := [[.INTEGER 1, .INTEGER 2, .INTEGER 3]], column_names := ["a"] }

/-- A column of two rows. -/
def column_b : sarray := [.INTEGER 7, .INTEGER 8]

/-- A state with a single node. -/
def single_node_state (node : planner_node) : State := { heap := [node], trace := [] }

/-- A chain of 10000 transforms: node `i + 1` reads node `i`. -/
def chain_state : State :=
  { heap := (List.range 10000).map fun i =>
      if i = 0 then sarray_source_node column_b else plain_node .TRANSFORM_NODE [i - 1]
    trace := [] }

/-- Options that ask for the result to be saved, without naming its columns. -/
def save_options : materialize_options := { sample_options with output_index_file := "out" }

/-- Collaborators whose optimizer hands back a copy of the plan tip under a new handle. -/
def copying_env : Env :=
  { sample_env with
    optimize_planner_graph := fun h p _ =>
      match h[p]? with
      | some node => .ok (h ++ [node], h.length)
      | none => .error (.external 0) }

/-- A plan of two nodes: a transform over a column source. -/
def two_node_state : State :=
  { heap := [sarray_source_node column_b, plain_node .TRANSFORM_NODE [0]], trace := [] }

/-- The plan `two_node_state` after the transform was materialized with `copying_env`. -/
def two_node_state_copied : State :=
  { heap := [sarray_source_node column_b, op_sframe_source.make_planner_node (sample_frame 2),
      plain_node .TRANSFORM_NODE [0]]
    trace := [Call.run 2 { sample_options with num_segments := 2 }] }

/-- The plan `two_node_state` after the transform was materialized with `sample_env`. -/
def two_node_state_done : State :=
  { heap := [sarray_source_node column_b, op_sframe_source.make_planner_node (sample_frame 1)]
    trace := [Call.run 1 { sample_options with num_segments := 2 }] }

/-- A column of one row. -/
def column_c : sarray := [.INTEGER 5]

/-- A plan whose only node is a union-project of two columns, the first of which is passed
through from `column_c`. -/
def union_state : State :=
  single_node_state
    { operator_type := .GENERALIZED_UNION_PROJECT_NODE
      operator_parameters := []
      any_operator_parameters := [("direct_source_mapping", .of_column_map [(0, column_c)])]
      inputs := [] }

/-- The plan `union_state` after its second column was materialized with `sample_env`. -/
def union_state_done : State :=
  { heap := union_state.heap ++ [plain_node .PROJECT_NODE [0]]
    trace := [Call.run 1 { sample_options with output_column_names := [] }] }

/-! ## Predicates on heaps -/

/-- Every node of `h` is found unchanged in `h'`. -/
def Extends (h h' : Heap) : Prop :=
  ∀ (q : pnode_ptr) (node : planner_node), h[q]? = some node → h'[q]? = some node

/-- The collaborators that build nodes add nodes and leave the existing ones alone. -/
structure Env.Preserves (env : Env) : Prop where
  optimize : ∀ h p o h' r, env.optimize_planner_graph h p o = .ok (h', r) → Extends h h'
  project : ∀ h p l h' r, env.op_project_make_planner_node h p l = .ok (h', r) → Extends h h'
  segment : ∀ h p i k h' r, env.make_segmented_graph h p i k = .ok (h', r) → Extends h h'

/-- The node is a source built by `op_sframe_source::make_planner_node`. -/
def IsSource (node : planner_node) : Prop :=
  ∃ sf, node = op_sframe_source.make_planner_node sf

/-- The node is a source over the frame obtained by optimizing and executing the plan that
was behind the handle `q`. -/
def Materialized (env : Env) (exec_params : materialize_options) (q : pnode_ptr)
    (node : planner_node) : Prop :=
  ∃ (h0 h1 : Heap) (tr : List Call) (optimized : pnode_ptr) (st2 : State) (sf : sframe),
    env.optimize_planner_graph h0 q exec_params = .ok (h1, optimized) ∧
    execute_node env { heap := h1, trace := tr } optimized exec_params = .ok (st2, sf) ∧
    node = op_sframe_source.make_planner_node sf

/-- Every node of `h` is found in `h'` either unchanged or replaced by a node that `C`
allows for its handle. -/
def Rewritten (C : pnode_ptr → planner_node → Prop) (h h' : Heap) : Prop :=
  ∀ (q : pnode_ptr) (node : planner_node), h[q]? = some node →
    h'[q]? = some node ∨ ∃ node', h'[q]? = some node' ∧ C q node'

/-- The first `N` handles of the heap form an acyclic plan: `rk` decreases along every
input edge, and the edges stay among those handles. -/
def Dag (rk : pnode_ptr → Nat) (N : Nat) (h : Heap) : Prop :=
  N ≤ h.length ∧
    ∀ (p : pnode_ptr) (node : planner_node), p < N → h[p]? = some node →
      ∀ q ∈ node.inputs, q < N ∧ rk q < rk p

/-- The node behind `k` can be handed to the executor as a tip: it has no inputs, or it is a
linear or a sublinear transform. -/
def Settled (env : Env) (h : Heap) (k : pnode_ptr) : Prop :=
  ∃ node, h[k]? = some node ∧
    (node.inputs = [] ∨ env.node_is_linear_transform node = true ∨
      env.node_is_sublinear_transform node = true)

/-- If the node behind `k` has inputs and consumes them at different rates, all its inputs
are sources. -/
def InputsMaterialized (env : Env) (h : Heap) (k : pnode_ptr) : Prop :=
  ∀ node, h[k]? = some node → node.inputs ≠ [] →
    env.node_consumes_inputs_at_same_rates node = false →
    ∀ q ∈ node.inputs, ∃ node', h[q]? = some node' ∧ IsSource node'

/-- The memo of a run of `partial_materialize_impl`: it maps a handle to itself, and only
handles whose nodes have been dealt with. -/
def MemoInv (env : Env) (h : Heap) (memo : Memo) : Prop :=
  ∀ (k v : pnode_ptr), memo.lookup k = some v →
    v = k ∧ Settled env h k ∧ InputsMaterialized env h k

/-- What a call of `partial_materialize_impl` on `n` that returns `(st', memo', r)` from
the state `st` and the memo `memo` has done. -/
structure ImplPost (env : Env) (exec_params : materialize_options) (rk : pnode_ptr → Nat)
    (N : Nat) (n : pnode_ptr) (st : State) (memo : Memo) (st' : State) (memo' : Memo)
    (r : pnode_ptr) : Prop where
  ret : r = n
  rewritten :
    Rewritten (fun q node' => q < N ∧ rk q ≤ rk n ∧ IsSource node') st.heap st'.heap
  memo_inv : MemoInv env st'.heap memo'
  recorded : memo'.lookup n = some n
  visited : ∀ v, memo.lookup n = some v → st' = st ∧ memo' = memo
  inputs : memo.lookup n = none → ∀ node, st.heap[n]? = some node → node.inputs ≠ [] →
    env.node_consumes_inputs_at_same_rates node = false →
    ∀ q ∈ node.inputs, ∃ node', st'.heap[q]? = some node' ∧ Materialized env exec_params q node'
  instantiated : ∀ node, st.heap[n]? = some node → node.inputs ≠ [] →
    env.node_is_linear_transform node = false → env.node_is_sublinear_transform node = false →
    ∃ node', st'.heap[n]? = some node' ∧ Materialized env exec_params n node'
  kept : ∀ node, st.heap[n]? = some node →
    (node.inputs = [] ∨ env.node_is_linear_transform node = true ∨
      env.node_is_sublinear_transform node = true) → st'.heap[n]? = some node

/-- No node among the first `N` handles has more than `W` inputs. -/
def InputsBounded (N W : Nat) (h : Heap) : Prop :=
  ∀ (k : pnode_ptr) (node : planner_node), k < N → h[k]? = some node → node.inputs.length ≤ W

/-- A mask column of two rows. -/
def column_mask : sarray := [.INTEGER 1, .INTEGER 0]

/-- A plan of three nodes: a logical filter over a data column and a mask column. -/
def filter_state : State :=
  { heap := [sarray_source_node column_b, sarray_source_node column_mask,
      plain_node .LOGICAL_FILTER_NODE [0, 1]]
    trace := [] }

/-- The plan `filter_state` after partial materialization of the filter with `sample_env`:
both inputs are sources over one-column frames. -/
def filter_state_done : State :=
  { heap := [op_sframe_source.make_planner_node ⟨[column_b], ["X1"]⟩,
      op_sframe_source.make_planner_node ⟨[column_mask], ["X1"]⟩,
      plain_node .LOGICAL_FILTER_NODE [0, 1]]
    trace := [] }

/-- A plan of three nodes: an append of two columns. -/
def append_state : State :=
  { heap := [sarray_source_node column_b, sarray_source_node column_mask,
      plain_node .APPEND_NODE [0, 1]]
    trace := [] }

/-- The plan `append_state` after partial materialization of the append with `sample_env`:
the inputs and then the append itself have become sources. -/
def append_state_done : State :=
  { heap := [op_sframe_source.make_planner_node ⟨[column_b], ["X1"]⟩,
      op_sframe_source.make_planner_node ⟨[column_mask], ["X1"]⟩,
      op_sframe_source.make_planner_node (sample_frame 2)]
    trace := [Call.run 2 sample_options] }

/-- A plan of four nodes: a union of two transforms of a column and of the column itself. -/
def union_of_transforms_state : State :=
  { heap := [sarray_source_node column_b, plain_node .TRANSFORM_NODE [0],
      plain_node .TRANSFORM_NODE [0], plain_node .UNION_NODE [1, 2, 0]]
    trace := [] }

/-! ## The inputs to materialize under a same-rate node, as the specification puts it -/

/-- The first slicing code, in input order, that is not `1`, the code of a source. -/
def first_non_source_code (slicing_codes : List Nat) : Option Nat :=
  slicing_codes.find? (fun c => decide (c ≠ 1))

/-- Input `i` is offending: its slicing code is not `1` and differs from the first code
that is not `1`. -/
def is_offending (slicing_codes : List Nat) (i : Nat) : Bool :=
  match first_non_source_code slicing_codes, slicing_codes[i]? with
  | some a, some c => decide (c ≠ 1) && decide (c ≠ a)
  | _, _ => false

/-- The positions of the offending inputs, in increasing order. -/
def offending_inputs (slicing_codes : List Nat) : List Nat :=
  (List.range slicing_codes.length).filter (is_offending slicing_codes)

/-- Rewrites the inputs of `n` at the listed positions into sources, one after the other. -/
def materialize_inputs_in_place (env : Env) (exec_params : materialize_options)
    (n : pnode_ptr) : List Nat → State → Except Exn State
  | [], st => .ok st
  | i :: rest, st => do
    let st1 ← materialize_input_in_place env exec_params n i st
    materialize_inputs_in_place env exec_params n rest st1

/-! ## The query context (`execution/query_context.cpp`) -/

/-- Modelled from the spec: a row batch (`sframe_rows`; sframe_rows.hpp is not among the
sources), "a collection of rows represented columnarly as N equal-length arrays of cells". -/
abbrev sframe_rows := List (List flexible_type)

/-- Modelled from the spec: the result of an emit (query_context.hpp is not among the
sources): "`Continue` means more batches are wanted; `Stop` is an advisory telling the
operator to stop early". -/
inductive emit_state
  | Continue
  | Stop
deriving DecidableEq

/-- A call of one of the two callbacks of a query context, with its arguments. -/
inductive callback_call
  | on_get_input (input_number : Nat) (skip : Bool)
  | on_emit (rows : sframe_rows)
deriving DecidableEq

/-- The fields of `query_context` set by its constructor: the buffer size, the two
callbacks and the initial state.  The callbacks work on a state of type `σ`. -/
structure query_context (σ : Type) where
  m_max_buffer_size : Nat
  m_callback_on_get_input : Nat → Bool → σ → σ × Option sframe_rows
  m_callback_on_emit : sframe_rows → σ → σ × emit_state
  m_initial_state : emit_state

/-- What changes while a context is used: the batch behind the handle `m_buffers`, the
state of the callbacks, and the log of the callback calls made. -/
structure context_memory (σ : Type) where
  m_buffers : sframe_rows
  callbacks : σ
  calls : List callback_call

namespace query_context

/-- The constructor: `m_buffers = std::make_shared<sframe_rows>()`, an empty batch. -/
def fresh_memory {σ : Type} (s : σ) : context_memory σ :=
  { m_buffers := [], callbacks := s, calls := [] }

/-- The method `get_output_buffer()`. -/
def get_output_buffer {σ : Type} (mem : context_memory σ) : sframe_rows := mem.m_buffers

/-- The method `initial_state()`. -/
def initial_state {σ : Type} (ctx : query_context σ) : emit_state := ctx.m_initial_state

/-- The method `emit(rows)`: `return m_callback_on_emit(m_buffers);`. -/
def emit {σ : Type} (ctx : query_context σ) (mem : context_memory σ) (_rows : sframe_rows) :
    context_memory σ × emit_state :=
  let (s, r) := ctx.m_callback_on_emit mem.m_buffers mem.callbacks
  ({ mem with callbacks := s, calls := mem.calls ++ [callback_call.on_emit mem.m_buffers] }, r)

/-- The method `get_next(input_number)`:
`return m_callback_on_get_input(input_number, false)`. -/
def get_next {σ : Type} (ctx : query_context σ) (mem : context_memory σ) (input_number : Nat) :
    context_memory σ × Option sframe_rows :=
  let (s, r) := ctx.m_callback_on_get_input input_number false mem.callbacks
  ({ mem with
      callbacks := s, calls := mem.calls ++ [callback_call.on_get_input input_number false] },
    r)

/-- The method `skip_next(input_number)`: `m_callback_on_get_input(input_number, true);`. -/
def skip_next {σ : Type} (ctx : query_context σ) (mem : context_memory σ) (input_number : Nat) :
    context_memory σ :=
  let (s, _) := ctx.m_callback_on_get_input input_number true mem.callbacks
  { mem with
    callbacks := s, calls := mem.calls ++ [callback_call.on_get_input input_number true] }

end query_context

/-- A sample context: input `i` delivers the one-cell batch holding `i` unless skipped,
and the emit callback keeps the batches it is given. -/
def sample_context : query_context (List sframe_rows) :=
  { m_max_buffer_size := 256
    m_callback_on_get_input := fun i skip s =>
      (s, if skip then none else some [[.INTEGER (i : Int)]])
    m_callback_on_emit := fun rows s => (s ++ [rows], .Continue)
    m_initial_state := .Continue }

/-- A batch of one row and one column. -/
def sample_batch : sframe_rows := [[.INTEGER 1]]

/-! ## The execution node (`execution/execution_node.hpp`) -/

/-- Modelled from the spec: the runtime record of an execution node (execution_node.cpp is
not among the sources; the fields are those of execution_node.hpp): the output FIFO, the ID
of the head, the skip flag and the per-consumer position cursors.  The coroutine that runs
the operator is represented by `m_source`, the batches it has yet to emit. -/
structure execution_node where
  m_source : List sframe_rows
  m_output_queue : List sframe_rows
  m_head : Nat
  m_skip_next_block : Bool
  m_consumer_pos : List Nat
deriving DecidableEq

namespace execution_node

/-- Modelled from the spec: a node just initialized over an operator that will emit the
batches `source`: nothing emitted, no consumer. -/
def init (source : List sframe_rows) : execution_node :=
  { m_source := source, m_output_queue := [], m_head := 0, m_skip_next_block := false,
    m_consumer_pos := [] }

/-- Modelled from the spec: `register_consumer()`, which "increments a counter, returns
`k-1`"; the cursor of the new consumer is at the start of the stream. -/
def register_consumer (node : execution_node) : execution_node × Nat :=
  ({ node with m_consumer_pos := node.m_consumer_pos ++ [0] }, node.m_consumer_pos.length)

/-- Modelled from the spec: `add_operator_output(rows)`, the emit of the operator: the batch
becomes the latest of the FIFO and gets the next ID. -/
def add_operator_output (node : execution_node) (rows : sframe_rows) : execution_node :=
  { node with m_output_queue := node.m_output_queue ++ [rows], m_head := node.m_head + 1 }

/-- Modelled from the spec: resuming the coroutine lets the operator emit its next batch,
if it has one. -/
def resume (node : execution_node) : execution_node :=
  match node.m_source with
  | [] => node
  | rows :: rest => add_operator_output { node with m_source := rest } rows

/-- The smallest position among the consumers (the head when there is none). -/
def min_consumer_pos (node : execution_node) : Nat :=
  node.m_consumer_pos.foldl Nat.min node.m_head

/-- Modelled from the spec: "once all consumers have advanced past a slot, it is dropped":
only the slots from the smallest consumer position on are kept. -/
def drop_consumed (node : execution_node) : execution_node :=
  { node with
    m_output_queue :=
      node.m_output_queue.drop
        (node.m_output_queue.length - (node.m_head - min_consumer_pos node)) }

/-- Modelled from the spec: `get_next(consumer_id, skip)`, which "returns the next batch for
this consumer, `None` on end-of-stream": a consumer at the head has the coroutine resumed;
a consumer behind the head reads its slot of the FIFO and advances. -/
def get_next (node : execution_node) (consumer_id : Nat) (skip : Bool) :
    execution_node × Option sframe_rows :=
  match node.m_consumer_pos[consumer_id]? with
  | none => (node, none)
  | some pos =>
    let node1 := if pos = node.m_head then resume { node with m_skip_next_block := skip } else node
    if pos < node1.m_head then
      let ret := node1.m_output_queue[node1.m_output_queue.length - (node1.m_head - pos)]?
      (drop_consumed { node1 with m_consumer_pos := node1.m_consumer_pos.set consumer_id (pos + 1) },
        ret)
    else (node1, none)

/-- The states an execution node goes through when its consumers are registered before
anything is produced and then pull in lock step: a consumer asks for its next batch only
when no other consumer is behind it. -/
inductive LockStepReachable : execution_node → Prop
  | init (source : List sframe_rows) : LockStepReachable (init source)
  | register (node : execution_node) : LockStepReachable node → node.m_head = 0 →
      LockStepReachable (register_consumer node).1
  | pull (node : execution_node) (consumer_id pos : Nat) (skip : Bool) :
      LockStepReachable node → node.m_consumer_pos[consumer_id]? = some pos →
      (∀ q ∈ node.m_consumer_pos, pos ≤ q) →
      LockStepReachable (get_next node consumer_id skip).1

/-- The cursors of the consumers are at the head or one batch below it, and the FIFO holds
at most two batches. -/
def Coupled (node : execution_node) : Prop :=
  (∀ p ∈ node.m_consumer_pos, p ≤ node.m_head ∧ node.m_head ≤ p + 1) ∧
    node.m_output_queue.length ≤ 2

/-- A node over two batches with two consumers, after the first consumer has pulled once. -/
def two_consumers_one_pull : execution_node :=
  (get_next (register_consumer (register_consumer (init [[[.INTEGER 1]], [[.INTEGER 2]]])).1).1
    0 false).1

end execution_node

/-! ## Element-wise operators of `unity_sarray` (`unity/lib/unity_sarray.cpp`) -/

/-- The conversion of a `bool` to a cell: an integral value is stored as an integer cell,
`true` as 1 and `false` as 0. -/
def flexible_type.of_bool (b : Bool) : flexible_type :=
  .INTEGER (if b then 1 else 0)

/-- The access `row[0]` to the first cell of a row; the index is not checked. -/
def row_front (row : List flexible_type) : Except Exn flexible_type :=
  match row with
  | [] => .error .undefined_behaviour
  | f :: _ => .ok f

/-- A binary operator on cells, as `unity_sarray_binary_operations::get_binary_operator`
returns it. -/
abbrev binary_operator := flexible_type → flexible_type → Except Exn flexible_type

/-- The collaborators of `unity_sarray.cpp` whose code is not among the sources. -/
structure sarray_env where
  /-- The function `unity_sarray_binary_operations::get_output_type(left, right, op)`. -/
  get_output_type : flex_type_enum → flex_type_enum → String → flex_type_enum
  /-- The function `unity_sarray_binary_operations::get_binary_operator(left, right, op)`. -/
  get_binary_operator : flex_type_enum → flex_type_enum → String → binary_operator
  /-- The statements `flexible_type changed_ret(type); changed_ret.soft_assign(ret);`. -/
  soft_assign : flex_type_enum → flexible_type → Except Exn flexible_type
  /-- The function `infer_planner_node_type(node)`; it reads the plan. -/
  infer_planner_node_type : Heap → pnode_ptr → List flex_type_enum
  /-- The options `opts` of `construct_from_planner_node`: a default-constructed
  `materialize_options` with `only_first_pass_optimizations = true`. -/
  first_pass_options : materialize_options
  /-- The default argument `materialize_options()` of the planner's methods. -/
  default_options : materialize_options

namespace unity_sarray

/-- The lambda `transform_fn_with_undefined_checking` of `unity_sarray::vector_operator`,
with its captures: the operator name `op` (from which `op_is_not_equality_compare` and
`op_is_equality` are computed) and the binary operator `transformfn`. -/
def transform_fn_with_undefined_checking (op : String) (transformfn : binary_operator)
    (frow grow : List flexible_type) : Except Exn flexible_type := do
  let op_is_not_equality_compare : Bool := op != "==" && op != "!="
  let op_is_equality : Bool := op == "=="
  let f ← row_front frow
  let g ← row_front grow
  if f.get_type = .UNDEFINED ∨ g.get_type = .UNDEFINED then
    if op_is_not_equality_compare then pure .UNDEFINED
    else if op_is_equality then pure (flexible_type.of_bool (decide (f.get_type = g.get_type)))
    else pure (flexible_type.of_bool (decide (f.get_type ≠ g.get_type)))
  else transformfn f g

/-- The row function of the binary transform node that `unity_sarray::vector_operator`
builds over two arrays of types `this_dtype` and `other_dtype`. -/
def vector_operator_fn (senv : sarray_env) (this_dtype other_dtype : flex_type_enum)
    (op : String) (frow grow : List flexible_type) : Except Exn flexible_type :=
  transform_fn_with_undefined_checking op
    (senv.get_binary_operator this_dtype other_dtype op) frow grow

/-- The lambda `transformfn` of `unity_sarray::scalar_operator`: the first one when the
scalar `other` is not UNDEFINED, the second one when it is. -/
def scalar_transformfn (binaryfn : binary_operator) (other : flexible_type)
    (right_operator : Bool) (f : flexible_type) : Except Exn flexible_type :=
  if other.get_type ≠ .UNDEFINED then
    if f.get_type = .UNDEFINED then pure f
    else if right_operator then binaryfn other f else binaryfn f other
  else
    if right_operator then binaryfn other f else binaryfn f other

/-- The lambda `fn` of `unity_sarray::transform_lambda(function, type, skip_undefined,
seed)`, the row function of the transform node it builds. -/
def transform_lambda_fn (senv : sarray_env)
    (function : flexible_type → Except Exn flexible_type) (type : flex_type_enum)
    (skip_undefined : Bool) (f : List flexible_type) : Except Exn flexible_type := do
  let f0 ← row_front f
  if skip_undefined ∧ f0.get_type = .UNDEFINED then pure .UNDEFINED
  else do
    let ret ← function f0
    if ret.get_type = type ∨ ret.get_type = .UNDEFINED then pure ret
    else senv.soft_assign type ret

/-- The row function of the transform node that `unity_sarray::scalar_operator(other, op,
right_operator)` builds over a non-empty array of type `dtype`, once
`check_operation_feasibility` has passed: the types of the two sides, the output type and
the binary operator are looked up, and `transform_lambda` is called with `skip_undefined`
set exactly when the scalar is not UNDEFINED. -/
def scalar_operator_fn (senv : sarray_env) (dtype : flex_type_enum) (other : flexible_type)
    (op : String) (right_operator : Bool) (f : List flexible_type) :
    Except Exn flexible_type :=
  let left_type := if !right_operator then dtype else other.get_type
  let right_type := if !right_operator then other.get_type else dtype
  let output_type := senv.get_output_type left_type right_type op
  let binaryfn := senv.get_binary_operator left_type right_type op
  transform_lambda_fn senv (scalar_transformfn binaryfn other right_operator) output_type
    (decide (other.get_type ≠ .UNDEFINED)) f

/-- The row function of `unity_sarray::left_scalar_operator(other, op)`. -/
def left_scalar_operator_fn (senv : sarray_env) (dtype : flex_type_enum)
    (other : flexible_type) (op : String) (f : List flexible_type) :
    Except Exn flexible_type :=
  scalar_operator_fn senv dtype other op false f

/-- The row function of `unity_sarray::right_scalar_operator(other, op)`. -/
def right_scalar_operator_fn (senv : sarray_env) (dtype : flex_type_enum)
    (other : flexible_type) (op : String) (f : List flexible_type) :
    Except Exn flexible_type :=
  scalar_operator_fn senv dtype other op true f

end unity_sarray

/-- A sample binary operator: equality and inequality of cells, and the left operand for
every other operator name. -/
def sample_binary_operator (op : String) : binary_operator :=
  fun f g =>
    if op = "==" then .ok (flexible_type.of_bool (decide (f = g)))
    else if op = "!=" then .ok (flexible_type.of_bool (decide (f ≠ g)))
    else .ok f

/-- The type of a sample plan: that of the first cell of the column of a source node, and
INTEGER for every other node. -/
def sample_infer_planner_node_type (h : Heap) (p : pnode_ptr) : List flex_type_enum :=
  match h[p]? with
  | none => []
  | some node =>
    match node.any_operator_parameters.lookup "sarray" with
    | some (.of_sarray (cell :: _)) => [cell.get_type]
    | _ => [.INTEGER]

/-- Sample collaborators of `unity_sarray.cpp`: comparisons give integers, and a soft
assignment keeps the cell. -/
def sample_sarray_env : sarray_env :=
  { get_output_type := fun left _ op => if op = "==" ∨ op = "!=" then .INTEGER else left
    get_binary_operator := fun _ _ op => sample_binary_operator op
    soft_assign := fun _ ret => .ok ret
    infer_planner_node_type := sample_infer_planner_node_type
    first_pass_options := sample_options
    default_options := sample_options }

/-! ## Appending arrays: `unity_sarray::append` -/

/-- The class `unity_sarray`, as far as the embedded methods use it: the handle
`m_planner_node` of the plan of the array. -/
structure unity_sarray where
  m_planner_node : pnode_ptr
deriving DecidableEq

namespace op_append

/-- Modelled from the spec: the factory `op_append::make_planner_node(left, right)` (the
operator classes are not among the sources), "`Append(a, b)` yields `|a| + |b|` rows, `a`
first then `b`": a new node of kind `APPEND_NODE` whose inputs are `left` and `right`, in
this order. -/
def make_planner_node (st : State) (left right : pnode_ptr) : State × pnode_ptr :=
  st.alloc
    { operator_type := .APPEND_NODE, operator_parameters := [], any_operator_parameters := [],
      inputs := [left, right] }

end op_append

namespace planner

/-- The method `planner::materialize_as_planner_node(tip, exec_params)`. -/
def materialize_as_planner_node (env : Env) (fuel : Nat) (st : State) (tip : pnode_ptr)
    (exec_params : materialize_options) : Except Err (State × pnode_ptr) := do
  let (st1, res) ← materialize env fuel st tip exec_params
  pure (st1.alloc (op_sframe_source.make_planner_node res))

end planner

namespace unity_sarray

/-- The method `unity_sarray::dtype()`. -/
def dtype (senv : sarray_env) (h : Heap) (this : unity_sarray) : Except Exn flex_type_enum :=
  match senv.infer_planner_node_type h this.m_planner_node with
  | [t] => .ok t
  | _ => .error .assertion_failure

/-- The method `unity_sarray::construct_from_planner_node(input)` on a new array: the plan
is optimized with the first-pass options and, when the planner recommends it, materialized
into a source node. -/
def construct_from_planner_node (env : Env) (senv : sarray_env) (fuel : Nat) (st : State)
    (input : pnode_ptr) : Except Err (State × unity_sarray) := do
  let (h1, node) ← liftExn (env.optimize_planner_graph st.heap input senv.first_pass_options)
  let st1 := { st with heap := h1 }
  if planner.online_materialization_recommended env st1 node then do
    let (st2, node2) ←
      planner.materialize_as_planner_node env fuel st1 node senv.default_options
    pure (st2, { m_planner_node := node2 })
  else pure (st1, { m_planner_node := node })

/-- The test `if (this->dtype() != other->dtype()) log_and_throw(...)` that opens
`unity_sarray::append`; it reads the plan. -/
def append_check_dtype (senv : sarray_env) (h : Heap) (this other : unity_sarray) :
    Except Exn Unit := do
  let this_dtype ← dtype senv h this
  let other_dtype ← dtype senv h other
  if this_dtype ≠ other_dtype then
    .error (.logged "Both SArrays have to have the same value type")
  else pure ()

/-- The method `unity_sarray::append(other)`.  The result comes with the state the method
leaves: the state it was called in when the test of the types raises; when the constructor
of the new array raises, the state in which the constructor was entered (what the
collaborators changed before raising is not recorded). -/
def append (env : Env) (senv : sarray_env) (fuel : Nat) (st : State)
    (this other : unity_sarray) : State × Except Err unity_sarray :=
  match append_check_dtype senv st.heap this other with
  | .error e => (st, .error (.exn e))
  | .ok () =>
    let (st1, node) := op_append.make_planner_node st this.m_planner_node other.m_planner_node
    match construct_from_planner_node env senv fuel st1 node with
    | .ok (st2, ret_sarray) => (st2, .ok ret_sarray)
    | .error e => (st1, .error e)

end unity_sarray

/-- A column of strings. -/
def column_s : sarray := [.STRING "x", .STRING "y"]

/-- A plan of two source nodes: a column of integers and a column of strings. -/
def mixed_state : State :=
  { heap := [sarray_source_node column_b, sarray_source_node column_s], trace := [] }

/-- The plan `mixed_state` after the column of integers was appended to itself. -/
def mixed_state_appended : State :=
  { heap := [sarray_source_node column_b, sarray_source_node column_s,
      plain_node .APPEND_NODE [0, 0]]
    trace := [] }

/-! ## Sums: `unity_sarray::sum` -/

/-- Modelled from the spec: the function `query_eval::reduce(node, reduce_fn, combine_fn,
init)` (not among the sources), "Initial state + per-row fold + per-segment combine.  Runs
per-segment; per-segment results are combined serially on the driver": the rows of the node
arrive as consecutive segments, every segment is folded from `init` with `reduce_fn`, and
the results are combined in segment order with `combine_fn`, from `init`.  The functions
update their second argument. -/
def reduce {T : Type} (segments : List sarray) (reduce_fn : flexible_type → T → T)
    (combine_fn : T → T → T) (init : T) : T :=
  (segments.map fun segment => segment.foldl (fun acc f => reduce_fn f acc) init).foldl
    (fun acc segment_result => combine_fn segment_result acc) init

/-- A value of type `flex_int` (64-bit signed) after an arithmetic operation: the result
modulo 2^64, between -2^63 and 2^63 - 1. -/
def wrap_int64 (x : Int) : Int :=
  (x + 9223372036854775808) % 18446744073709551616 - 9223372036854775808

/-- The sum of the integer cells of a column, as an integer without bound. -/
def defined_sum (cells : sarray) : Int :=
  (cells.map fun cell => match cell with
    | .INTEGER v => v
    | _ => 0).sum

namespace unity_sarray

/-- The lambda `reductionfn` of the numeric branch of `unity_sarray::sum`; `plus_assign` is
the operator `sum += f` of cells. -/
def sum_reductionfn (plus_assign : flexible_type → flexible_type → flexible_type)
    (f sum : flexible_type) : flexible_type :=
  if f.get_type ≠ .UNDEFINED then plus_assign sum f else sum

/-- The method `unity_sarray::sum()` on an array whose rows the executor delivers as
`segments`.  The branch for columns of vectors is the parameter `vector_sum`. -/
def sum (senv : sarray_env) (plus_assign : flexible_type → flexible_type → flexible_type)
    (vector_sum : List sarray → Except Exn flexible_type) (h : Heap) (this : unity_sarray)
    (segments : List sarray) : Except Exn flexible_type :=
  if segments.flatten.length > 0 then do
    let cur_type ← dtype senv h this
    if cur_type = .INTEGER ∨ cur_type = .FLOAT then
      let start_val : flexible_type := if cur_type = .INTEGER then .INTEGER 0 else .FLOAT 0
      pure (reduce segments (sum_reductionfn plus_assign) (sum_reductionfn plus_assign)
        start_val)
    else if cur_type = .VECTOR then vector_sum segments
    else .error (.logged "Cannot perform on non-numeric types!")
  else pure .UNDEFINED

end unity_sarray

/-- A sample of the operator `+=` of cells: the 64-bit sum of two integers, and the left
operand otherwise. -/
def sample_plus_assign (sum f : flexible_type) : flexible_type :=
  match sum, f with
  | .INTEGER a, .INTEGER b => .INTEGER (wrap_int64 (a + b))
  | _, _ => sum

/-- The column `[1, 2, 3, 4, 5]`. -/
def column_one_to_five : sarray :=
  [.INTEGER 1, .INTEGER 2, .INTEGER 3, .INTEGER 4, .INTEGER 5]

/-- A plan whose only node is a source over the column `[1, 2, 3, 4, 5]`. -/
def one_to_five_state : State := single_node_state (sarray_source_node column_one_to_five)

/-! ## The IPC layer (`cppipc`) -/

namespace cppipc

/-- The largest value of a 64-bit unsigned integer: `uint64_t(-1)` and `size_t(-1)`. -/
def max_64bit : Nat := 18446744073709551615

/-- The two process-wide atomics of `cancel_ops.cpp`: the running command, behind
`get_srv_running_command()`, and the flag behind `get_cancel_bit_checked()`. -/
structure cancel_state where
  srv_running_command : Nat
  cancel_bit_checked : Bool
deriving DecidableEq

/-- The function `cppipc::must_cancel()`: the state it leaves and the value it returns. -/
def must_cancel (st : cancel_state) : cancel_state × Bool :=
  let st1 := { st with cancel_bit_checked := true }
  (st1, !(st1.srv_running_command != max_64bit))

/-- The fields of `comm_client` that the ping thread writes. -/
structure ping_state where
  server_alive : Bool
  ping_failure_count : Nat
deriving DecidableEq

/-- The end of one turn of the loop of the ping thread in `comm_client::start`, after the
wait for the reply: `has_value` is `future.has_value()`.  The counter is a 64-bit unsigned
integer, as `num_tolerable_ping_failures`, with which it is compared. -/
def ping_turn (num_tolerable_ping_failures : Nat) (st : ping_state) (has_value : Bool) :
    ping_state :=
  if has_value then
    { server_alive := true, ping_failure_count := 0 }
  else
    let st1 := { st with ping_failure_count := (st.ping_failure_count + 1) % 2 ^ 64 }
    if st1.ping_failure_count ≥ num_tolerable_ping_failures then
      { st1 with server_alive := false }
    else st1

/-- The loop of the ping thread over a sequence of ping outcomes (`true`: answered). -/
def ping_loop (num_tolerable_ping_failures : Nat) (st : ping_state) (outcomes : List Bool) :
    ping_state :=
  outcomes.foldl (ping_turn num_tolerable_ping_failures) st

/-- The number of unanswered pings at the end of a sequence of outcomes. -/
def trailing_misses (outcomes : List Bool) : Nat :=
  (outcomes.reverse.takeWhile fun answered => !answered).length

/-- The reference counts of `comm_client`: the map `object_ref_count` and, in the order
sent, the lists passed to `send_deletion_list`. -/
structure ref_count_state where
  object_ref_count : Nat → Option Nat
  deletion_lists : List (List Nat)

/-- The method `comm_client::send_deletion_list(object_ids)`, as far as the client state
goes: the list is sent to the server. -/
def send_deletion_list (st : ref_count_state) (object_ids : List Nat) : ref_count_state :=
  { st with deletion_lists := st.deletion_lists ++ [object_ids] }

/-- The assignment of a count to a key of the map; `none` erases the key. -/
def set_ref_count (st : ref_count_state) (object_id : Nat) (count : Option Nat) :
    ref_count_state :=
  { st with
    object_ref_count := fun id => if id = object_id then count else st.object_ref_count id }

/-- The method `comm_client::incr_ref_count(object_id)`. -/
def incr_ref_count (st : ref_count_state) (object_id : Nat) : ref_count_state × Nat :=
  match st.object_ref_count object_id with
  | none => (set_ref_count st object_id (some 1), 1)
  | some count =>
    (set_ref_count st object_id (some ((count + 1) % 2 ^ 64)), (count + 1) % 2 ^ 64)

/-- The locked block of `comm_client::decr_ref_count(object_id)`, which computes `ref_cnt`.
With a stored count of 0 the entry is erased and then read through the erased iterator. -/
def decr_ref_count_locked (st : ref_count_state) (object_id : Nat) :
    Except Exn (ref_count_state × Nat) :=
  match st.object_ref_count object_id with
  | some count =>
    if count > 1 then .ok (set_ref_count st object_id (some (count - 1)), count - 1)
    else if count = 1 then .ok (set_ref_count st object_id none, 0)
    else .error .undefined_behaviour
  | none => .ok (st, max_64bit)

/-- The method `comm_client::decr_ref_count(object_id)`. -/
def decr_ref_count (st : ref_count_state) (object_id : Nat) :
    Except Exn (ref_count_state × Nat) := do
  let (st1, ref_cnt) ← decr_ref_count_locked st object_id
  if ref_cnt = 0 then pure (send_deletion_list st1 [object_id], ref_cnt)
  else pure (st1, ref_cnt)

/-- The method `comm_client::get_ref_count(object_id)`. -/
def get_ref_count (st : ref_count_state) (object_id : Nat) : Nat :=
  match st.object_ref_count object_id with
  | some count => count
  | none => max_64bit

/-- A client that tracks object 7 with two references and object 9 with one. -/
def sample_ref_counts : ref_count_state :=
  { object_ref_count := fun id => if id = 7 then some 2 else if id = 9 then some 1 else none
    deletion_lists := [] }

end cppipc

/-! ## Atomic operations (`parallel/atomic_ops.hpp`) -/

/-- Some of the integer types that a caller may name for the template parameter `T`. -/
inductive int_type
  | size_t
  | int64_t
  | int32_t
  | uint32_t
deriving DecidableEq, Repr

/-- The template argument of a call of `template<typename T> T
atomic_compare_and_swap_val(T& a, T oldval, T newval)`, from the types of the three
arguments: each of the parameters names `T`, so that the call has an instance only when the
three types are one type.  The overload with `volatile T& a` has the same parameters. -/
def atomic_compare_and_swap_val_instance (a oldval newval : int_type) : Option int_type :=
  if a = oldval ∧ oldval = newval then some a else none

/-- The call `atomic_compare_and_swap_val(max_value, v, new_value)` in the body of
`atomic_set_max<T>`: `max_value` is a `T&`, `v` is declared `size_t v`, and `new_value` is
a `T`. -/
def atomic_set_max_instance (T : int_type) : Option int_type :=
  atomic_compare_and_swap_val_instance T int_type.size_t T

/-- The call `atomic_compare_and_swap_val(min_value, v, new_value)` in the body of
`atomic_set_min<T>`: `min_value` is a `T&`, `v` is declared `size_t v`, and `new_value` is
a `T`. -/
def atomic_set_min_instance (T : int_type) : Option int_type :=
  atomic_compare_and_swap_val_instance T int_type.size_t T

/-- The function `atomic_compare_and_swap_val(a, oldval, newval)`, run without interference:
the new content of `a` and the value returned, which is the content of `a` before.  The
values are those of `size_t`. -/
def atomic_compare_and_swap_val (a oldval newval : Nat) : Nat × Nat :=
  if a = oldval then (newval, a) else (a, a)

/-- The loop `do ... while (v < new_value)` of `atomic_set_max` for `T = size_t`, with the
content of `max_value` and the local `v`; the first argument bounds the number of
rounds. -/
def atomic_set_max_loop : Nat → Nat → Nat → Nat → Option Nat
  | 0, _, _, _ => none
  | fuel + 1, max_value, v, new_value =>
    let (max_value1, oldval) := atomic_compare_and_swap_val max_value v new_value
    if oldval = v then some max_value1
    else if oldval < new_value then atomic_set_max_loop fuel max_value1 oldval new_value
    else some max_value1

/-- The function `atomic_set_max(max_value, new_value)` for `T = size_t`, run without
interference: the content of `max_value` when it returns. -/
def atomic_set_max (fuel : Nat) (max_value new_value : Nat) : Option Nat :=
  let v := max_value
  if v < new_value then atomic_set_max_loop fuel max_value v new_value
  else some max_value

/-- The loop `do ... while (v > new_value)` of `atomic_set_min` for `T = size_t`. -/
def atomic_set_min_loop : Nat → Nat → Nat → Nat → Option Nat
  | 0, _, _, _ => none
  | fuel + 1, min_value, v, new_value =>
    let (min_value1, oldval) := atomic_compare_and_swap_val min_value v new_value
    if oldval = v then some min_value1
    else if oldval > new_value then atomic_set_min_loop fuel min_value1 oldval new_value
    else some min_value1

/-- The function `atomic_set_min(min_value, new_value)` for `T = size_t`, run without
interference: the content of `min_value` when it returns. -/
def atomic_set_min (fuel : Nat) (min_value new_value : Nat) : Option Nat :=
  let v := min_value
  if v > new_value then atomic_set_min_loop fuel min_value v new_value
  else some min_value

/-! ## The first rows of an array: `unity_sarray::head` -/

/-- The locals of `unity_sarray::head` that its body and its callback share.  The sarrays
created by `head` are kept by handle in `store`, each with the cells written to it so far;
`sa_head` is the handle the pointer `sa_head` holds, and `out` is the sarray that the output
iterator `out` declared at the top of `head`, which the callback captures by reference,
writes to. -/
structure head_locals where
  store : List sarray
  sa_head : Nat
  out : Nat
  row_counter : Nat
deriving DecidableEq

/-- The statements `*out = cell; ++out;`: the cell is added to the sarray the iterator
writes to. -/
def write_through (store : List sarray) (out : Nat) (cell : flexible_type) : List sarray :=
  match store[out]? with
  | some cells => store.set out (cells ++ [cell])
  | none => store

/-- The lambda `callback` of `unity_sarray::head` on the rows of a batch: the locals it
leaves and the value it returns. -/
def head_callback (nrows : Nat) :
    List (List flexible_type) → head_locals → head_locals × Except Exn Bool
  | [], l => (l, .ok false)
  | row :: rest, l =>
    match row_front row with
    | .error e => (l, .error e)
    | .ok cell =>
      let l1 := { l with store := write_through l.store l.out cell,
                         row_counter := (l.row_counter + 1) % 2 ^ 64 }
      if l1.row_counter = nrows then (l1, .ok true) else head_callback nrows rest l1

/-- Modelled from the spec: what a call `planner().materialize(node, callback, 1,
partial_materialize)` does as `head` sees it (the executor is not among the sources): the
batches it has for the single segment, "passing each batch to the sink", and the exception
with which it ends after them, if any. -/
structure materialize_run where
  batches : List sframe_rows
  raises : Option Exn
deriving DecidableEq

/-- Modelled from the spec: the batches of a run are passed to the callback in order, until
the callback returns true or raises, or the batches end. -/
def deliver (nrows : Nat) : List sframe_rows → head_locals → head_locals × Except Exn Bool
  | [], l => (l, .ok false)
  | data :: rest, l =>
    match head_callback nrows data l with
    | (l1, .error e) => (l1, .error e)
    | (l1, .ok true) => (l1, .ok true)
    | (l1, .ok false) => deliver nrows rest l1

/-- Modelled from the spec: a run of `planner().materialize` with the callback of `head`:
the locals it leaves, and the exception it raises, if any. -/
def run_materialize (run : materialize_run) (nrows : Nat) (l : head_locals) :
    head_locals × Option Exn :=
  match deliver nrows run.batches l with
  | (l1, .error e) => (l1, some e)
  | (l1, .ok true) => (l1, none)
  | (l1, .ok false) => (l1, run.raises)

/-- The statements `sa_head->close(); ret->construct_from_sarray(sa_head);`: the array
returned holds the cells of the sarray `sa_head` points to. -/
def close_head (l : head_locals) : Except Exn sarray :=
  match l.store[l.sa_head]? with
  | some cells => .ok cells
  | none => .error .undefined_behaviour

/-- The method `unity_sarray::head(nrows)`, over the two runs of `planner().materialize`:
`first_run` without and `second_run` with partial materialization.  In the `catch` block
the new sarray is assigned to `sa_head`, and `auto out = ...` declares a new local `out`:
the iterator captured by the callback is the one of the outer scope, which still writes to
the sarray created first (kept in the store here).  The value types of the sarrays are not
modelled. -/
def unity_sarray.head (first_run second_run : materialize_run) (nrows : Nat) :
    Except Exn sarray :=
  let l0 : head_locals := { store := [[]], sa_head := 0, out := 0, row_counter := 0 }
  if nrows > 0 then
    match run_materialize first_run nrows l0 with
    | (l1, none) => close_head l1
    | (l1, some _) =>
      let l2 := { l1 with store := l1.store ++ [[]], sa_head := l1.store.length,
                          row_counter := 0 }
      match run_materialize second_run nrows l2 with
      | (l3, none) => close_head l3
      | (_, some e) => .error e
  else close_head l0

/-- A run that fails before it delivers anything. -/
def failing_run : materialize_run := { batches := [], raises := some (.external 1) }

/-- A run that delivers the rows 1, 2, 3 in one batch and returns. -/
def three_rows_run : materialize_run :=
  { batches := [[[.INTEGER 1], [.INTEGER 2], [.INTEGER 3]]], raises := none }

/-! ## Runs of the reference counting of `comm_client` -/

namespace cppipc

/-- A call of one of the two methods that change the reference counts. -/
inductive ref_count_op
  | incr (object_id : Nat)
  | decr (object_id : Nat)
deriving DecidableEq

/-- The client after a call `incr_ref_count(id)` or `decr_ref_count(id)`. -/
def apply_ref_count_op (st : ref_count_state) : ref_count_op → Except Exn ref_count_state
  | .incr object_id => .ok (incr_ref_count st object_id).1
  | .decr object_id => do
    let (st1, _) ← decr_ref_count st object_id
    pure st1

/-- The client after a sequence of calls, made one after the other. -/
def run_ref_count_ops : List ref_count_op → ref_count_state → Except Exn ref_count_state
  | [], st => .ok st
  | op :: rest, st => do
    let st1 ← apply_ref_count_op st op
    run_ref_count_ops rest st1

/-- A client that tracks no object and has sent nothing. -/
def empty_ref_counts : ref_count_state :=
  { object_ref_count := fun _ => none, deletion_lists := [] }

/-- Every stored count is between 1 and `k`. -/
def CountsWithin (k : Nat) (st : ref_count_state) : Prop :=
  ∀ (id c : Nat), st.object_ref_count id = some c → 1 ≤ c ∧ c ≤ k

end cppipc

/-! ## The sink options in the log of executor calls -/

/-- The call was made with the write callback `write_callback` and the output location
`output_index_file`: a run of the executor received them in its options, and a save went
to that location, which is then not the empty one. -/
def Call.made_with (write_callback : Option Nat) (output_index_file : String) : Call → Prop
  | .run _ p => p.write_callback = write_callback ∧ p.output_index_file = output_index_file
  | .run_concat _ p =>
    p.write_callback = write_callback ∧ p.output_index_file = output_index_file
  | .save _ index_file => index_file = output_index_file ∧ output_index_file ≠ ""

/-- The call used no sink of the caller: it is a run of the executor without write callback
and without output location, not a save. -/
def Call.without_sink : Call → Prop
  | .run _ p => p.write_callback = none ∧ p.output_index_file = ""
  | .run_concat _ p => p.write_callback = none ∧ p.output_index_file = ""
  | .save _ _ => False

/-- The log `tr'` is the log `tr` followed by calls made with the sink options of `p`. -/
def LogsWith (p : materialize_options) (tr tr' : List Call) : Prop :=
  ∃ extra, tr' = tr ++ extra ∧
    ∀ c ∈ extra, Call.made_with p.write_callback p.output_index_file c

/-- The plan `append_state` after the append was materialized with `sample_env` to the
write callback 7 and the output location "out": the inputs and the append itself have
become sources during the partial materialization, which ran the executor without sink;
the final run received the sink options of the caller. -/
def append_state_to_callback : State :=
  { heap := append_state_done.heap
    trace := [Call.run 2 { sample_options with num_segments := 2 },
      Call.run 2 { sample_options with
        num_segments := 2, write_callback := some 7, output_index_file := "out" }] }

/-! ## What `naive_partial_materialize` leaves behind -/

/-- The class `flexible_type_parser`, which is not among the sources, as far as
`tokenize_line` uses it: `general_flexible_type_parse(buf, len)` advances `buf`; the
function gives the number of characters it advances by, 0 when nothing is parsed. -/
structure flexible_type_parser_t where
  general_flexible_type_parse : List Char → Nat

/-- The fields of `csv_line_tokenizer` that `tokenize_line` reads (csv_line_tokenizer.hpp is
not among the sources): the options of the caller, and the fields that `init()` sets. -/
structure csv_line_tokenizer where
  delimiter : List Char
  line_terminator : List Char
  quote_char : Char
  escape_char : Char
  double_quote : Bool
  preserve_quoting : Bool
  skip_initial_space : Bool
  has_comment_char : Bool
  comment_char : Char
  parser : Option flexible_type_parser_t
  is_regular_line_terminator : Bool
  delimiter_is_new_line : Bool
  delimiter_is_not_empty : Bool
  delimiter_is_space_but_not_tab : Bool
  delimiter_first_character : Char
  delimiter_is_singlechar : Bool

/-- The state of the tokenizer (`tokenizer_state`). -/
inductive tokenizer_state
  | START_FIELD
  | IN_FIELD
  | IN_QUOTED_FIELD
deriving DecidableEq

/-- The function `std::isspace` in the "C" locale: space, `\t`, `\n`, `\v`, `\f`, `\r`. -/
def isspace (c : Char) : Bool :=
  c == ' ' || c == '\t' || c == '\n' || c.toNat == 11 || c.toNat == 12 || c == '\r'

/-- The function `is_space_but_not_tab(c)`. -/
def is_space_but_not_tab (c : Char) : Bool :=
  c != '\t' && isspace c

namespace csv_line_tokenizer

/-- The method `init()`, with the constructor of the parser as a parameter.  The character
`delimiter[0]` of an empty delimiter is the terminating zero of the string. -/
def init (parser_factory : List Char → Char → flexible_type_parser_t)
    (t : csv_line_tokenizer) :
    csv_line_tokenizer :=
  let is_regular_line_terminator : Bool := t.line_terminator == ['\n']
  { t with
    parser := some (parser_factory t.delimiter t.escape_char)
    is_regular_line_terminator := is_regular_line_terminator
    delimiter_is_new_line :=
      if is_regular_line_terminator then
        t.delimiter == ['\n'] || t.delimiter == ['\r'] || t.delimiter == ['\r', '\n']
      else t.delimiter == t.line_terminator
    delimiter_is_not_empty := !t.delimiter.isEmpty
    delimiter_is_space_but_not_tab := !t.delimiter.isEmpty && t.delimiter.all is_space_but_not_tab
    delimiter_first_character := t.delimiter.headD (Char.ofNat 0)
    delimiter_is_singlechar := t.delimiter.length == 1 }

/-- The loop of `test_is_delimiter`: the characters of the delimiter are compared with
those at the position. -/
def delimiter_matches : List Char → List Char → Bool
  | _, [] => true
  | [], _ :: _ => false
  | c :: cs, x :: xs => if c != x then false else delimiter_matches cs xs

/-- The function `test_is_delimiter(c, end, delimiter, delimiter_end)`. -/
def test_is_delimiter (c delimiter : List Char) : Bool :=
  if delimiter.length > c.length then false else delimiter_matches c delimiter

/-- The macro `DELIMITER_TEST()` at the position `buf`, which is not the end of the
buffer. -/
def DELIMITER_TEST (t : csv_line_tokenizer) (buf : List Char) : Bool :=
  match buf with
  | [] => false
  | c :: _ =>
    (t.delimiter_is_not_empty && c == t.delimiter_first_character) &&
      (t.delimiter_is_singlechar || test_is_delimiter buf t.delimiter)

/-- The locals of `tokenize_line_impl`, with the field buffer up to `field_buffer_len` and
the state of the callbacks. -/
structure vars (σ : Type) where
  buf : List Char
  good : Bool
  keep_parsing : Bool
  start_field_with_delimiter_encountered : Bool
  escape_sequence : Bool
  state : tokenizer_state
  field_buffer : List Char
  callbacks : σ

/-- The macro `BEGIN_FIELD()`. -/
def BEGIN_FIELD {σ : Type} (v : vars σ) : vars σ :=
  { v with field_buffer := [] }

/-- The macro `PUSH_CHAR(c)`; the field buffer grows as needed. -/
def PUSH_CHAR {σ : Type} (t : csv_line_tokenizer) (c : Char) (v : vars σ) : vars σ :=
  { v with field_buffer := v.field_buffer ++ [c], escape_sequence := c == t.escape_char }

/-- The macro `END_FIELD()`: the locals it leaves, and whether it took its `break`. -/
def END_FIELD {σ : Type} (add_token : List Char → σ → σ × Bool) (v : vars σ) :
    vars σ × Bool :=
  let (s, accepted) := add_token v.field_buffer v.callbacks
  if !accepted then ({ v with callbacks := s, good := false, keep_parsing := false }, true)
  else ({ v with callbacks := s, field_buffer := [] }, false)

/-- The statements at the label `REGULAR_CHARACTER`: an unquoted field begins. -/
def REGULAR_CHARACTER {σ : Type} (t : csv_line_tokenizer) (c : Char) (v : vars σ) : vars σ :=
  { PUSH_CHAR t c { v with start_field_with_delimiter_encountered := false } with
    state := .IN_FIELD }

/-- The case `START_FIELD` of the loop, after `char c = *buf++`: the locals it leaves, and
whether it left the round with `continue`. -/
def case_START_FIELD {σ : Type} (t : csv_line_tokenizer)
    (add_token : List Char → σ → σ × Bool)
    (lookahead : List Char → σ → σ × Option (List Char)) (canceltoken : σ → σ)
    (is_delimiter : Bool) (c : Char) (v : vars σ) : vars σ × Bool :=
  if c = t.quote_char then
    if t.preserve_quoting = false then
      ({ PUSH_CHAR t c
          (BEGIN_FIELD { v with start_field_with_delimiter_encountered := false }) with
          state := .IN_QUOTED_FIELD }, false)
    else
      ({ PUSH_CHAR t c
          (BEGIN_FIELD { v with start_field_with_delimiter_encountered := false }) with
          state := .IN_FIELD }, false)
  else if is_space_but_not_tab c && t.skip_initial_space then (v, false)
  else if is_delimiter then
    ((END_FIELD add_token
      (BEGIN_FIELD { v with start_field_with_delimiter_encountered := true })).1, false)
  else if t.has_comment_char && c == t.comment_char then
    ({ v with start_field_with_delimiter_encountered := false, keep_parsing := false }, false)
  else if c = '[' ∨ c = '\x7b' then
    let prev := v.buf
    match lookahead (c :: prev) v.callbacks with
    | (s, some parsed) =>
      let buf := parsed.dropWhile isspace
      if buf = [] then
        ({ v with start_field_with_delimiter_encountered := false, callbacks := s,
                  buf := buf }, true)
      else if DELIMITER_TEST t buf then
        ({ v with start_field_with_delimiter_encountered := true, callbacks := s,
                  buf := buf.drop t.delimiter.length }, true)
      else if t.delimiter_is_space_but_not_tab then
        ({ v with start_field_with_delimiter_encountered := false, callbacks := s,
                  buf := buf }, true)
      else (REGULAR_CHARACTER t c { v with callbacks := canceltoken s, buf := prev }, false)
    | (s, none) => (REGULAR_CHARACTER t c { v with callbacks := s, buf := prev }, false)
  else (REGULAR_CHARACTER t c v, false)

/-- The case `IN_FIELD` of the loop. -/
def case_IN_FIELD {σ : Type} (t : csv_line_tokenizer)
    (add_token : List Char → σ → σ × Bool) (is_delimiter : Bool) (c : Char) (v : vars σ) :
    vars σ :=
  if is_delimiter then
    match END_FIELD add_token v with
    | (v1, true) => v1
    | (v1, false) =>
      { v1 with start_field_with_delimiter_encountered := true, state := .START_FIELD }
  else if t.has_comment_char && c == t.comment_char then
    match END_FIELD add_token v with
    | (v1, true) => v1
    | (v1, false) => { v1 with state := .START_FIELD, keep_parsing := false }
  else PUSH_CHAR t c v

/-- The test `buf + 1 < bufend && *buf == quote_char`: at least two characters are left,
and the next one is the quote character. -/
def quote_follows (t : csv_line_tokenizer) (buf : List Char) : Bool :=
  match buf with
  | next :: _ :: _ => next == t.quote_char
  | _ => false

/-- The case `IN_QUOTED_FIELD` of the loop. -/
def case_IN_QUOTED_FIELD {σ : Type} (t : csv_line_tokenizer) (c : Char) (v : vars σ) :
    vars σ :=
  if c = t.quote_char ∧ v.escape_sequence = false then
    if t.double_quote && quote_follows t v.buf then
      { PUSH_CHAR t c (PUSH_CHAR t c v) with buf := v.buf.drop 1 }
    else { PUSH_CHAR t c v with state := .IN_FIELD }
  else PUSH_CHAR t c v

/-- One round of the loop `while (keep_parsing && buf != bufend)`.  After a match of the
delimiter the position is moved to its last character, in every state. -/
def tokenize_step {σ : Type} (t : csv_line_tokenizer)
    (add_token : List Char → σ → σ × Bool)
    (lookahead : List Char → σ → σ × Option (List Char)) (canceltoken : σ → σ)
    (v : vars σ) : Except Exn (vars σ) :=
  let is_delimiter := DELIMITER_TEST t v.buf
  let reset_escape_sequence := v.escape_sequence
  match (if is_delimiter then v.buf.drop (t.delimiter.length - 1) else v.buf) with
  | [] => .error .undefined_behaviour
  | c :: rest =>
    let (v1, continued) :=
      match v.state with
      | .START_FIELD =>
        case_START_FIELD t add_token lookahead canceltoken is_delimiter c { v with buf := rest }
      | .IN_FIELD => (case_IN_FIELD t add_token is_delimiter c { v with buf := rest }, false)
      | .IN_QUOTED_FIELD => (case_IN_QUOTED_FIELD t c { v with buf := rest }, false)
    if !continued && reset_escape_sequence then .ok { v1 with escape_sequence := false }
    else .ok v1

/-- The loop `while (keep_parsing && buf != bufend)`; the first argument bounds the number
of rounds. -/
def tokenize_loop {σ : Type} (t : csv_line_tokenizer)
    (add_token : List Char → σ → σ × Bool)
    (lookahead : List Char → σ → σ × Option (List Char)) (canceltoken : σ → σ) :
    Nat → vars σ → Except Err (vars σ)
  | 0, v => if v.keep_parsing && !v.buf.isEmpty then .error .out_of_fuel else .ok v
  | fuel + 1, v =>
    if v.keep_parsing && !v.buf.isEmpty then
      match tokenize_step t add_token lookahead canceltoken v with
      | .error e => .error (.exn e)
      | .ok v1 => tokenize_loop t add_token lookahead canceltoken fuel v1
    else .ok v

/-- The end of `tokenize_line_impl`, after the loop: the field in progress, or the empty
field after a closing delimiter, is handed over. -/
def tokenize_cleanup {σ : Type} (add_token : List Char → σ → σ × Bool) (v : vars σ) :
    σ × Bool :=
  if !v.good then (v.callbacks, false)
  else if v.state ≠ .START_FIELD then add_token v.field_buffer v.callbacks
  else if v.start_field_with_delimiter_encountered then add_token [] v.callbacks
  else (v.callbacks, true)

/-- The method `tokenize_line_impl(str, len, add_token, lookahead, canceltoken)`: the state
of the callbacks and the value returned. -/
def tokenize_line_impl {σ : Type} (t : csv_line_tokenizer) (fuel : Nat) (str : List Char)
    (add_token : List Char → σ → σ × Bool)
    (lookahead : List Char → σ → σ × Option (List Char)) (canceltoken : σ → σ) (s : σ) :
    Except Err (σ × Bool) :=
  match t.parser with
  | none => .error (.exn .assertion_failure)
  | some _ =>
    if t.delimiter_is_new_line then .ok ((add_token str s).1, true)
    else
      match tokenize_loop t add_token lookahead canceltoken fuel
          { buf := str, good := true, keep_parsing := true,
            start_field_with_delimiter_encountered := false, escape_sequence := false,
            state := .START_FIELD, field_buffer := [], callbacks := s } with
      | .error e => .error e
      | .ok v => .ok (tokenize_cleanup add_token v)

/-- The lambda that `tokenize_line(str, len, fn)` passes as `lookahead`: what the parser
takes from the position is handed to `fn` as one token. -/
def tokenize_line_lookahead {σ : Type} (t : csv_line_tokenizer)
    (fn : List Char → Nat → σ → σ × Bool) (buf : List Char) (s : σ) :
    σ × Option (List Char) :=
  match t.parser with
  | none => (s, none)
  | some parser =>
    let n := parser.general_flexible_type_parse buf
    if n ≠ 0 then ((fn (buf.take n) (buf.take n).length s).1, some (buf.drop n))
    else (s, none)

/-- The method `tokenize_line(str, len, fn)`: the callback `fn` receives every token with
its length and acts on a state of type `σ`. -/
def tokenize_line {σ : Type} (t : csv_line_tokenizer) (fuel : Nat) (str : List Char)
    (fn : List Char → Nat → σ → σ × Bool) (s : σ) : Except Err (σ × Bool) :=
  tokenize_line_impl t fuel str (fun buf s => fn buf buf.length s)
    (tokenize_line_lookahead t fn) (fun s => s) s

end csv_line_tokenizer

/-- A callback that keeps the tokens it receives, in order, and accepts each. -/
def collect_tokens (token : List Char) (_len : Nat) (tokens : List (List Char)) :
    List (List Char) × Bool :=
  (tokens ++ [token], true)

/-- A parser that parses nothing. -/
def sample_parser_factory (_delimiter : List Char) (_escape_char : Char) :
    flexible_type_parser_t :=
  { general_flexible_type_parse := fun _ => 0 }

/-- A tokenizer with the given delimiter, the quote character `"`, the escape character
`\`, doubled quotes, no comment character, and quoting not preserved. -/
def sample_tokenizer (delimiter : List Char) : csv_line_tokenizer :=
  csv_line_tokenizer.init sample_parser_factory
    { delimiter := delimiter, line_terminator := ['\n'], quote_char := '"',
      escape_char := '\\', double_quote := true, preserve_quoting := false,
      skip_initial_space := false, has_comment_char := false, comment_char := '#',
      parser := none, is_regular_line_terminator := false, delimiter_is_new_line := false,
      delimiter_is_not_empty := false, delimiter_is_space_but_not_tab := false,
      delimiter_first_character := ' ', delimiter_is_singlechar := false }

/-- The fields of a line without quotes, comments and brackets: the line is cut at every
occurrence of the delimiter `d`; `cur` is the part of the current field already read. -/
def fields_of (d : Char) : List Char → List Char → List (List Char)
  | [], cur => [cur]
  | c :: rest, cur => if c = d then cur :: fields_of d rest [] else fields_of d rest (cur ++ [c])

/-- The tokens of a line without quotes, comments and brackets: none for the empty line,
and the fields of the line otherwise. -/
def expected_tokens (d : Char) (line : List Char) : List (List Char) :=
  if line = [] then [] else fields_of d line []

/-- The character is none of those the tokenizer treats specially in an unquoted field,
the delimiter apart: the quote character, the comment character, `[` and the opening
brace. -/
def PlainChar (t : csv_line_tokenizer) (c : Char) : Prop :=
  c ≠ t.quote_char ∧ (t.has_comment_char = true → c ≠ t.comment_char) ∧ c ≠ '[' ∧
    c ≠ '\x7b'

/-- The tokens still to come, loop and end of `tokenize_line_impl` together, from a state
of the tokenizer outside quotes with `rest` left to read. -/
def tokens_to_come (d : Char) (state : tokenizer_state)
    (start_field_with_delimiter_encountered : Bool) (field_buffer rest : List Char) :
    List (List Char) :=
  match state with
  | .START_FIELD =>
    if rest = [] ∧ start_field_with_delimiter_encountered = false then []
    else fields_of d rest []
  | _ => fields_of d rest field_buffer

/-- The tokenizer has the single-character delimiter `d`, as `init()` records it, and does
not skip initial spaces. -/
structure SingleCharDelimiter (t : csv_line_tokenizer) (d : Char) : Prop where
  not_empty : t.delimiter_is_not_empty = true
  first : t.delimiter_first_character = d
  singlechar : t.delimiter_is_singlechar = true
  length : t.delimiter.length = 1
  skip : t.skip_initial_space = false

/-! ## Reasoning about `Except` -/

theorem bind_ok_iff {ε α β : Type} (x : Except ε α) (f : α → Except ε β) (b : β) :
    (x >>= f) = .ok b ↔ ∃ a, x = .ok a ∧ f a = .ok b := by
  cases x with
  | error e => simp [bind, Except.bind]
  | ok a => simp [bind, Except.bind]

theorem liftExn_ok_iff {α : Type} (x : Except Exn α) (a : α) :
    liftExn x = .ok a ↔ x = .ok a := by
  cases x <;> simp [liftExn]

theorem deref_ok_iff (st : State) (p : pnode_ptr) (node : planner_node) :
    st.deref p = .ok node ↔ st.heap[p]? = some node := by
  unfold State.deref
  cases h : st.heap[p]? <;> simp

theorem assign_ok_iff (st st1 : State) (p : pnode_ptr) (node : planner_node) :
    st.assign p node = .ok st1 ↔
      p < st.heap.length ∧ st1 = { st with heap := st.heap.set p node } := by
  unfold State.assign
  split <;> simp_all [eq_comm]

/-! ## The fast paths of `execute_node` -/

/-- C3: with a write callback set, `execute_node` is `execute_node_impl`, whatever the
node: none of the fast paths is taken. -/
theorem execute_node_with_callback (env : Env) (st : State) (n : pnode_ptr)
    (exec_params : materialize_options) (hcb : exec_params.write_callback ≠ none) :
    execute_node env st n exec_params = execute_node_impl env st n exec_params := by
  unfold execute_node
  cases h : exec_params.write_callback with
  | none => exact absurd h hcb
  | some cb => rfl

/-- C3, on the sample collaborators: a source node over a whole frame, which the fast path
would return as it is, is handed to the executor when a callback is set. -/
theorem execute_node_with_callback_witness :
    ({ sample_options with write_callback := some 0 } : materialize_options).write_callback
        ≠ none ∧
      execute_node sample_env (single_node_state (op_sframe_source.make_planner_node frame_a)) 0
          { sample_options with write_callback := some 0 } =
        execute_node_impl sample_env
          (single_node_state (op_sframe_source.make_planner_node frame_a)) 0
          { sample_options with write_callback := some 0 } :=
  ⟨by decide, execute_node_with_callback _ _ _ _ (by decide)⟩

/-- C5: a source node over the whole of `frame_a`, executed with an output location and no
column names: the renaming loop reads `output_column_names[0]` of an empty vector, and
nothing is saved or returned. -/
theorem execute_node_sframe_source_reads_missing_name :
    save_options.write_callback = none ∧ save_options.output_index_file ≠ "" ∧
      save_options.output_column_names = [] ∧
      execute_node sample_env (single_node_state (op_sframe_source.make_planner_node frame_a)) 0
          save_options = .error .undefined_behaviour :=
  ⟨rfl, by decide, rfl, rfl⟩

/-- C6, as stated, fails: a whole-range `SARRAY_SOURCE_NODE`, an output location and two
column names make `execute_node` raise on `ASSERT_EQ(1, output_column_names.size())`. -/
theorem execute_node_sarray_source_two_names_raises :
    execute_node sample_env (single_node_state (sarray_source_node column_b)) 0
        { save_options with output_column_names := ["a", "b"] } =
      .error .assertion_failure :=
  rfl

/-- C6, amended: for an `SARRAY_SOURCE_NODE` over its whole column and no write callback,
`execute_node` returns the one-column frame over that column, named `X1`, when no output
location is given; with an output location and exactly one column name it saves and returns
the frame under that name; with an output location and two or more names it raises. -/
theorem execute_node_sarray_source (env : Env) (st : State) (n : pnode_ptr)
    (node : planner_node) (sa : sarray) (b e : flexible_type)
    (exec_params : materialize_options)
    (hnode : st.heap[n]? = some node)
    (htype : node.operator_type = .SARRAY_SOURCE_NODE)
    (hsa : node.any_operator_parameters.lookup "sarray" = some (.of_sarray sa))
    (hb : node.operator_parameters.lookup "begin_index" = some b)
    (hb0 : b.eq_size_t 0 = true)
    (he : node.operator_parameters.lookup "end_index" = some e)
    (he0 : e.eq_size_t sa.length = true)
    (hcb : exec_params.write_callback = none) :
    (exec_params.output_index_file = "" →
      execute_node env st n exec_params = .ok (st, ⟨[sa], ["X1"]⟩)) ∧
    (exec_params.output_index_file ≠ "" → ∀ name, exec_params.output_column_names = [name] →
      env.save ⟨[sa], [name]⟩ exec_params.output_index_file = .ok () →
      execute_node env st n exec_params =
        .ok ({ st with
                trace := st.trace ++ [Call.save ⟨[sa], [name]⟩ exec_params.output_index_file] },
          ⟨[sa], [name]⟩)) ∧
    (exec_params.output_index_file ≠ "" → 2 ≤ exec_params.output_column_names.length →
      execute_node env st n exec_params = .error .assertion_failure) := by
  refine ⟨?_, ?_, ?_⟩
  · intro hf
    simp [execute_node, execute_sarray_source, covers_full_range, assert_names_match, vector_at,
      hcb, State.deref, hnode,
      htype, map_at, hsa, hb, he, hb0, he0,
      any_value.as_sarray, sframe.construct, hf, bind, Except.bind, pure, Except.pure]
  · intro hf name hn hs
    simp [execute_node, execute_sarray_source, covers_full_range, assert_names_match, vector_at,
      hcb, State.deref, hnode,
      htype, map_at, hsa, hb, he, hb0, he0,
      any_value.as_sarray, sframe.construct, hf, hn, bind, Except.bind, pure, Except.pure,
      sframe.set_column_name, hs]
  · intro hf hl
    have hne : exec_params.output_column_names ≠ [] := by
      intro h0; rw [h0] at hl; simp at hl
    have hne1 : ¬ (1 = exec_params.output_column_names.length) := by omega
    simp [execute_node, execute_sarray_source, covers_full_range, assert_names_match, vector_at,
      hcb, State.deref, hnode,
      htype, map_at, hsa, hb, he, hb0, he0,
      any_value.as_sarray, sframe.construct, hf, bind, Except.bind, pure, Except.pure,
      hne, hne1, throw, throwThe, MonadExceptOf.throw]

/-- C6, amended, on the sample collaborators: the column `column_b` behind a source node,
executed with the default options. -/
theorem execute_node_sarray_source_witness :
    execute_node sample_env (single_node_state (sarray_source_node column_b)) 0
        sample_options =
      .ok (single_node_state (sarray_source_node column_b), ⟨[column_b], ["X1"]⟩) :=
  (execute_node_sarray_source sample_env (single_node_state (sarray_source_node column_b)) 0
    (sarray_source_node column_b) column_b (.INTEGER 0) (.INTEGER 2) sample_options
    rfl rfl rfl rfl rfl rfl rfl rfl).1 rfl

/-! ## The recommendation to materialize -/

/-- C10, as stated, fails: with the default threshold 10000 and a plan of exactly 10000
nodes the recommendation is made although the count does not exceed the threshold. -/
theorem online_materialization_at_threshold :
    sample_env.SFRAME_MAX_LAZY_NODE_SIZE = 10000 ∧
      sample_env.infer_planner_node_num_dependency_nodes chain_state.heap 9999 = 10000 ∧
      planner.online_materialization_recommended sample_env chain_state 9999 = true ∧
      ¬ (sample_env.infer_planner_node_num_dependency_nodes chain_state.heap 9999 >
          sample_env.SFRAME_MAX_LAZY_NODE_SIZE) :=
  ⟨rfl, rfl, rfl, by decide⟩

/-- C10, amended: `online_materialization_recommended(tip)` is true exactly when the
dependency-node count is at least the threshold `SFRAME_MAX_LAZY_NODE_SIZE`, whose initial
value is 10000. -/
theorem online_materialization_recommended_iff (env : Env) (st : State) (tip : pnode_ptr) :
    (planner.online_materialization_recommended env st tip = true ↔
      env.infer_planner_node_num_dependency_nodes st.heap tip ≥ env.SFRAME_MAX_LAZY_NODE_SIZE) ∧
    SFRAME_MAX_LAZY_NODE_SIZE_default = 10000 := by
  constructor
  · simp [planner.online_materialization_recommended]
  · rfl

/-! ## `planner::materialize` -/

theorem default_num_segments_write_callback (env : Env) (p : materialize_options) :
    (planner.default_num_segments env p).write_callback = p.write_callback := by
  unfold planner.default_num_segments; split <;> rfl

theorem default_num_segments_output_index_file (env : Env) (p : materialize_options) :
    (planner.default_num_segments env p).output_index_file = p.output_index_file := by
  unfold planner.default_num_segments; split <;> rfl

theorem set_same {α : Type} (l : List α) (i : Nat) (a : α) (h : l[i]? = some a) :
    l.set i a = l := by
  induction l generalizing i with
  | nil => rfl
  | cons x xs ih =>
    cases i with
    | zero => simp at h; simp [h]
    | succ j => simp at h; simp [ih j h]

theorem execute_node_whole_sframe_source (env : Env) (st : State) (n : pnode_ptr) (sf : sframe)
    (exec_params : materialize_options)
    (hnode : st.heap[n]? = some (op_sframe_source.make_planner_node sf))
    (hcb : exec_params.write_callback = none) (hfile : exec_params.output_index_file = "") :
    execute_node env st n exec_params = .ok (st, sf) := by
  simp [execute_node, execute_sframe_source, covers_full_range, hcb, State.deref, hnode,
    op_sframe_source.make_planner_node, map_at,
    List.lookup, any_value.as_sframe, flexible_type.eq_size_t, hfile, bind, Except.bind,
    pure, Except.pure]

theorem partial_materialize_impl_leaf (env : Env) (exec_params : materialize_options)
    (fuel : Nat) (st : State) (n : pnode_ptr) (node : planner_node)
    (hnode : st.heap[n]? = some node) (hin : node.inputs = []) :
    partial_materialize_impl env exec_params (fuel + 1) st [] n = .ok (st, [(n, n)], n) := by
  have hloop : materialize_inputs_loop (partial_materialize_impl env exec_params fuel) n fuel 0
      st [] = .ok (st, []) := by
    cases fuel <;>
      simp [materialize_inputs_loop, State.deref, hnode, liftExn, hin, bind, Except.bind,
        pure, Except.pure]
  simp [partial_materialize_impl, hloop, State.deref, hnode, liftExn, hin, bind, Except.bind,
    pure, Except.pure]

theorem naive_partial_materialize_leaf (env : Env) (exec_params : materialize_options)
    (fuel : Nat) (st : State) (n : pnode_ptr) (node : planner_node)
    (hnode : st.heap[n]? = some node) (hin : node.inputs = []) :
    naive_partial_materialize env exec_params (fuel + 1) st n = .ok (st, n) := by
  have hloop : naive_inputs_loop env exec_params
      (naive_partial_materialize env exec_params fuel) n fuel 0 st = .ok st := by
    cases fuel <;>
      simp [naive_inputs_loop, State.deref, hnode, liftExn, hin, bind, Except.bind,
        pure, Except.pure]
  simp [naive_partial_materialize, hloop, bind, Except.bind, pure, Except.pure]

theorem materialize_tip_after (env : Env) (fuel : Nat) (st st1 : State) (tip : pnode_ptr)
    (exec_params : materialize_options) (sf : sframe)
    (hcb : exec_params.write_callback = none)
    (hret : planner.materialize env fuel st tip exec_params = .ok (st1, sf)) :
    st1.heap[tip]? = some (op_sframe_source.make_planner_node sf) := by
  unfold planner.materialize at hret
  simp only [bind_ok_iff, liftExn_ok_iff] at hret
  obtain ⟨⟨st1, ptip1⟩, -, ⟨st2, fin⟩, -, h3⟩ := hret
  unfold planner.execute_final_node at h3
  simp only [default_num_segments_write_callback, hcb, bind_ok_iff, assign_ok_iff] at h3
  obtain ⟨⟨st3, ret⟩, -, st4, ⟨hlt, rfl⟩, h5⟩ := h3
  simp only [pure, Except.pure, Except.ok.injEq, Prod.mk.injEq] at h5
  obtain ⟨rfl, rfl⟩ := h5
  simp [hlt]

/-- C1: when `materialize` returns a frame and no write callback was given, the node the
caller passed in holds `op_sframe_source::make_planner_node` of that frame: a node of kind
`SFRAME_SOURCE_NODE` whose parameter `sframe` is the frame returned.  The optimizer may
return any node. -/
theorem materialize_rewrites_tip (env : Env) (fuel : Nat) (st st1 : State) (tip : pnode_ptr)
    (exec_params : materialize_options) (sf : sframe)
    (hcb : exec_params.write_callback = none)
    (hret : planner.materialize env fuel st tip exec_params = .ok (st1, sf)) :
    st1.heap[tip]? = some (op_sframe_source.make_planner_node sf) ∧
      ∃ node, st1.heap[tip]? = some node ∧
        node.operator_type = .SFRAME_SOURCE_NODE ∧
        map_at node.any_operator_parameters "sframe" = .ok (.of_sframe sf) := by
  have hget := materialize_tip_after env fuel st st1 tip exec_params sf hcb hret
  exact ⟨hget, _, hget, rfl, rfl⟩

/-- C1, on a transform over a column, with an optimizer that returns a copy of the tip under
another handle: the handle of the caller is the one rewritten. -/
theorem materialize_rewrites_tip_witness :
    two_node_state_copied.heap[1]? = some (op_sframe_source.make_planner_node (sample_frame 2)) ∧
      ∃ node, two_node_state_copied.heap[1]? = some node ∧
        node.operator_type = .SFRAME_SOURCE_NODE ∧
        map_at node.any_operator_parameters "sframe" = .ok (.of_sframe (sample_frame 2)) :=
  materialize_rewrites_tip copying_env 5 two_node_state two_node_state_copied 1 sample_options
    (sample_frame 2) rfl rfl

theorem partial_materialize_leaf (env : Env) (exec_params : materialize_options)
    (fuel : Nat) (st : State) (n : pnode_ptr) (node : planner_node)
    (hnode : st.heap[n]? = some node) (hin : node.inputs = []) :
    partial_materialize env (fuel + 1) st n exec_params = .ok (st, n) := by
  unfold partial_materialize
  split
  · exact naive_partial_materialize_leaf env _ fuel st n _ hnode hin
  · simp [partial_materialize_impl_leaf env _ fuel st n _ hnode hin, bind, Except.bind,
      pure, Except.pure]

/-- C2: after `materialize` has returned `sf` with no write callback and no output
location, and with an optimizer that returns the rewritten tip as it is, `materialize` on
the same tip returns `sf` again and leaves the state as it was: the log of executor runs
does not grow.  Any positive recursion budget is enough. -/
theorem materialize_again (env : Env) (fuel fuel2 : Nat) (st st1 : State) (tip : pnode_ptr)
    (exec_params : materialize_options) (sf : sframe)
    (hcb : exec_params.write_callback = none)
    (hfile : exec_params.output_index_file = "")
    (hfirst : planner.materialize env fuel st tip exec_params = .ok (st1, sf))
    (hopt : ∀ params, env.optimize_planner_graph st1.heap tip params = .ok (st1.heap, tip))
    (hfuel : 0 < fuel2) :
    planner.materialize env fuel2 st1 tip exec_params = .ok (st1, sf) := by
  have hnode := materialize_tip_after env fuel st st1 tip exec_params sf hcb hfirst
  obtain ⟨f, rfl⟩ : ∃ f, fuel2 = f + 1 := ⟨fuel2 - 1, by omega⟩
  have hin : (op_sframe_source.make_planner_node sf).inputs = [] := rfl
  have h1 : planner.optimize_tip env st1 tip (planner.default_num_segments env exec_params) =
      .ok (st1, tip) := by
    unfold planner.optimize_tip
    split <;> simp [hopt, bind, Except.bind, pure, Except.pure]
  have h2 : planner.partial_materialize_tip env (f + 1) st1 tip
      (planner.default_num_segments env exec_params) = .ok (st1, tip) := by
    unfold planner.partial_materialize_tip
    split
    · exact partial_materialize_leaf env _ f st1 tip _ hnode hin
    · rfl
  have h3 : planner.execute_final_node env st1 tip tip
      (planner.default_num_segments env exec_params) = .ok (st1, sf) := by
    unfold planner.execute_final_node
    have hlt : tip < st1.heap.length := by
      rcases Nat.lt_or_ge tip st1.heap.length with h | h
      · exact h
      · rw [List.getElem?_eq_none h] at hnode; cases hnode
    simp [default_num_segments_write_callback, hcb,
      execute_node_whole_sframe_source env st1 tip sf _ hnode
        ((default_num_segments_write_callback env exec_params).trans hcb)
        ((default_num_segments_output_index_file env exec_params).trans hfile),
      State.assign, hlt, set_same _ _ _ hnode, bind, Except.bind, pure, Except.pure]
  simp [planner.materialize, h1, h2, h3, liftExn, bind, Except.bind]

/-- C2, on the transform over a column: materialized once, then again. -/
theorem materialize_again_witness :
    planner.materialize sample_env 1 two_node_state_done 1 sample_options =
      .ok (two_node_state_done, sample_frame 1) :=
  materialize_again sample_env 5 1 two_node_state two_node_state_done 1 sample_options
    (sample_frame 1) rfl rfl rfl (fun _ => rfl) (by decide)

/-! ## The union-project fast path -/

theorem split_existing_columns_fst (m : List (Nat × sarray)) (l : List Nat) :
    ∀ (c : List Nat) (r : List (Option sarray)),
      (split_existing_columns m l (c, r)).1 = c ++ l.filter (fun i => (m.lookup i).isNone) := by
  induction l with
  | nil => intro c r; simp [split_existing_columns]
  | cons i rest ih =>
    intro c r
    unfold split_existing_columns
    cases h : m.lookup i with
    | none => simp [ih, h]
    | some col => simp [ih, h]

theorem split_existing_columns_length (m : List (Nat × sarray)) (l : List Nat) :
    ∀ (c : List Nat) (r : List (Option sarray)),
      (split_existing_columns m l (c, r)).2.length = r.length := by
  induction l with
  | nil => intro c r; simp [split_existing_columns]
  | cons i rest ih =>
    intro c r
    unfold split_existing_columns
    cases h : m.lookup i with
    | none => simp [ih]
    | some col => simp [ih]

theorem split_existing_columns_get (m : List (Nat × sarray)) (l : List Nat) :
    ∀ (c : List Nat) (r : List (Option sarray)) (s : Nat), s < r.length →
      (split_existing_columns m l (c, r)).2[s]? =
        if s ∈ l ∧ (m.lookup s).isSome then some (m.lookup s) else r[s]? := by
  induction l with
  | nil => intro c r s _; simp [split_existing_columns]
  | cons i rest ih =>
    intro c r s hs
    unfold split_existing_columns
    cases h : m.lookup i with
    | none =>
      simp only []
      rw [ih (c ++ [i]) r s hs]
      by_cases hsi : s = i
      · subst hsi; simp [h]
      · by_cases hc : s ∈ rest ∧ (m.lookup s).isSome
        · rw [if_pos hc, if_pos ⟨List.mem_cons_of_mem _ hc.1, hc.2⟩]
        · rw [if_neg hc, if_neg]
          rintro ⟨hmem, hsome⟩
          rcases List.mem_cons.mp hmem with e | e
          · exact hsi e
          · exact hc ⟨e, hsome⟩
    | some col =>
      simp only []
      rw [ih c (r.set i (some col)) s (by simpa using hs)]
      by_cases hsi : s = i
      · subst hsi
        simp [h, hs]
      · have : i ≠ s := fun e => hsi e.symm
        rw [List.getElem?_set_ne this]
        by_cases hc : s ∈ rest ∧ (m.lookup s).isSome
        · rw [if_pos hc, if_pos ⟨List.mem_cons_of_mem _ hc.1, hc.2⟩]
        · rw [if_neg hc, if_neg]
          rintro ⟨hmem, hsome⟩
          rcases List.mem_cons.mp hmem with e | e
          · exact hsi e
          · exact hc ⟨e, hsome⟩

theorem nodup_getElem?_inj {α : Type} {l : List α} (hl : l.Nodup) {j j' : Nat} {a : α}
    (h1 : l[j]? = some a) (h2 : l[j']? = some a) : j = j' := by
  obtain ⟨hj, e1⟩ := List.getElem?_eq_some.mp h1
  obtain ⟨hj', e2⟩ := List.getElem?_eq_some.mp h2
  exact (hl.getElem_inj_iff).mp (e1.trans e2.symm)

theorem fill_materialized_columns_spec (cols : List Nat) (new_columns : sframe)
    (hcols : cols.Nodup) (l : List Nat) :
    ∀ (r : List (Option sarray)), l.Nodup →
      (∀ j ∈ l, j < cols.length ∧ j < new_columns.columns.length) →
      ∃ r', fill_materialized_columns cols new_columns l r = .ok r' ∧
        r'.length = r.length ∧
        (∀ s, (∀ j ∈ l, cols[j]? ≠ some s) → r'[s]? = r[s]?) ∧
        (∀ j ∈ l, ∀ s, cols[j]? = some s → s < r.length →
          ∃ col, new_columns.columns[j]? = some col ∧ r'[s]? = some (some col)) := by
  induction l with
  | nil =>
    intro r _ _
    exact ⟨r, rfl, rfl, fun _ _ => rfl, fun j hj => absurd hj (List.not_mem_nil j)⟩
  | cons j0 rest ih =>
    intro r hnd hb
    obtain ⟨hj0c, hj0n⟩ := hb j0 (List.mem_cons_self _ _)
    obtain ⟨slot, hslot⟩ : ∃ slot, cols[j0]? = some slot := ⟨cols[j0], List.getElem?_eq_getElem hj0c⟩
    obtain ⟨col0, hcol0⟩ : ∃ c, new_columns.columns[j0]? = some c :=
      ⟨new_columns.columns[j0], List.getElem?_eq_getElem hj0n⟩
    have hnd' := (List.nodup_cons.mp hnd)
    obtain ⟨r', hr', hlen, ha, hbb⟩ := ih (r.set slot (some col0)) hnd'.2
      (fun j hj => hb j (List.mem_cons_of_mem _ hj))
    refine ⟨r', ?_, ?_, ?_, ?_⟩
    · simp [fill_materialized_columns, hslot, sframe.select_column, hcol0, hr', bind,
        Except.bind]
    · simpa using hlen
    · intro s hs
      have hne : slot ≠ s := by
        intro e; exact hs j0 (List.mem_cons_self _ _) (e ▸ hslot)
      rw [ha s (fun j hj => hs j (List.mem_cons_of_mem _ hj)), List.getElem?_set_ne hne]
    · intro j hj s hjs hsl
      rcases List.mem_cons.mp hj with e | e
      · subst e
        have hs : s = slot := by rw [hslot] at hjs; exact (Option.some.inj hjs).symm
        subst hs
        refine ⟨col0, hcol0, ?_⟩
        rw [ha s ?_, List.getElem?_set_self hsl]
        intro j' hj' hc
        have := nodup_getElem?_inj hcols hc hslot
        exact hnd'.1 (this ▸ hj')
      · exact hbb j e s hjs (by simpa using hsl)

theorem filterMap_id_of_all_some {α : Type} (r : List (Option α))
    (h : ∀ x ∈ r, x.isSome = true) :
    (r.filterMap id).length = r.length ∧
      ∀ i : Nat, (r.filterMap id)[i]? = (r[i]?).bind id := by
  induction r with
  | nil => simp
  | cons x xs ih =>
    obtain ⟨a, rfl⟩ := Option.isSome_iff_exists.mp (h x (List.mem_cons_self _ _))
    obtain ⟨h1, h2⟩ := ih (fun y hy => h y (List.mem_cons_of_mem _ hy))
    refine ⟨by simp [h1], ?_⟩
    intro i
    cases i with
    | zero => simp
    | succ k => simpa using h2 k

theorem construct_ok (r : List (Option sarray)) (names : List String)
    (h : ∀ x ∈ r, x.isSome = true) :
    sframe.construct r names = .ok ⟨r.filterMap id, names⟩ := by
  unfold sframe.construct
  rw [if_pos]
  simpa [List.all_eq_true] using h

theorem resulting_columns_initial (m : List (Nat × sarray)) (n : Nat) :
    split_existing_columns m (List.range n) ([], List.replicate n none) =
      ((List.range n).filter (fun i => (m.lookup i).isNone),
        (split_existing_columns m (List.range n) ([], List.replicate n none)).2) ∧
    (split_existing_columns m (List.range n) ([], List.replicate n none)).2.length = n ∧
    ∀ s < n, (split_existing_columns m (List.range n) ([], List.replicate n none)).2[s]? =
      some (m.lookup s) := by
  refine ⟨?_, ?_, ?_⟩
  · apply Prod.ext
    · simpa using split_existing_columns_fst m (List.range n) [] (List.replicate n none)
    · rfl
  · simpa using split_existing_columns_length m (List.range n) [] (List.replicate n none)
  · intro s hs
    rw [split_existing_columns_get m (List.range n) [] (List.replicate n none) s (by simpa using hs)]
    cases h : m.lookup s with
    | none => simp [hs]
    | some col => simp [hs, List.mem_range]

/-- C4: for a `GENERALIZED_UNION_PROJECT_NODE` with a non-empty `direct_source_mapping` and
no write callback, with `ncolumns` the inferred number of output columns and
`columns_to_materialize` the increasing list of the indices below `ncolumns` that are not
keys of the mapping.  When that list is empty, `execute_node` returns, in the state it
started from, a frame of `ncolumns` columns whose column `i` is the mapped one.  Otherwise,
once the projection on `columns_to_materialize` has been built, optimized and executed by
`execute_node_impl` into a frame `new_columns` with enough columns, `execute_node` returns
a frame of `ncolumns` columns in which column `i` is the mapped one when `i` is a key and
column `j` of `new_columns`, with `columns_to_materialize[j] = i`, when it is not. -/
theorem execute_node_union_project (env : Env) (st : State) (n : pnode_ptr)
    (node : planner_node) (m : List (Nat × sarray)) (exec_params : materialize_options)
    (hnode : st.heap[n]? = some node)
    (htype : node.operator_type = .GENERALIZED_UNION_PROJECT_NODE)
    (hm : node.any_operator_parameters.lookup "direct_source_mapping" =
      some (.of_column_map m))
    (hne : m ≠ [])
    (hcb : exec_params.write_callback = none) :
    (((List.range (env.infer_planner_node_num_output_columns st.heap n)).filter
          (fun i => (m.lookup i).isNone)) = [] →
      ∃ sf, execute_node env st n exec_params = .ok (st, sf) ∧
        sf.num_columns = env.infer_planner_node_num_output_columns st.heap n ∧
        ∀ i < env.infer_planner_node_num_output_columns st.heap n,
          ∃ col, m.lookup i = some col ∧ sf.columns[i]? = some col) ∧
    (((List.range (env.infer_planner_node_num_output_columns st.heap n)).filter
          (fun i => (m.lookup i).isNone)) ≠ [] →
      ∀ h1 project_n h2 optimized_n st3 new_columns,
        env.op_project_make_planner_node st.heap n
            ((List.range (env.infer_planner_node_num_output_columns st.heap n)).filter
              (fun i => (m.lookup i).isNone)) = .ok (h1, project_n) →
        env.optimize_planner_graph h1 project_n { exec_params with output_column_names := [] } =
          .ok (h2, optimized_n) →
        execute_node_impl env { st with heap := h2 } optimized_n
            { exec_params with output_column_names := [] } = .ok (st3, new_columns) →
        ((List.range (env.infer_planner_node_num_output_columns st.heap n)).filter
            (fun i => (m.lookup i).isNone)).length ≤ new_columns.num_columns →
        ∃ sf, execute_node env st n exec_params = .ok (st3, sf) ∧
          sf.num_columns = env.infer_planner_node_num_output_columns st.heap n ∧
          ∀ i < env.infer_planner_node_num_output_columns st.heap n,
            (∀ col, m.lookup i = some col → sf.columns[i]? = some col) ∧
            (m.lookup i = none → ∃ (j : Nat) (col : sarray),
              ((List.range (env.infer_planner_node_num_output_columns st.heap n)).filter
                (fun i => (m.lookup i).isNone))[j]? = some i ∧
              new_columns.columns[j]? = some col ∧ sf.columns[i]? = some col)) := by
  obtain ⟨hsplit, hlen, hget⟩ :=
    resulting_columns_initial m (env.infer_planner_node_num_output_columns st.heap n)
  have hunfold := hsplit
  generalize hN : env.infer_planner_node_num_output_columns st.heap n = N at *
  generalize hr0 : (split_existing_columns m (List.range N) ([], List.replicate N none)).2 = r0
    at *
  generalize hcols : (List.range N).filter (fun i => (m.lookup i).isNone) = cols at *
  have hcols_mem : ∀ s, s ∈ cols ↔ s < N ∧ m.lookup s = none := by
    intro s; rw [← hcols]; simp [List.mem_filter, List.mem_range]
  have hcols_nd : cols.Nodup := by
    rw [← hcols]; exact (List.nodup_range N).filter _
  constructor
  · intro hempty
    have hall : ∀ x ∈ r0, x.isSome = true := by
      intro x hx
      obtain ⟨s, hs⟩ := List.mem_iff_getElem?.mp hx
      have hsN : s < N := by
        rcases Nat.lt_or_ge s N with h | h
        · exact h
        · rw [List.getElem?_eq_none (by omega)] at hs; cases hs
      rw [hget s hsN] at hs
      cases hl : m.lookup s with
      | none =>
        have : s ∈ cols := (hcols_mem s).mpr ⟨hsN, hl⟩
        rw [hempty] at this; cases this
      | some col => rw [hl] at hs; cases hs; rfl
    obtain ⟨hflen, hfget⟩ := filterMap_id_of_all_some r0 hall
    refine ⟨⟨r0.filterMap id, exec_params.output_column_names⟩, ?_, ?_, ?_⟩
    · simp only [execute_node, execute_union_project, materialize_missing_columns, hcb,
        State.deref, hnode, htype, hm, any_value.as_column_map, hne,
        bind, Except.bind, pure, Except.pure]
      simp only [reduceCtorEq, if_false, ne_eq, not_false_eq_true, if_true]
      rw [hN, hunfold]
      simp only [hempty, not_true_eq_false, if_false, construct_ok r0 _ hall, hne,
        not_false_eq_true, if_true]
    · simp [sframe.num_columns, hflen, hlen]
    · intro i hi
      cases hl : m.lookup i with
      | none =>
        have : i ∈ cols := (hcols_mem i).mpr ⟨hi, hl⟩
        rw [hempty] at this; cases this
      | some col =>
        refine ⟨col, rfl, ?_⟩
        simp only []
        rw [hfget i, hget i hi, hl]; rfl
  · intro hnonempty h1 project_n h2 optimized_n st3 new_columns hproj hopt hexec hnum
    obtain ⟨r', hfill, hlen', hkeep, hnew⟩ :=
      fill_materialized_columns_spec cols new_columns hcols_nd (List.range cols.length) r0
        (List.nodup_range _)
        (fun j hj => by
          have := List.mem_range.mp hj
          exact ⟨this, Nat.lt_of_lt_of_le this hnum⟩)
    have hget' : ∀ s < N,
        (∀ col, m.lookup s = some col → r'[s]? = some (some col)) ∧
        (m.lookup s = none → ∃ (j : Nat) (col : sarray), cols[j]? = some s ∧
          new_columns.columns[j]? = some col ∧ r'[s]? = some (some col)) := by
      intro s hs
      constructor
      · intro col hl
        rw [hkeep s, hget s hs, hl]
        intro j _ hj
        have := (hcols_mem s).mp (List.mem_iff_getElem?.mpr ⟨j, hj⟩)
        rw [hl] at this; cases this.2
      · intro hl
        obtain ⟨j, hj⟩ := List.mem_iff_getElem?.mp ((hcols_mem s).mpr ⟨hs, hl⟩)
        have hjlt : j < cols.length := by
          rcases Nat.lt_or_ge j cols.length with h | h
          · exact h
          · rw [List.getElem?_eq_none h] at hj; cases hj
        obtain ⟨col, hc, hr⟩ := hnew j (List.mem_range.mpr hjlt) s hj (by omega)
        exact ⟨j, col, hj, hc, hr⟩
    have hall : ∀ x ∈ r', x.isSome = true := by
      intro x hx
      obtain ⟨s, hs⟩ := List.mem_iff_getElem?.mp hx
      have hsN : s < N := by
        rcases Nat.lt_or_ge s N with h | h
        · exact h
        · rw [List.getElem?_eq_none (by omega)] at hs; cases hs
      cases hl : m.lookup s with
      | none =>
        obtain ⟨j, col, -, -, hr⟩ := (hget' s hsN).2 hl
        rw [hr] at hs; cases hs; rfl
      | some col =>
        rw [(hget' s hsN).1 col hl] at hs; cases hs; rfl
    obtain ⟨hflen, hfget⟩ := filterMap_id_of_all_some r' hall
    have hopt' : env.optimize_planner_graph h1 project_n
        { num_segments := exec_params.num_segments, write_callback := none,
          output_index_file := exec_params.output_index_file, output_column_names := [],
          partial_materialize := exec_params.partial_materialize,
          disable_optimization := exec_params.disable_optimization,
          naive_mode := exec_params.naive_mode } = .ok (h2, optimized_n) := by
      rw [← hcb]; exact hopt
    have hexec' : execute_node_impl env { heap := h2, trace := st.trace } optimized_n
        { num_segments := exec_params.num_segments, write_callback := none,
          output_index_file := exec_params.output_index_file, output_column_names := [],
          partial_materialize := exec_params.partial_materialize,
          disable_optimization := exec_params.disable_optimization,
          naive_mode := exec_params.naive_mode } = .ok (st3, new_columns) := by
      rw [← hcb]; exact hexec
    refine ⟨⟨r'.filterMap id, exec_params.output_column_names⟩, ?_, ?_, ?_⟩
    · simp only [execute_node, execute_union_project, materialize_missing_columns, hcb,
        State.deref, hnode, htype, hm, any_value.as_column_map, hne,
        bind, Except.bind, pure, Except.pure]
      simp only [reduceCtorEq, if_false, ne_eq, not_false_eq_true, if_true]
      rw [hN, hunfold]
      simp only [hnonempty, not_false_eq_true, if_true, hproj, hopt', hexec', hfill,
        construct_ok r' _ hall, hne]
    · simp [sframe.num_columns, hflen, hlen', hlen]
    · intro i hi
      constructor
      · intro col hl
        simp only []
        rw [hfget i, (hget' i hi).1 col hl]; rfl
      · intro hl
        obtain ⟨j, col, hj, hc, hr⟩ := (hget' i hi).2 hl
        refine ⟨j, col, hj, hc, ?_⟩
        simp only []
        rw [hfget i, hr]; rfl

/-- C4, on a union-project of two columns of which the first is passed through: the second
is materialized through a projection on index 1 and put in its slot. -/
theorem execute_node_union_project_witness :
    ∃ sf, execute_node sample_env union_state 0 sample_options = .ok (union_state_done, sf) ∧
      sf.num_columns = 2 ∧
      ∀ i < 2,
        (∀ col, List.lookup i [(0, column_c)] = some col → sf.columns[i]? = some col) ∧
        (List.lookup i [(0, column_c)] = none → ∃ (j : Nat) (col : sarray),
          [1][j]? = some i ∧ (sample_frame 1).columns[j]? = some col ∧
            sf.columns[i]? = some col) :=
  (execute_node_union_project sample_env union_state 0 _ [(0, column_c)] sample_options
    rfl rfl rfl (by decide) rfl).2 (by decide) _ 1 _ 1 union_state_done (sample_frame 1)
    rfl rfl rfl (by decide)

/-! ## Partial materialization: what is rewritten, and that it ends -/

theorem Extends.same (h : Heap) : Extends h h := fun _ _ e => e

theorem Extends.comp {h1 h2 h3 : Heap} (a : Extends h1 h2) (b : Extends h2 h3) :
    Extends h1 h3 := fun q node e => b q node (a q node e)

theorem pure_ok_iff {ε α : Type} (a b : α) : (pure a : Except ε α) = .ok b ↔ a = b := by
  simp [pure, Except.pure]

theorem make_segments_extends (env : Env) (hp : env.Preserves) (input_n : pnode_ptr) (k : Nat)
    (l : List Nat) : ∀ (h h' : Heap) (segs : List pnode_ptr),
      make_segments env input_n k l h = .ok (h', segs) → Extends h h' := by
  induction l with
  | nil =>
    intro h h' segs e
    simp only [make_segments, Except.ok.injEq, Prod.mk.injEq] at e
    rw [← e.1]; exact Extends.same h
  | cons i rest ih =>
    intro h h' segs e
    rw [make_segments, bind_ok_iff] at e
    obtain ⟨⟨h1, seg⟩, e1, e⟩ := e
    rw [bind_ok_iff] at e
    obtain ⟨⟨h2, segs2⟩, e2, e3⟩ := e
    simp only [pure_ok_iff, Prod.mk.injEq] at e3
    rw [← e3.1]
    exact (hp.segment _ _ _ _ _ _ e1).comp (ih _ _ _ e2)

theorem execute_node_impl_extends (env : Env) (hp : env.Preserves) (st st' : State)
    (n : pnode_ptr) (p : materialize_options) (sf : sframe)
    (e : execute_node_impl env st n p = .ok (st', sf)) : Extends st.heap st'.heap := by
  unfold execute_node_impl at e
  split at e
  · rw [bind_ok_iff] at e
    obtain ⟨⟨h1, segs⟩, e1, e⟩ := e
    rw [bind_ok_iff] at e
    obtain ⟨sf1, -, e3⟩ := e
    simp only [pure_ok_iff, Prod.mk.injEq] at e3
    rw [← e3.1]
    exact make_segments_extends env hp _ _ _ _ _ _ e1
  · rw [bind_ok_iff] at e
    obtain ⟨sf1, -, e3⟩ := e
    simp only [pure_ok_iff, Prod.mk.injEq] at e3
    rw [← e3.1]
    exact Extends.same _

theorem execute_sframe_source_extends (env : Env) (hp : env.Preserves) (st st' : State)
    (node : planner_node) (n : pnode_ptr) (p : materialize_options) (sf : sframe)
    (e : execute_sframe_source env st node n p = .ok (st', sf)) :
    Extends st.heap st'.heap := by
  unfold execute_sframe_source at e
  rw [bind_ok_iff] at e
  obtain ⟨v, -, e⟩ := e
  rw [bind_ok_iff] at e
  obtain ⟨sf0, -, e⟩ := e
  rw [bind_ok_iff] at e
  obtain ⟨full, -, e⟩ := e
  split at e
  · split at e
    · rw [bind_ok_iff] at e
      obtain ⟨u, -, e⟩ := e
      rw [bind_ok_iff] at e
      obtain ⟨sf1, -, e⟩ := e
      rw [bind_ok_iff] at e
      obtain ⟨u2, -, e⟩ := e
      simp only [pure_ok_iff, Prod.mk.injEq] at e
      rw [← e.1]; exact Extends.same _
    · simp only [pure_ok_iff, Prod.mk.injEq] at e
      rw [← e.1]; exact Extends.same _
  · exact execute_node_impl_extends env hp _ _ _ _ _ e

theorem execute_sarray_source_extends (env : Env) (hp : env.Preserves) (st st' : State)
    (node : planner_node) (n : pnode_ptr) (p : materialize_options) (sf : sframe)
    (e : execute_sarray_source env st node n p = .ok (st', sf)) :
    Extends st.heap st'.heap := by
  unfold execute_sarray_source at e
  rw [bind_ok_iff] at e
  obtain ⟨v, -, e⟩ := e
  rw [bind_ok_iff] at e
  obtain ⟨sa, -, e⟩ := e
  rw [bind_ok_iff] at e
  obtain ⟨full, -, e⟩ := e
  split at e
  · rw [bind_ok_iff] at e
    obtain ⟨sf0, -, e⟩ := e
    split at e
    · rw [bind_ok_iff] at e
      obtain ⟨u, -, e⟩ := e
      rw [bind_ok_iff] at e
      obtain ⟨name, -, e⟩ := e
      rw [bind_ok_iff] at e
      obtain ⟨u2, -, e⟩ := e
      simp only [pure_ok_iff, Prod.mk.injEq] at e
      rw [← e.1]; exact Extends.same _
    · simp only [pure_ok_iff, Prod.mk.injEq] at e
      rw [← e.1]; exact Extends.same _
  · exact execute_node_impl_extends env hp _ _ _ _ _ e

theorem materialize_missing_columns_extends (env : Env) (hp : env.Preserves) (st st' : State)
    (n : pnode_ptr) (p : materialize_options) (cols : List Nat)
    (r r' : List (Option sarray))
    (e : materialize_missing_columns env st n p cols r = .ok (st', r')) :
    Extends st.heap st'.heap := by
  unfold materialize_missing_columns at e
  rw [bind_ok_iff] at e
  obtain ⟨⟨h1, pn⟩, e1, e⟩ := e
  rw [bind_ok_iff] at e
  obtain ⟨⟨h2, opt_n⟩, e2, e⟩ := e
  rw [bind_ok_iff] at e
  obtain ⟨⟨st3, newc⟩, e3, e⟩ := e
  rw [bind_ok_iff] at e
  obtain ⟨r2, -, e⟩ := e
  simp only [pure_ok_iff, Prod.mk.injEq] at e
  rw [← e.1]
  exact ((hp.project _ _ _ _ _ e1).comp (hp.optimize _ _ _ _ _ e2)).comp
    (execute_node_impl_extends env hp _ _ _ _ _ e3)

theorem execute_union_project_extends (env : Env) (hp : env.Preserves) (st st' : State)
    (node : planner_node) (n : pnode_ptr) (p : materialize_options) (sf : sframe)
    (e : execute_union_project env st node n p = .ok (st', sf)) :
    Extends st.heap st'.heap := by
  unfold execute_union_project at e
  split at e
  · exact execute_node_impl_extends env hp _ _ _ _ _ e
  · rw [bind_ok_iff] at e
    obtain ⟨m, -, e⟩ := e
    split at e
    · simp only [] at e
      split at e
      · rw [bind_ok_iff] at e
        obtain ⟨⟨st3, r⟩, e1, e⟩ := e
        rw [bind_ok_iff] at e
        obtain ⟨sf1, -, e⟩ := e
        simp only [pure_ok_iff, Prod.mk.injEq] at e
        rw [← e.1]
        exact materialize_missing_columns_extends env hp _ _ _ _ _ _ _ e1
      · rw [bind_ok_iff] at e
        obtain ⟨⟨st3, r⟩, e1, e⟩ := e
        rw [bind_ok_iff] at e
        obtain ⟨sf1, -, e⟩ := e
        simp only [pure_ok_iff, Prod.mk.injEq] at e e1
        rw [← e.1, ← e1.1]; exact Extends.same _
    · exact execute_node_impl_extends env hp _ _ _ _ _ e

theorem execute_node_extends (env : Env) (hp : env.Preserves) (st st' : State)
    (n : pnode_ptr) (p : materialize_options) (sf : sframe)
    (e : execute_node env st n p = .ok (st', sf)) : Extends st.heap st'.heap := by
  unfold execute_node at e
  split at e
  · exact execute_node_impl_extends env hp _ _ _ _ _ e
  · rw [bind_ok_iff] at e
    obtain ⟨node, -, e⟩ := e
    split at e
    · exact execute_sframe_source_extends env hp _ _ _ _ _ _ e
    · split at e
      · exact execute_sarray_source_extends env hp _ _ _ _ _ _ e
      · split at e
        · exact execute_union_project_extends env hp _ _ _ _ _ _ e
        · exact execute_node_impl_extends env hp _ _ _ _ _ e

theorem IsSource.inputs {node : planner_node} (h : IsSource node) : node.inputs = [] := by
  obtain ⟨sf, rfl⟩ := h; rfl

theorem Materialized.isSource {env : Env} {p : materialize_options} {q : pnode_ptr}
    {node : planner_node} (h : Materialized env p q node) : IsSource node := by
  obtain ⟨_, _, _, _, _, sf, _, _, e⟩ := h; exact ⟨sf, e⟩

theorem Rewritten.refl (C : pnode_ptr → planner_node → Prop) (h : Heap) : Rewritten C h h :=
  fun _ _ e => Or.inl e

theorem Rewritten.of_extends {C : pnode_ptr → planner_node → Prop} {h h' : Heap}
    (e : Extends h h') : Rewritten C h h' := fun q node hq => Or.inl (e q node hq)

theorem Rewritten.trans {C : pnode_ptr → planner_node → Prop} {h1 h2 h3 : Heap}
    (a : Rewritten C h1 h2) (b : Rewritten C h2 h3) : Rewritten C h1 h3 := by
  intro q node hq
  rcases a q node hq with h | ⟨node', h, hc⟩
  · exact b q node h
  · rcases b q node' h with h' | ⟨node'', h', hc'⟩
    · exact Or.inr ⟨node', h', hc⟩
    · exact Or.inr ⟨node'', h', hc'⟩

theorem Rewritten.mono {C D : pnode_ptr → planner_node → Prop} {h h' : Heap}
    (a : Rewritten C h h') (hcd : ∀ q node, C q node → D q node) : Rewritten D h h' := by
  intro q node hq
  rcases a q node hq with h | ⟨node', h, hc⟩
  · exact Or.inl h
  · exact Or.inr ⟨node', h, hcd q node' hc⟩

theorem Rewritten.unchanged {C : pnode_ptr → planner_node → Prop} {h h' : Heap}
    (a : Rewritten C h h') {q : pnode_ptr} {node : planner_node} (hq : h[q]? = some node)
    (hn : ∀ node', ¬ C q node') : h'[q]? = some node := by
  rcases a q node hq with h | ⟨node', _, hc⟩
  · exact h
  · exact absurd hc (hn node')

theorem Rewritten.source {C : pnode_ptr → planner_node → Prop} {h h' : Heap}
    (a : Rewritten C h h') (hC : ∀ q node, C q node → IsSource node) {q : pnode_ptr}
    (hq : ∃ node, h[q]? = some node ∧ IsSource node) :
    ∃ node, h'[q]? = some node ∧ IsSource node := by
  obtain ⟨node, hn, hs⟩ := hq
  rcases a q node hn with h | ⟨node', h, hc⟩
  · exact ⟨node, h, hs⟩
  · exact ⟨node', h, hC q node' hc⟩

theorem Rewritten.length_le {C : pnode_ptr → planner_node → Prop} {h h' : Heap}
    (a : Rewritten C h h') : h.length ≤ h'.length := by
  rcases Nat.lt_or_ge h'.length h.length with hlt | hge
  · exfalso
    have h0 : h[h'.length]? = some (h.get ⟨h'.length, hlt⟩) := List.getElem?_eq_getElem hlt
    have hnone : h'[h'.length]? = none := List.getElem?_eq_none (Nat.le_refl _)
    rcases a _ _ h0 with e | ⟨_, e, _⟩ <;> rw [hnone] at e <;> cases e
  · exact hge

theorem Rewritten.dag {C : pnode_ptr → planner_node → Prop} {h h' : Heap}
    (a : Rewritten C h h') (hC : ∀ q node, C q node → IsSource node)
    {rk : pnode_ptr → Nat} {N : Nat} (d : Dag rk N h) : Dag rk N h' := by
  refine ⟨Nat.le_trans d.1 a.length_le, ?_⟩
  intro p node hp hnode q hq
  have hlt : p < h.length := Nat.lt_of_lt_of_le hp d.1
  have h0 : h[p]? = some (h.get ⟨p, hlt⟩) := List.getElem?_eq_getElem hlt
  rcases a p _ h0 with e | ⟨node', e, hc⟩
  · rw [e] at hnode; cases hnode
    exact d.2 p _ hp h0 q hq
  · rw [e] at hnode; cases hnode
    rw [(hC p node hc).inputs] at hq; cases hq

theorem Rewritten.settled {C : pnode_ptr → planner_node → Prop} {h h' : Heap}
    (a : Rewritten C h h') (hC : ∀ q node, C q node → IsSource node) {env : Env}
    {k : pnode_ptr} (s : Settled env h k) : Settled env h' k := by
  obtain ⟨node, hn, hs⟩ := s
  rcases a k node hn with e | ⟨node', e, hc⟩
  · exact ⟨node, e, hs⟩
  · exact ⟨node', e, Or.inl (hC k node' hc).inputs⟩

theorem Rewritten.inputsMaterialized {C : pnode_ptr → planner_node → Prop} {h h' : Heap}
    (a : Rewritten C h h') (hC : ∀ q node, C q node → IsSource node) {env : Env}
    {k : pnode_ptr} (hk : ∃ node, h[k]? = some node) (s : InputsMaterialized env h k) :
    InputsMaterialized env h' k := by
  obtain ⟨node0, h0⟩ := hk
  intro node hnode hin hrate q hq
  rcases a k node0 h0 with e | ⟨node', e, hc⟩
  · rw [e] at hnode; cases hnode
    exact a.source hC (s node0 h0 hin hrate q hq)
  · rw [e] at hnode; cases hnode
    exact absurd (hC k node hc).inputs hin

theorem Rewritten.memoInv {C : pnode_ptr → planner_node → Prop} {h h' : Heap}
    (a : Rewritten C h h') (hC : ∀ q node, C q node → IsSource node) {env : Env}
    {memo : Memo} (m : MemoInv env h memo) : MemoInv env h' memo := by
  intro k v hkv
  obtain ⟨hv, hs, hi⟩ := m k v hkv
  obtain ⟨node, hn, _⟩ := hs
  exact ⟨hv, a.settled hC ⟨node, hn, by assumption⟩, a.inputsMaterialized hC ⟨node, hn⟩ hi⟩

theorem assign_rewritten (st st' : State) (q : pnode_ptr) (node : planner_node)
    (e : st.assign q node = .ok st') :
    st'.heap[q]? = some node ∧
      Rewritten (fun q' node' => q' = q ∧ node' = node) st.heap st'.heap := by
  obtain ⟨hlt, rfl⟩ := (assign_ok_iff _ _ _ _).mp e
  refine ⟨by simp [hlt], ?_⟩
  intro q' node' hq'
  by_cases hqq : q = q'
  · subst hqq
    exact Or.inr ⟨node, by simp [hlt], rfl, rfl⟩
  · exact Or.inl (by simp only []; rw [List.getElem?_set_ne hqq]; exact hq')

theorem materialize_input_in_place_spec (env : Env) (hp : env.Preserves)
    (p : materialize_options) (n : pnode_ptr) (i : Nat) (st st' : State)
    (e : materialize_input_in_place env p n i st = .ok st') :
    ∃ node q, st.heap[n]? = some node ∧ node.inputs[i]? = some q ∧
      Rewritten (fun q' node' => q' = q ∧ IsSource node') st.heap st'.heap ∧
      ∃ node', st'.heap[q]? = some node' ∧ IsSource node' := by
  unfold materialize_input_in_place at e
  rw [bind_ok_iff] at e
  obtain ⟨node, hnode, e⟩ := e
  rw [deref_ok_iff] at hnode
  split at e
  · cases e
  · rename_i q hq
    rw [bind_ok_iff] at e
    obtain ⟨⟨st1, sf⟩, e1, e2⟩ := e
    have h1 := execute_node_extends env hp _ _ _ _ _ e1
    obtain ⟨hget, h2⟩ := assign_rewritten _ _ _ _ e2
    exact ⟨node, q, hnode, hq,
      (Rewritten.of_extends h1).trans (h2.mono (fun q' node' hc => ⟨hc.1, _, hc.2⟩)),
      _, hget, _, rfl⟩

theorem materialize_mismatched_inputs_spec (env : Env) (hp : env.Preserves)
    (p : materialize_options) (n : pnode_ptr) (codes : List Nat) (node : planner_node)
    (hnin : n ∉ node.inputs) (l : List Nat) :
    ∀ (allowed : Nat) (st st' : State), st.heap[n]? = some node →
      materialize_mismatched_inputs env p n codes l allowed st = .ok st' →
      Rewritten (fun q node' => q ∈ node.inputs ∧ IsSource node') st.heap st'.heap := by
  induction l with
  | nil =>
    intro allowed st st' _ e
    simp only [materialize_mismatched_inputs, Except.ok.injEq] at e
    rw [← e]; exact Rewritten.refl _ _
  | cons i rest ih =>
    intro allowed st st' hnode e
    unfold materialize_mismatched_inputs at e
    split at e
    · cases e
    · split at e
      · split at e
        · split at e
          · rw [bind_ok_iff] at e
            obtain ⟨st1, e1, e2⟩ := e
            obtain ⟨node1, q, hn1, hq, hr, -⟩ :=
              materialize_input_in_place_spec env hp _ _ _ _ _ e1
            rw [hnode] at hn1; cases hn1
            have hr' : Rewritten (fun q node' => q ∈ node.inputs ∧ IsSource node')
                st.heap st1.heap :=
              hr.mono (fun q' node' hc => ⟨hc.1 ▸ List.mem_iff_getElem?.mpr ⟨i, hq⟩, hc.2⟩)
            have hnode1 : st1.heap[n]? = some node :=
              hr'.unchanged hnode (fun node' hc => hnin hc.1)
            exact hr'.trans (ih _ _ _ hnode1 e2)
          · exact ih _ _ _ hnode e
        · exact ih _ _ _ hnode e
      · exact ih _ _ _ hnode e

theorem materialize_for_same_rates_spec (env : Env) (hp : env.Preserves)
    (p : materialize_options) (n : pnode_ptr) (node : planner_node)
    (hnin : n ∉ node.inputs) (st st' : State) (hnode : st.heap[n]? = some node)
    (e : materialize_for_same_rates env p n st = .ok st') :
    Rewritten (fun q node' => q ∈ node.inputs ∧ IsSource node') st.heap st'.heap := by
  unfold materialize_for_same_rates at e
  simp only [] at e
  split at e
  · cases e
  · exact materialize_mismatched_inputs_spec env hp p n _ node hnin _ _ _ _ hnode e

theorem materialize_all_inputs_spec (env : Env) (hp : env.Preserves)
    (p : materialize_options) (n : pnode_ptr) (node : planner_node)
    (hnin : n ∉ node.inputs) (l : List Nat) :
    ∀ (st st' : State), st.heap[n]? = some node →
      materialize_all_inputs env p n l st = .ok st' →
      Rewritten (fun q node' => q ∈ node.inputs ∧ Materialized env p q node')
          st.heap st'.heap ∧
        ∀ k ∈ l, ∀ q, node.inputs[k]? = some q →
          ∃ node', st'.heap[q]? = some node' ∧ Materialized env p q node' := by
  induction l with
  | nil =>
    intro st st' _ e
    simp only [materialize_all_inputs, Except.ok.injEq] at e
    rw [← e]
    exact ⟨Rewritten.refl _ _, fun k hk => absurd hk (List.not_mem_nil k)⟩
  | cons k rest ih =>
    intro st st' hnode e
    unfold materialize_all_inputs at e
    rw [bind_ok_iff] at e
    obtain ⟨node0, hn0, e⟩ := e
    rw [deref_ok_iff, hnode] at hn0; cases hn0
    split at e
    · cases e
    · rename_i i hi
      rw [bind_ok_iff] at e
      obtain ⟨⟨h1, optimized_i⟩, e1, e⟩ := e
      rw [bind_ok_iff] at e
      obtain ⟨⟨st2, sf⟩, e2, e⟩ := e
      rw [bind_ok_iff] at e
      obtain ⟨st3, e3, e4⟩ := e
      have himem : i ∈ node.inputs := List.mem_iff_getElem?.mpr ⟨k, hi⟩
      have hmat : Materialized env p i (op_sframe_source.make_planner_node sf) :=
        ⟨st.heap, h1, st.trace, optimized_i, st2, sf, e1, e2, rfl⟩
      obtain ⟨hget3, hr3⟩ := assign_rewritten _ _ _ _ e3
      have hr : Rewritten (fun q node' => q ∈ node.inputs ∧ Materialized env p q node')
          st.heap st3.heap :=
        ((Rewritten.of_extends (hp.optimize _ _ _ _ _ e1)).trans
          (Rewritten.of_extends (execute_node_extends env hp _ _ _ _ _ e2))).trans
          (hr3.mono (fun q' node' hc => by
            obtain ⟨rfl, rfl⟩ := hc
            exact ⟨himem, hmat⟩))
      have hnode3 : st3.heap[n]? = some node :=
        hr.unchanged hnode (fun node' hc => hnin hc.1)
      obtain ⟨hr', hdone⟩ := ih _ _ hnode3 e4
      refine ⟨hr.trans hr', ?_⟩
      intro k' hk' q hq
      rcases List.mem_cons.mp hk' with rfl | hmem
      · have hqi : q = i := by rw [hi] at hq; exact (Option.some.inj hq).symm
        subst hqi
        rcases hr' q _ hget3 with h | ⟨node', h, hc⟩
        · exact ⟨_, h, hmat⟩
        · exact ⟨node', h, hc.2⟩
      · exact hdone k' hmem q hq

theorem materialize_where_needed_spec (env : Env) (hp : env.Preserves)
    (p : materialize_options) (n : pnode_ptr) (node : planner_node)
    (hnin : n ∉ node.inputs) (st st' : State) (hnode : st.heap[n]? = some node)
    (e : materialize_where_needed env p n node st = .ok st') :
    Rewritten (fun q node' => q ∈ node.inputs ∧ IsSource node') st.heap st'.heap ∧
      (env.node_consumes_inputs_at_same_rates node = false →
        ∀ q ∈ node.inputs, ∃ node', st'.heap[q]? = some node' ∧ Materialized env p q node') := by
  unfold materialize_where_needed at e
  split at e
  · rename_i hrate
    refine ⟨materialize_for_same_rates_spec env hp p n node hnin _ _ hnode e, ?_⟩
    intro hf; rw [hf] at hrate; cases hrate
  · obtain ⟨hr, hdone⟩ := materialize_all_inputs_spec env hp p n node hnin _ _ _ hnode e
    refine ⟨hr.mono (fun q node' hc => ⟨hc.1, hc.2.isSource⟩), ?_⟩
    intro _ q hq
    obtain ⟨k, hk⟩ := List.mem_iff_getElem?.mp hq
    have hklt : k < node.inputs.length := by
      rcases Nat.lt_or_ge k node.inputs.length with h | h
      · exact h
      · rw [List.getElem?_eq_none h] at hk; cases hk
    exact hdone k (List.mem_range.mpr hklt) q hk

theorem instantiate_unless_linear_spec (env : Env) (hp : env.Preserves)
    (p : materialize_options) (n : pnode_ptr) (st st' : State)
    (e : instantiate_unless_linear env p n st = .ok st') :
    ∃ node, st.heap[n]? = some node ∧
      Rewritten (fun q node' => q = n ∧ IsSource node') st.heap st'.heap ∧
      (((env.node_is_linear_transform node = true ∨
            env.node_is_sublinear_transform node = true) ∧ st' = st) ∨
        (env.node_is_linear_transform node = false ∧
          env.node_is_sublinear_transform node = false ∧
          ∃ node', st'.heap[n]? = some node' ∧ Materialized env p n node')) := by
  unfold instantiate_unless_linear at e
  rw [bind_ok_iff] at e
  obtain ⟨node, hnode, e⟩ := e
  rw [deref_ok_iff] at hnode
  refine ⟨node, hnode, ?_⟩
  split at e
  · rename_i hlin
    simp only [pure_ok_iff] at e
    subst e
    refine ⟨Rewritten.refl _ _, Or.inl ⟨?_, rfl⟩⟩
    simpa [Bool.or_eq_true] using hlin
  · rename_i hlin
    rw [bind_ok_iff] at e
    obtain ⟨⟨h1, optimized_n⟩, e1, e⟩ := e
    rw [bind_ok_iff] at e
    obtain ⟨⟨st2, sf⟩, e2, e3⟩ := e
    obtain ⟨hget, hr⟩ := assign_rewritten _ _ _ _ e3
    have hmat : Materialized env p n (op_sframe_source.make_planner_node sf) :=
      ⟨st.heap, h1, st.trace, optimized_n, st2, sf, e1, e2, rfl⟩
    refine ⟨?_, Or.inr ⟨?_, ?_, _, hget, hmat⟩⟩
    · exact ((Rewritten.of_extends (hp.optimize _ _ _ _ _ e1)).trans
        (Rewritten.of_extends (execute_node_extends env hp _ _ _ _ _ e2))).trans
        (hr.mono (fun q' node' hc => ⟨hc.1, _, hc.2⟩))
    · simp only [Bool.or_eq_true, not_or, Bool.not_eq_true] at hlin; exact hlin.1
    · simp only [Bool.or_eq_true, not_or, Bool.not_eq_true] at hlin; exact hlin.2

theorem materialize_inputs_loop_spec (env : Env) (p : materialize_options)
    (rk : pnode_ptr → Nat) (N : Nat)
    (recurse : State → Memo → pnode_ptr → ImplResult) (n : pnode_ptr) (node : planner_node)
    (hrec : ∀ st memo q st' memo' r, Dag rk N st.heap → q < N → MemoInv env st.heap memo →
      recurse st memo q = .ok (st', memo', r) → ImplPost env p rk N q st memo st' memo' r)
    (hn : n < N) (budget : Nat) :
    ∀ (i : Nat) (st : State) (memo : Memo) (st' : State) (memo' : Memo),
      Dag rk N st.heap → st.heap[n]? = some node → MemoInv env st.heap memo →
      materialize_inputs_loop recurse n budget i st memo = .ok (st', memo') →
      Rewritten (fun q node' => q < N ∧ rk q < rk n ∧ IsSource node') st.heap st'.heap ∧
        MemoInv env st'.heap memo' := by
  induction budget with
  | zero =>
    intro i st memo st' memo' _ _ hm e
    unfold materialize_inputs_loop at e
    rw [bind_ok_iff] at e
    obtain ⟨node0, _, e⟩ := e
    split at e
    · cases e
    · simp only [pure_ok_iff, Prod.mk.injEq] at e
      obtain ⟨rfl, rfl⟩ := e
      exact ⟨Rewritten.refl _ _, hm⟩
  | succ budget ih =>
    intro i st memo st' memo' hdag hnode hm e
    unfold materialize_inputs_loop at e
    rw [bind_ok_iff] at e
    obtain ⟨node0, hn0, e⟩ := e
    rw [liftExn_ok_iff, deref_ok_iff, hnode] at hn0; cases hn0
    split at e
    · simp only [pure_ok_iff, Prod.mk.injEq] at e
      obtain ⟨rfl, rfl⟩ := e
      exact ⟨Rewritten.refl _ _, hm⟩
    · rename_i input hinput
      rw [bind_ok_iff] at e
      obtain ⟨⟨st1, memo1, r⟩, e1, e⟩ := e
      have hmem : input ∈ node.inputs := List.mem_iff_getElem?.mpr ⟨i, hinput⟩
      obtain ⟨hqN, hqrk⟩ := hdag.2 n node hn hnode input hmem
      have post := hrec st memo input st1 memo1 r hdag hqN hm e1
      have hr1 : Rewritten (fun q node' => q < N ∧ rk q < rk n ∧ IsSource node')
          st.heap st1.heap :=
        post.rewritten.mono (fun q node' hc => ⟨hc.1, Nat.lt_of_le_of_lt hc.2.1 hqrk, hc.2.2⟩)
      have hnode1 : st1.heap[n]? = some node :=
        hr1.unchanged hnode (fun node' hc => Nat.lt_irrefl _ hc.2.1)
      rw [bind_ok_iff] at e
      obtain ⟨node1, hn1, e⟩ := e
      rw [liftExn_ok_iff, deref_ok_iff, hnode1] at hn1; cases hn1
      split at e
      · rw [bind_ok_iff] at e
        obtain ⟨st2, e2, e3⟩ := e
        rw [liftExn_ok_iff, assign_ok_iff] at e2
        obtain ⟨_, rfl⟩ := e2
        have hsame : ({ node with inputs := node.inputs.set i r } : planner_node) = node := by
          rw [post.ret, set_same _ _ _ hinput]
        rw [hsame, set_same _ _ _ hnode1] at e3
        have hdag1 : Dag rk N st1.heap := hr1.dag (fun _ _ hc => hc.2.2) hdag
        obtain ⟨hr2, hm2⟩ := ih (i + 1) st1 memo1 st' memo' hdag1 hnode1 post.memo_inv e3
        exact ⟨hr1.trans hr2, hm2⟩
      · cases e

theorem lookup_cons_self (n : pnode_ptr) (memo : Memo) :
    List.lookup n ((n, n) :: memo) = some n := by
  simp [List.lookup]

theorem lookup_cons_ne {k n : pnode_ptr} (memo : Memo) (h : k ≠ n) :
    List.lookup k ((n, n) :: memo) = List.lookup k memo := by
  have : (k == n) = false := by simpa using h
  simp [List.lookup, this]

theorem memoInv_cons (env : Env) (h : Heap) (memo : Memo) (n : pnode_ptr)
    (m : MemoInv env h memo) (s : Settled env h n) (i : InputsMaterialized env h n) :
    MemoInv env h ((n, n) :: memo) := by
  intro k v hkv
  by_cases hk : k = n
  · subst hk
    rw [lookup_cons_self] at hkv
    cases hkv
    exact ⟨rfl, s, i⟩
  · rw [lookup_cons_ne memo hk] at hkv
    exact m k v hkv

theorem partial_materialize_impl_spec (env : Env) (hp : env.Preserves)
    (p : materialize_options) (rk : pnode_ptr → Nat) (N : Nat) (fuel : Nat) :
    ∀ (st : State) (memo : Memo) (n : pnode_ptr) (st' : State) (memo' : Memo) (r : pnode_ptr),
      Dag rk N st.heap → n < N → MemoInv env st.heap memo →
      partial_materialize_impl env p fuel st memo n = .ok (st', memo', r) →
      ImplPost env p rk N n st memo st' memo' r := by
  induction fuel with
  | zero =>
    intro st memo n st' memo' r _ _ _ e
    cases e
  | succ fuel ih =>
    intro st memo n st' memo' r hdag hn hm e
    unfold partial_materialize_impl at e
    have hlt : n < st.heap.length := Nat.lt_of_lt_of_le hn hdag.1
    have hnode : st.heap[n]? = some (st.heap.get ⟨n, hlt⟩) := List.getElem?_eq_getElem hlt
    generalize st.heap.get ⟨n, hlt⟩ = node at hnode
    have hnin : n ∉ node.inputs := fun hmem =>
      Nat.lt_irrefl _ (hdag.2 n node hn hnode n hmem).2
    split at e
    · rename_i r0 hr0
      simp only [Except.ok.injEq, Prod.mk.injEq] at e
      obtain ⟨rfl, rfl, rfl⟩ := e
      obtain ⟨hv, hs, hi⟩ := hm n r0 hr0
      subst hv
      refine ⟨rfl, Rewritten.refl _ _, hm, hr0, fun _ _ => ⟨rfl, rfl⟩, ?_, ?_, ?_⟩
      · intro hnone; rw [hnone] at hr0; cases hr0
      · intro node1 hn1 hin hl hs1
        obtain ⟨node2, hn2, hgood⟩ := hs
        rw [hn1] at hn2; cases hn2
        rcases hgood with h | h | h
        · exact absurd h hin
        · rw [hl] at h; cases h
        · rw [hs1] at h; cases h
      · intro node1 hn1 _; exact hn1
    · rename_i hnone
      rw [bind_ok_iff] at e
      obtain ⟨⟨st1, memo1⟩, e1, e⟩ := e
      obtain ⟨hr1, hm1⟩ := materialize_inputs_loop_spec env p rk N _ n node
        (fun st memo q st' memo' r hd hq hmm he => ih st memo q st' memo' r hd hq hmm he)
        hn fuel 0 st memo st1 memo1 hdag hnode hm e1
      have hsrc : ∀ q node', (q < N ∧ rk q < rk n ∧ IsSource node') → IsSource node' :=
        fun _ _ hc => hc.2.2
      have hnode1 : st1.heap[n]? = some node :=
        hr1.unchanged hnode (fun node' hc => Nat.lt_irrefl _ hc.2.1)
      have hdag1 : Dag rk N st1.heap := hr1.dag hsrc hdag
      have hr1' : Rewritten (fun q node' => q < N ∧ rk q ≤ rk n ∧ IsSource node')
          st.heap st1.heap :=
        hr1.mono (fun q node' hc => ⟨hc.1, Nat.le_of_lt hc.2.1, hc.2.2⟩)
      have hsrc' : ∀ q node', (q < N ∧ rk q ≤ rk n ∧ IsSource node') → IsSource node' :=
        fun _ _ hc => hc.2.2
      rw [bind_ok_iff] at e
      obtain ⟨node0, hn0, e⟩ := e
      rw [liftExn_ok_iff, deref_ok_iff, hnode1] at hn0; cases hn0
      split at e
      · rename_i hin
        simp only [pure_ok_iff, Prod.mk.injEq] at e
        obtain ⟨rfl, rfl, rfl⟩ := e
        refine ⟨rfl, hr1', ?_, lookup_cons_self _ _, ?_, ?_, ?_, ?_⟩
        · exact memoInv_cons env _ _ _ hm1 ⟨node, hnode1, Or.inl hin⟩
            (fun node2 hn2 hin2 => by rw [hnode1] at hn2; cases hn2; exact absurd hin hin2)
        · intro v hv; rw [hnone] at hv; cases hv
        · intro _ node2 hn2 hin2
          rw [hnode] at hn2; cases hn2; exact absurd hin hin2
        · intro node2 hn2 hin2
          rw [hnode] at hn2; cases hn2; exact absurd hin hin2
        · intro node2 hn2 _
          rw [hnode] at hn2; cases hn2; exact hnode1
      · rename_i hin
        rw [bind_ok_iff] at e
        obtain ⟨st2, e2, e⟩ := e
        rw [liftExn_ok_iff] at e2
        obtain ⟨hr2, hmat2⟩ := materialize_where_needed_spec env hp p n node hnin _ _ hnode1 e2
        have hr2' : Rewritten (fun q node' => q < N ∧ rk q ≤ rk n ∧ IsSource node')
            st1.heap st2.heap :=
          hr2.mono (fun q node' hc =>
            ⟨(hdag1.2 n node hn hnode1 q hc.1).1,
              Nat.le_of_lt (hdag1.2 n node hn hnode1 q hc.1).2, hc.2⟩)
        have hnode2 : st2.heap[n]? = some node :=
          hr2.unchanged hnode1 (fun node' hc => hnin hc.1)
        rw [bind_ok_iff] at e
        obtain ⟨st3, e3, e⟩ := e
        rw [liftExn_ok_iff] at e3
        simp only [pure_ok_iff, Prod.mk.injEq] at e
        obtain ⟨rfl, rfl, rfl⟩ := e
        obtain ⟨node2, hn2, hr3, hcase⟩ := instantiate_unless_linear_spec env hp p n _ _ e3
        rw [hnode2] at hn2; cases hn2
        have hr3' : Rewritten (fun q node' => q < N ∧ rk q ≤ rk n ∧ IsSource node')
            st2.heap st3.heap :=
          hr3.mono (fun q node' hc => ⟨hc.1 ▸ hn, hc.1 ▸ Nat.le_refl _, hc.2⟩)
        have hall : Rewritten (fun q node' => q < N ∧ rk q ≤ rk n ∧ IsSource node')
            st.heap st3.heap := (hr1'.trans hr2').trans hr3'
        have hm3 : MemoInv env st3.heap memo1 :=
          (hr2'.trans hr3').memoInv hsrc' hm1
        have hinputs3 : env.node_consumes_inputs_at_same_rates node = false →
            ∀ q ∈ node.inputs, ∃ node', st3.heap[q]? = some node' ∧ Materialized env p q node' := by
          intro hrate q hq
          obtain ⟨node', hq2, hmat⟩ := hmat2 hrate q hq
          refine ⟨node', ?_, hmat⟩
          exact hr3.unchanged hq2 (fun _ hc => hnin (hc.1 ▸ hq))
        refine ⟨rfl, hall, ?_, lookup_cons_self _ _, ?_, ?_, ?_, ?_⟩
        · refine memoInv_cons env _ _ _ hm3 ?_ ?_
          · rcases hcase with ⟨hlin, rfl⟩ | ⟨_, _, node', hn', hmat⟩
            · exact ⟨node, hnode2, Or.inr hlin⟩
            · exact ⟨node', hn', Or.inl hmat.isSource.inputs⟩
          · intro nodeX hX hinX hrateX q hq
            rcases hcase with ⟨_, rfl⟩ | ⟨_, _, node', hn', hmat⟩
            · rw [hnode2] at hX; cases hX
              obtain ⟨node', hq2, hmat⟩ := hmat2 hrateX q hq
              exact ⟨node', hq2, hmat.isSource⟩
            · rw [hn'] at hX; cases hX
              exact absurd hmat.isSource.inputs hinX
        · intro v hv; rw [hnone] at hv; cases hv
        · intro _ nodeX hX _ hrate
          rw [hnode] at hX; cases hX
          exact hinputs3 hrate
        · intro nodeX hX _ hl hs
          rw [hnode] at hX; cases hX
          rcases hcase with ⟨hlin, _⟩ | ⟨_, _, node', hn', hmat⟩
          · rcases hlin with h | h
            · rw [hl] at h; cases h
            · rw [hs] at h; cases h
          · exact ⟨node', hn', hmat⟩
        · intro nodeX hX hgood
          rw [hnode] at hX; cases hX
          rcases hcase with ⟨_, rfl⟩ | ⟨hl, hs, _⟩
          · exact hnode2
          · rcases hgood with h | h | h
            · exact absurd h hin
            · rw [hl] at h; cases h
            · rw [hs] at h; cases h

theorem Rewritten.inputsBounded {C : pnode_ptr → planner_node → Prop} {h h' : Heap}
    (a : Rewritten C h h') (hC : ∀ q node, C q node → IsSource node) {N W : Nat}
    (hN : N ≤ h.length) (b : InputsBounded N W h) : InputsBounded N W h' := by
  intro k node hk hnode
  have hlt : k < h.length := Nat.lt_of_lt_of_le hk hN
  have h0 : h[k]? = some (h.get ⟨k, hlt⟩) := List.getElem?_eq_getElem hlt
  rcases a k _ h0 with e | ⟨node', e, hc⟩
  · rw [e] at hnode; cases hnode
    exact b k _ hk h0
  · rw [e] at hnode; cases hnode
    rw [(hC k node hc).inputs]; exact Nat.zero_le _

theorem liftExn_bind_fuel {α β : Type} (x : Except Exn α) (f : α → Except Err β)
    (h : ∀ a, x = .ok a → f a ≠ .error .out_of_fuel) :
    (liftExn x >>= f) ≠ .error .out_of_fuel := by
  cases x with
  | error e => simp [liftExn, bind, Except.bind]
  | ok a => simpa [liftExn, bind, Except.bind] using h a rfl

theorem bind_fuel {α β : Type} (x : Except Err α) (f : α → Except Err β)
    (hx : x ≠ .error .out_of_fuel)
    (h : ∀ a, x = .ok a → f a ≠ .error .out_of_fuel) :
    (x >>= f) ≠ .error .out_of_fuel := by
  cases x with
  | error e =>
    simp only [bind, Except.bind]
    intro he
    apply hx
    cases he
    rfl
  | ok a => simpa [bind, Except.bind] using h a rfl

theorem materialize_inputs_loop_fuel (env : Env) (p : materialize_options)
    (rk : pnode_ptr → Nat) (N W : Nat)
    (recurse : State → Memo → pnode_ptr → ImplResult) (n : pnode_ptr) (node : planner_node)
    (hrec : ∀ st memo q st' memo' r, Dag rk N st.heap → q < N → MemoInv env st.heap memo →
      recurse st memo q = .ok (st', memo', r) → ImplPost env p rk N q st memo st' memo' r)
    (hfuel : ∀ st memo q, Dag rk N st.heap → q < N → MemoInv env st.heap memo →
      InputsBounded N W st.heap → rk q < rk n → recurse st memo q ≠ .error .out_of_fuel)
    (hn : n < N) (budget : Nat) :
    ∀ (i : Nat) (st : State) (memo : Memo),
      Dag rk N st.heap → st.heap[n]? = some node → MemoInv env st.heap memo →
      InputsBounded N W st.heap → node.inputs.length ≤ i + budget →
      materialize_inputs_loop recurse n budget i st memo ≠ .error .out_of_fuel := by
  induction budget with
  | zero =>
    intro i st memo _ hnode _ _ hlen
    unfold materialize_inputs_loop
    apply liftExn_bind_fuel
    intro node0 hn0
    rw [deref_ok_iff, hnode] at hn0; cases hn0
    rw [if_neg (by omega)]
    simp [pure, Except.pure]
  | succ budget ih =>
    intro i st memo hdag hnode hm hb hlen
    unfold materialize_inputs_loop
    apply liftExn_bind_fuel
    intro node0 hn0
    rw [deref_ok_iff, hnode] at hn0; cases hn0
    split
    · simp [pure, Except.pure]
    · rename_i input hinput
      have hmem : input ∈ node.inputs := List.mem_iff_getElem?.mpr ⟨i, hinput⟩
      obtain ⟨hqN, hqrk⟩ := hdag.2 n node hn hnode input hmem
      apply bind_fuel _ _ (hfuel st memo input hdag hqN hm hb hqrk)
      rintro ⟨st1, memo1, r⟩ e1
      have post := hrec st memo input st1 memo1 r hdag hqN hm e1
      have hsrc : ∀ q node', (q < N ∧ rk q ≤ rk input ∧ IsSource node') → IsSource node' :=
        fun _ _ hc => hc.2.2
      have hnode1 : st1.heap[n]? = some node :=
        post.rewritten.unchanged hnode (fun node' hc => by
          have := hc.2.1; omega)
      apply liftExn_bind_fuel
      intro node1 hn1
      rw [deref_ok_iff, hnode1] at hn1; cases hn1
      have hilt : i < node.inputs.length := by
        rcases Nat.lt_or_ge i node.inputs.length with h | h
        · exact h
        · rw [List.getElem?_eq_none h] at hinput; cases hinput
      rw [if_pos hilt]
      apply liftExn_bind_fuel
      intro st2 e2
      rw [assign_ok_iff] at e2
      obtain ⟨_, rfl⟩ := e2
      have hsame : ({ node with inputs := node.inputs.set i r } : planner_node) = node := by
        rw [post.ret, set_same _ _ _ hinput]
      rw [hsame, set_same _ _ _ hnode1]
      exact ih (i + 1) st1 memo1 (post.rewritten.dag hsrc hdag) hnode1 post.memo_inv
        (post.rewritten.inputsBounded hsrc hdag.1 hb) (by omega)

theorem partial_materialize_impl_fuel (env : Env) (hp : env.Preserves)
    (p : materialize_options) (rk : pnode_ptr → Nat) (N W : Nat) (fuel : Nat) :
    ∀ (st : State) (memo : Memo) (n : pnode_ptr),
      Dag rk N st.heap → n < N → MemoInv env st.heap memo → InputsBounded N W st.heap →
      rk n + W < fuel →
      partial_materialize_impl env p fuel st memo n ≠ .error .out_of_fuel := by
  induction fuel with
  | zero => intro st memo n _ _ _ _ h; omega
  | succ fuel ih =>
    intro st memo n hdag hn hm hb hfuel
    unfold partial_materialize_impl
    have hlt : n < st.heap.length := Nat.lt_of_lt_of_le hn hdag.1
    have hnode : st.heap[n]? = some (st.heap.get ⟨n, hlt⟩) := List.getElem?_eq_getElem hlt
    generalize st.heap.get ⟨n, hlt⟩ = node at hnode
    split
    · simp
    · apply bind_fuel
      · exact materialize_inputs_loop_fuel env p rk N W _ n node
          (fun st memo q st' memo' r hd hq hmm he =>
            partial_materialize_impl_spec env hp p rk N fuel st memo q st' memo' r hd hq hmm he)
          (fun st memo q hd hq hmm hbb hrk => ih st memo q hd hq hmm hbb (by omega))
          hn fuel 0 st memo hdag hnode hm hb (by have := hb n node hn hnode; omega)
      · rintro ⟨st1, memo1⟩ _
        apply liftExn_bind_fuel
        intro node1 _
        split
        · simp [pure, Except.pure]
        · apply liftExn_bind_fuel
          intro st2 _
          apply liftExn_bind_fuel
          intro st3 _
          simp [pure, Except.pure]

theorem extends_append (h extra : Heap) : Extends h (h ++ extra) := by
  intro q node hq
  have hlt : q < h.length := by
    rcases Nat.lt_or_ge q h.length with hl | hl
    · exact hl
    · rw [List.getElem?_eq_none hl] at hq; cases hq
  rw [List.getElem?_append_left hlt]; exact hq

theorem sample_env_preserves : sample_env.Preserves := by
  refine ⟨?_, ?_, ?_⟩
  · intro h p o h' r e
    simp only [sample_env, Except.ok.injEq, Prod.mk.injEq] at e
    rw [← e.1]; exact Extends.same h
  · intro h p l h' r e
    simp only [sample_env, Except.ok.injEq, Prod.mk.injEq] at e
    rw [← e.1]; exact extends_append h _
  · intro h p i k h' r e
    simp only [sample_env, Except.ok.injEq, Prod.mk.injEq] at e
    rw [← e.1]; exact Extends.same h

theorem memoInv_nil (env : Env) (h : Heap) : MemoInv env h [] := by
  intro k v hkv; simp [List.lookup] at hkv

theorem three_node_dag (a b c : planner_node) (ha : a.inputs = []) (hb : b.inputs = [])
    (hc : c.inputs = [0, 1]) : Dag (fun q => q) 3 [a, b, c] := by
  refine ⟨Nat.le_refl 3, ?_⟩
  intro p node hp hnode q hq
  match p, hp with
  | 0, _ =>
    simp only [List.getElem?_cons_zero, Option.some.injEq] at hnode
    subst hnode; rw [ha] at hq; cases hq
  | 1, _ =>
    simp only [List.getElem?_cons_succ, List.getElem?_cons_zero, Option.some.injEq] at hnode
    subst hnode; rw [hb] at hq; cases hq
  | 2, _ =>
    simp only [List.getElem?_cons_succ, List.getElem?_cons_zero, Option.some.injEq] at hnode
    subst hnode; rw [hc] at hq
    simp only [List.mem_cons, List.mem_singleton, List.not_mem_nil, or_false] at hq
    rcases hq with rfl | rfl <;> decide

theorem three_node_bounded (a b c : planner_node) (ha : a.inputs = []) (hb : b.inputs = [])
    (hc : c.inputs = [0, 1]) : InputsBounded 3 2 [a, b, c] := by
  intro k node hk hnode
  match k, hk with
  | 0, _ =>
    simp only [List.getElem?_cons_zero, Option.some.injEq] at hnode
    subst hnode; rw [ha]; decide
  | 1, _ =>
    simp only [List.getElem?_cons_succ, List.getElem?_cons_zero, Option.some.injEq] at hnode
    subst hnode; rw [hb]; decide
  | 2, _ =>
    simp only [List.getElem?_cons_succ, List.getElem?_cons_zero, Option.some.injEq] at hnode
    subst hnode; rw [hc]; decide

/-- C9: on an acyclic plan, with collaborators that leave existing nodes alone and a memo as
`partial_materialize_impl` builds it.  Whenever `partial_materialize_impl(n, ...)` returns,
it returns `n`, and the node behind it has no inputs or is a linear or a sublinear
transform; a node that had inputs and was neither has been replaced by a source, without
inputs, over the frame obtained by executing it.  And the recursion ends: with a budget
above the rank of `n` plus the largest number of inputs it is never the budget that stops
the call. -/
theorem partial_materialize_impl_returns_settled (env : Env) (hp : env.Preserves)
    (p : materialize_options) (rk : pnode_ptr → Nat) (N : Nat)
    (st : State) (memo : Memo) (n : pnode_ptr)
    (hdag : Dag rk N st.heap) (hn : n < N) (hm : MemoInv env st.heap memo) :
    (∀ fuel st' memo' r,
      partial_materialize_impl env p fuel st memo n = .ok (st', memo', r) →
        r = n ∧ Settled env st'.heap r ∧
        ∀ node, st.heap[n]? = some node → node.inputs ≠ [] →
          env.node_is_linear_transform node = false →
          env.node_is_sublinear_transform node = false →
          ∃ node', st'.heap[n]? = some node' ∧ Materialized env p n node' ∧
            node'.operator_type = .SFRAME_SOURCE_NODE ∧ node'.inputs = []) ∧
      (∀ W fuel, InputsBounded N W st.heap → rk n + W < fuel →
        partial_materialize_impl env p fuel st memo n ≠ .error .out_of_fuel) := by
  constructor
  · intro fuel st' memo' r e
    have post := partial_materialize_impl_spec env hp p rk N fuel st memo n st' memo' r
      hdag hn hm e
    refine ⟨post.ret, ?_, ?_⟩
    · rw [post.ret]; exact (post.memo_inv n n post.recorded).2.1
    · intro node hnode hin hl hs
      obtain ⟨node', h1, h2⟩ := post.instantiated node hnode hin hl hs
      obtain ⟨sf, hsf⟩ := h2.isSource
      exact ⟨node', h1, h2, by rw [hsf]; rfl, by rw [hsf]; rfl⟩
  · intro W fuel hb hfuel
    exact partial_materialize_impl_fuel env hp p rk N W fuel st memo n hdag hn hm hb hfuel

/-- C9, on an append of two columns: the append is neither linear nor sublinear for the
sample collaborators and is replaced by a source. -/
theorem partial_materialize_impl_returns_settled_witness :
    ((2 : pnode_ptr) = 2 ∧ Settled sample_env append_state_done.heap 2 ∧
        ∀ node, append_state.heap[2]? = some node → node.inputs ≠ [] →
          sample_env.node_is_linear_transform node = false →
          sample_env.node_is_sublinear_transform node = false →
          ∃ node', append_state_done.heap[2]? = some node' ∧
            Materialized sample_env sample_options 2 node' ∧
            node'.operator_type = .SFRAME_SOURCE_NODE ∧ node'.inputs = []) ∧
      partial_materialize_impl sample_env sample_options 5 append_state [] 2 ≠
        .error .out_of_fuel :=
  ⟨(partial_materialize_impl_returns_settled sample_env sample_env_preserves sample_options
      (fun q => q) 3 append_state [] 2 (three_node_dag _ _ _ rfl rfl rfl) (by decide)
      (memoInv_nil _ _)).1 3 append_state_done [(2, 2), (1, 1), (0, 0)] 2 rfl,
    (partial_materialize_impl_returns_settled sample_env sample_env_preserves sample_options
      (fun q => q) 3 append_state [] 2 (three_node_dag _ _ _ rfl rfl rfl) (by decide)
      (memoInv_nil _ _)).2 2 5 (three_node_bounded _ _ _ rfl rfl rfl) (by decide)⟩

/-! ## The inputs rewritten under a same-rate node -/

theorem getElem?_append_cons_length {α : Type} (pre : List α) (c : α) (suf : List α) :
    (pre ++ c :: suf)[pre.length]? = some c := by
  rw [List.getElem?_append_right (Nat.le_refl _)]
  simp

theorem first_non_source_code_append_cons (pre : List Nat) (c : Nat) (suf : List Nat) :
    first_non_source_code (pre ++ c :: suf) =
      (first_non_source_code pre).or (if c ≠ 1 then some c else first_non_source_code suf) := by
  unfold first_non_source_code
  rw [List.find?_append, List.find?_cons]
  by_cases hc : c = 1
  · simp [hc]
  · simp [hc]

theorem materialize_mismatched_inputs_eq (env : Env) (p : materialize_options)
    (n : pnode_ptr) (suf : List Nat) :
    ∀ (pre : List Nat) (allowed : Nat) (st : State), (∀ x ∈ pre ++ suf, x ≠ 0) →
      allowed = (first_non_source_code pre).getD 0 →
      materialize_mismatched_inputs env p n (pre ++ suf)
          (List.range' pre.length suf.length) allowed st =
        materialize_inputs_in_place env p n
          ((List.range' pre.length suf.length).filter (is_offending (pre ++ suf))) st := by
  induction suf with
  | nil =>
    intro pre allowed st _ _
    simp [materialize_mismatched_inputs, materialize_inputs_in_place]
  | cons c suf ih =>
    intro pre allowed st hpos hallowed
    have hcodes : pre ++ c :: suf = (pre ++ [c]) ++ suf := by simp
    have hlen : (pre ++ [c]).length = pre.length + 1 := by simp
    have hget := getElem?_append_cons_length pre c suf
    have hfirst := first_non_source_code_append_cons pre c suf
    have hpos' : ∀ x ∈ (pre ++ [c]) ++ suf, x ≠ 0 := by rw [← hcodes]; exact hpos
    have step : ∀ (allowed' : Nat) (st' : State),
        allowed' = (first_non_source_code (pre ++ [c])).getD 0 →
        materialize_mismatched_inputs env p n (pre ++ c :: suf)
            (List.range' (pre.length + 1) suf.length) allowed' st' =
          materialize_inputs_in_place env p n
            ((List.range' (pre.length + 1) suf.length).filter
              (is_offending (pre ++ c :: suf))) st' := by
      intro allowed' st' h'
      have := ih (pre ++ [c]) allowed' st' hpos' h'
      rw [hlen, ← hcodes] at this
      exact this
    have hfirst1 := first_non_source_code_append_cons pre c []
    rw [List.length_cons, List.range'_succ, List.filter_cons]
    unfold materialize_mismatched_inputs
    rw [hget]
    simp only []
    by_cases hc : c = 1
    · have hoff : is_offending (pre ++ c :: suf) pre.length = false := by
        unfold is_offending; rw [hget]
        cases first_non_source_code (pre ++ c :: suf) <;> simp [hc]
      have hnext : allowed = (first_non_source_code (pre ++ [c])).getD 0 := by
        rw [hallowed, hfirst1]
        cases first_non_source_code pre <;> simp [hc, first_non_source_code]
      rw [hoff, if_neg (by simpa using hc)]
      simpa using step allowed st hnext
    · rw [if_pos hc]
      by_cases ha : allowed = 0
      · have hpre : first_non_source_code pre = none := by
          cases hf : first_non_source_code pre with
          | none => rfl
          | some a0 =>
            rw [hf] at hallowed
            simp only [Option.getD_some] at hallowed
            have hmem : a0 ∈ pre := List.mem_of_find?_eq_some hf
            exact absurd (hallowed.symm.trans ha)
              (hpos a0 (List.mem_append.mpr (Or.inl hmem)))
        have hall : first_non_source_code (pre ++ c :: suf) = some c := by
          rw [hfirst, hpre]; simp [hc]
        have hoff : is_offending (pre ++ c :: suf) pre.length = false := by
          unfold is_offending; rw [hget, hall]; simp
        have hnext : c = (first_non_source_code (pre ++ [c])).getD 0 := by
          rw [hfirst1, hpre]; simp [hc]
        rw [hoff, if_neg (by simpa using ha)]
        simpa using step c st hnext
      · obtain ⟨a0, hpre⟩ : ∃ a0, first_non_source_code pre = some a0 := by
          cases hf : first_non_source_code pre with
          | none => rw [hf] at hallowed; exact absurd hallowed ha
          | some a0 => exact ⟨a0, rfl⟩
        have ha0 : allowed = a0 := by rw [hallowed, hpre]; rfl
        have hall : first_non_source_code (pre ++ c :: suf) = some a0 := by
          rw [hfirst, hpre]; rfl
        have hnext : allowed = (first_non_source_code (pre ++ [c])).getD 0 := by
          rw [hfirst1, hpre, ha0]; rfl
        rw [if_pos ha]
        by_cases hca : c = allowed
        · have hoff : is_offending (pre ++ c :: suf) pre.length = false := by
            unfold is_offending; rw [hget, hall]; simp [hca, ha0]
          rw [hoff, if_neg (by simpa using hca)]
          simpa using step allowed st hnext
        · have hoff : is_offending (pre ++ c :: suf) pre.length = true := by
            unfold is_offending; rw [hget, hall]
            simp [hc, ← ha0, hca]
          rw [hoff, if_pos hca]
          simp only [if_true, materialize_inputs_in_place]
          congr 1
          funext st1
          exact step allowed st1 hnext

theorem materialize_inputs_in_place_spec (env : Env) (hp : env.Preserves)
    (p : materialize_options) (n : pnode_ptr) (node : planner_node)
    (hnin : n ∉ node.inputs) (l : List Nat) :
    ∀ (st st' : State), st.heap[n]? = some node →
      materialize_inputs_in_place env p n l st = .ok st' →
      Rewritten (fun q node' => (∃ i ∈ l, node.inputs[i]? = some q) ∧ IsSource node')
          st.heap st'.heap ∧
        ∀ i ∈ l, ∀ q, node.inputs[i]? = some q →
          ∃ node', st'.heap[q]? = some node' ∧ IsSource node' := by
  induction l with
  | nil =>
    intro st st' _ e
    simp only [materialize_inputs_in_place, Except.ok.injEq] at e
    rw [← e]
    exact ⟨Rewritten.refl _ _, fun i hi => absurd hi (List.not_mem_nil i)⟩
  | cons i rest ih =>
    intro st st' hnode e
    unfold materialize_inputs_in_place at e
    rw [bind_ok_iff] at e
    obtain ⟨st1, e1, e2⟩ := e
    obtain ⟨node1, q1, hn1, hq1, hr1, hsrc1⟩ :=
      materialize_input_in_place_spec env hp _ _ _ _ _ e1
    rw [hnode] at hn1; cases hn1
    have hr1' : Rewritten
        (fun q node' => (∃ j ∈ i :: rest, node.inputs[j]? = some q) ∧ IsSource node')
        st.heap st1.heap :=
      hr1.mono (fun q' node' hc => ⟨⟨i, List.mem_cons_self _ _, hc.1 ▸ hq1⟩, hc.2⟩)
    have hnode1 : st1.heap[n]? = some node :=
      hr1.unchanged hnode (fun node' hc =>
        hnin (hc.1 ▸ List.mem_iff_getElem?.mpr ⟨i, hq1⟩))
    obtain ⟨hr2, hdone⟩ := ih st1 st' hnode1 e2
    have hr2' : Rewritten
        (fun q node' => (∃ j ∈ i :: rest, node.inputs[j]? = some q) ∧ IsSource node')
        st1.heap st'.heap :=
      hr2.mono (fun q' node' hc => by
        obtain ⟨⟨j, hj, hjq⟩, hs⟩ := hc
        exact ⟨⟨j, List.mem_cons_of_mem _ hj, hjq⟩, hs⟩)
    refine ⟨hr1'.trans hr2', ?_⟩
    intro j hj q hq
    rcases List.mem_cons.mp hj with rfl | hmem
    · have hqq : q = q1 := by rw [hq1] at hq; exact (Option.some.inj hq).symm
      subst hqq
      exact hr2.source (fun _ _ hc => hc.2) hsrc1
    · exact hdone j hmem q hq

theorem is_offending_iff (codes : List Nat) (i : Nat) :
    is_offending codes i = true ↔
      ∃ c a, codes[i]? = some c ∧ first_non_source_code codes = some a ∧ c ≠ 1 ∧ c ≠ a := by
  unfold is_offending
  cases hf : first_non_source_code codes with
  | none => simp
  | some a =>
    cases hc : codes[i]? with
    | none => simp
    | some c => simp

theorem mem_offending_inputs (codes : List Nat) (i : Nat) :
    i ∈ offending_inputs codes ↔
      ∃ c a, codes[i]? = some c ∧ first_non_source_code codes = some a ∧ c ≠ 1 ∧ c ≠ a := by
  unfold offending_inputs
  rw [List.mem_filter, is_offending_iff]
  constructor
  · exact fun h => h.2
  · intro h
    refine ⟨?_, h⟩
    obtain ⟨c, _, hc, _⟩ := h
    rw [List.mem_range]
    rcases Nat.lt_or_ge i codes.length with hl | hl
    · exact hl
    · rw [List.getElem?_eq_none hl] at hc; cases hc

theorem is_offending_zero (codes : List Nat) : is_offending codes 0 = false := by
  cases codes with
  | nil => simp [is_offending]
  | cons c rest =>
    have h := first_non_source_code_append_cons [] c rest
    simp only [List.nil_append] at h
    unfold is_offending
    rw [h]
    by_cases hc : c = 1
    · cases first_non_source_code rest <;> simp [hc, first_non_source_code]
    · simp [hc, first_non_source_code]

/-- C8: for a node `n` that consumes its inputs at the same rates, with slicing codes
`c_0 .. c_{k-1}` that are positive as the data model has them, `partial_materialize_impl`
does on the inputs exactly this: it rewrites in place, in increasing order, the inputs at
the offending positions, those `i` whose code `c_i` is not 1 and differs from the first code
that is not 1.  Position 0 is never offending, and the codes other than 1 at the positions
that are not offending are all equal.  When the step returns, every input at an offending
position is a source of kind `SFRAME_SOURCE_NODE`, and a node that is at no offending
position is left as it was. -/
theorem materialize_for_same_rates_offending (env : Env) (p : materialize_options)
    (n : pnode_ptr) (node : planner_node) (st : State)
    (hrate : env.node_consumes_inputs_at_same_rates node = true)
    (hne : env.get_parallel_slicable_codes st.heap n ≠ [])
    (hpos : ∀ c ∈ env.get_parallel_slicable_codes st.heap n, c ≠ 0) :
    materialize_where_needed env p n node st =
        materialize_inputs_in_place env p n
          (offending_inputs (env.get_parallel_slicable_codes st.heap n)) st ∧
      (∀ i, i ∈ offending_inputs (env.get_parallel_slicable_codes st.heap n) ↔
        ∃ c a, (env.get_parallel_slicable_codes st.heap n)[i]? = some c ∧
          first_non_source_code (env.get_parallel_slicable_codes st.heap n) = some a ∧
          c ≠ 1 ∧ c ≠ a) ∧
      0 ∉ offending_inputs (env.get_parallel_slicable_codes st.heap n) ∧
      (∀ i j ci cj, (env.get_parallel_slicable_codes st.heap n)[i]? = some ci →
        (env.get_parallel_slicable_codes st.heap n)[j]? = some cj →
        i ∉ offending_inputs (env.get_parallel_slicable_codes st.heap n) →
        j ∉ offending_inputs (env.get_parallel_slicable_codes st.heap n) →
        ci ≠ 1 → cj ≠ 1 → ci = cj) ∧
      (env.Preserves → st.heap[n]? = some node → n ∉ node.inputs →
        ∀ st', materialize_where_needed env p n node st = .ok st' →
          (∀ i ∈ offending_inputs (env.get_parallel_slicable_codes st.heap n),
            ∀ q, node.inputs[i]? = some q →
              ∃ node', st'.heap[q]? = some node' ∧
                node'.operator_type = .SFRAME_SOURCE_NODE ∧ IsSource node') ∧
          (∀ q nq, st.heap[q]? = some nq →
            (∀ i ∈ offending_inputs (env.get_parallel_slicable_codes st.heap n),
              node.inputs[i]? ≠ some q) → st'.heap[q]? = some nq)) := by
  generalize hcodes : env.get_parallel_slicable_codes st.heap n = codes at *
  have heq : materialize_where_needed env p n node st =
      materialize_inputs_in_place env p n (offending_inputs codes) st := by
    unfold materialize_where_needed materialize_for_same_rates
    rw [if_pos hrate, hcodes]
    cases codes with
    | nil => exact absurd rfl hne
    | cons c0 rest =>
      simp only []
      have h := materialize_mismatched_inputs_eq env p n rest [c0]
        (if c0 ≠ 1 then c0 else 0) st (by simpa using hpos)
        (by
          have h1 := first_non_source_code_append_cons [] c0 []
          simp only [List.nil_append] at h1
          rw [h1]
          by_cases hc : c0 = 1 <;> simp [hc, first_non_source_code])
      simp only [List.singleton_append, List.length_singleton] at h
      simp only [List.length_cons, Nat.add_sub_cancel]
      rw [h]
      unfold offending_inputs
      rw [List.length_cons, List.range_eq_range', List.range'_succ, List.filter_cons,
        is_offending_zero]
      simp
  refine ⟨heq, mem_offending_inputs codes, ?_, ?_, ?_⟩
  · intro h0
    have := (List.mem_filter.mp h0).2
    rw [is_offending_zero] at this; cases this
  · intro i j ci cj hi hj hni hnj hci hcj
    obtain ⟨a, ha⟩ : ∃ a, first_non_source_code codes = some a := by
      cases hf : first_non_source_code codes with
      | some a => exact ⟨a, rfl⟩
      | none =>
        unfold first_non_source_code at hf
        rw [List.find?_eq_none] at hf
        have := hf ci (List.mem_iff_getElem?.mpr ⟨i, hi⟩)
        simp at this
        exact absurd this hci
    have hia : ci = a := by
      by_contra hne'
      exact hni ((mem_offending_inputs codes i).mpr ⟨ci, a, hi, ha, hci, hne'⟩)
    have hja : cj = a := by
      by_contra hne'
      exact hnj ((mem_offending_inputs codes j).mpr ⟨cj, a, hj, ha, hcj, hne'⟩)
    rw [hia, hja]
  · intro hp hnode hnin st' e
    rw [heq] at e
    obtain ⟨hr, hdone⟩ := materialize_inputs_in_place_spec env hp p n node hnin _ _ _ hnode e
    constructor
    · intro i hi q hq
      obtain ⟨node', h1, sf, hsf⟩ := hdone i hi q hq
      exact ⟨node', h1, by rw [hsf]; rfl, sf, hsf⟩
    · intro q nq hq hnot
      exact hr.unchanged hq (fun node' hc => by
        obtain ⟨⟨i, hi, hiq⟩, _⟩ := hc
        exact hnot i hi hiq)

/-- C8, on a union of two transforms and a column, with slicing codes 3, 4 and 1: only
the input at position 1 is rewritten. -/
theorem materialize_for_same_rates_offending_witness :
    materialize_where_needed sample_env sample_options 3 (plain_node .UNION_NODE [1, 2, 0])
        union_of_transforms_state =
      materialize_inputs_in_place sample_env sample_options 3 [1] union_of_transforms_state ∧
    0 ∉ offending_inputs [3, 4, 1] :=
  ⟨(materialize_for_same_rates_offending sample_env sample_options 3
      (plain_node .UNION_NODE [1, 2, 0]) union_of_transforms_state rfl (by decide)
      (by decide)).1,
    (materialize_for_same_rates_offending sample_env sample_options 3
      (plain_node .UNION_NODE [1, 2, 0]) union_of_transforms_state rfl (by decide)
      (by decide)).2.2.1⟩

/-! ## The query context -/

/-- C11: on a context just constructed, whose buffer is the empty batch, `emit(rows)` with a
batch of one row hands the emit callback the empty buffer, not `rows`: the batch that
reaches the callback is `m_buffers`, and `rows` is never looked at. -/
theorem emit_passes_the_buffer :
    sample_batch ≠ (query_context.fresh_memory ([] : List sframe_rows)).m_buffers ∧
      (query_context.emit sample_context (query_context.fresh_memory []) sample_batch).1.calls =
        [callback_call.on_emit []] ∧
      (query_context.emit sample_context (query_context.fresh_memory []) sample_batch).1.callbacks =
        [[]] ∧
      (query_context.emit sample_context (query_context.fresh_memory []) sample_batch).1.callbacks ≠
        [sample_batch] :=
  ⟨by decide, rfl, rfl, by decide⟩

/-- C12: `get_next(i)` makes one call of the get-input callback, with `(i, false)`, and
returns the batch the callback returns; `skip_next(i)` makes one call, with `(i, true)`,
and keeps only the state the callback leaves.  Neither touches the output buffer. -/
theorem get_next_and_skip_next_call_once {σ : Type} (ctx : query_context σ)
    (mem : context_memory σ) (i : Nat) :
    ((query_context.get_next ctx mem i).2 =
        (ctx.m_callback_on_get_input i false mem.callbacks).2 ∧
      (query_context.get_next ctx mem i).1.callbacks =
        (ctx.m_callback_on_get_input i false mem.callbacks).1 ∧
      (query_context.get_next ctx mem i).1.calls =
        mem.calls ++ [callback_call.on_get_input i false] ∧
      (query_context.get_next ctx mem i).1.m_buffers = mem.m_buffers) ∧
    ((query_context.skip_next ctx mem i).callbacks =
        (ctx.m_callback_on_get_input i true mem.callbacks).1 ∧
      (query_context.skip_next ctx mem i).calls =
        mem.calls ++ [callback_call.on_get_input i true] ∧
      (query_context.skip_next ctx mem i).m_buffers = mem.m_buffers) :=
  ⟨⟨rfl, rfl, rfl, rfl⟩, rfl, rfl, rfl⟩

namespace execution_node

theorem foldl_min_le (l : List Nat) : ∀ (a : Nat), l.foldl Nat.min a ≤ a ∧
    ∀ q ∈ l, l.foldl Nat.min a ≤ q := by
  induction l with
  | nil => intro a; exact ⟨Nat.le_refl _, fun q hq => absurd hq (List.not_mem_nil q)⟩
  | cons x xs ih =>
    intro a
    simp only [List.foldl_cons]
    obtain ⟨h1, h2⟩ := ih (Nat.min a x)
    refine ⟨Nat.le_trans h1 (Nat.min_le_left a x), ?_⟩
    intro q hq
    rcases List.mem_cons.mp hq with rfl | hq
    · exact Nat.le_trans h1 (Nat.min_le_right a q)
    · exact h2 q hq

theorem le_foldl_min (l : List Nat) : ∀ (a b : Nat), b ≤ a → (∀ q ∈ l, b ≤ q) →
    b ≤ l.foldl Nat.min a := by
  induction l with
  | nil => intro a b h _; exact h
  | cons x xs ih =>
    intro a b h hq
    simp only [List.foldl_cons]
    exact ih (Nat.min a x) b (Nat.le_min.mpr ⟨h, hq x (List.mem_cons_self _ _)⟩)
      (fun q hq' => hq q (List.mem_cons_of_mem _ hq'))

theorem drop_consumed_spec (node : execution_node)
    (h : ∀ q ∈ node.m_consumer_pos, node.m_head ≤ q + 1) :
    (drop_consumed node).m_output_queue.length ≤ 1 ∧
      (drop_consumed node).m_head = node.m_head ∧
      (drop_consumed node).m_consumer_pos = node.m_consumer_pos := by
  refine ⟨?_, rfl, rfl⟩
  have hmin : node.m_head - 1 ≤ min_consumer_pos node :=
    le_foldl_min _ _ _ (Nat.sub_le _ _) (fun q hq => by have := h q hq; omega)
  simp only [drop_consumed, List.length_drop]
  omega

theorem coupled_get_next (node : execution_node) (consumer_id pos : Nat) (skip : Bool)
    (hc : Coupled node) (hpos : node.m_consumer_pos[consumer_id]? = some pos)
    (hslow : ∀ q ∈ node.m_consumer_pos, pos ≤ q) :
    Coupled (get_next node consumer_id skip).1 := by
  obtain ⟨src, queue, head, skipb, cpos⟩ := node
  obtain ⟨hp, hq⟩ := hc
  simp only [] at hp hq hpos hslow
  have hmem : pos ∈ cpos := List.mem_iff_getElem?.mpr ⟨consumer_id, hpos⟩
  obtain ⟨hle, hge⟩ := hp pos hmem
  unfold get_next
  simp only [hpos]
  by_cases hhead : pos = head
  · rw [if_pos hhead]
    cases src with
    | nil =>
      simp only [resume]
      rw [if_neg (by omega)]
      exact ⟨hp, hq⟩
    | cons rows rest =>
      simp only [resume, add_operator_output]
      rw [if_pos (by omega)]
      simp only []
      have hall : ∀ q ∈ cpos.set consumer_id (pos + 1),
          q ≤ head + 1 ∧ head + 1 ≤ q + 1 := by
        intro q hq'
        rcases List.mem_or_eq_of_mem_set hq' with h | h
        · have h1 := hp q h
          have h2 := hslow q h
          omega
        · omega
      obtain ⟨h1, h2, h3⟩ := drop_consumed_spec
        { m_source := rest, m_output_queue := queue ++ [rows], m_head := head + 1,
          m_skip_next_block := skip, m_consumer_pos := cpos.set consumer_id (pos + 1) }
        (fun q hq' => (hall q hq').2)
      refine ⟨?_, Nat.le_trans h1 (by decide)⟩
      rw [h2, h3]
      exact hall
  · have hlt : pos < head := by omega
    rw [if_neg hhead, if_pos hlt]
    simp only []
    have hall : ∀ q ∈ cpos.set consumer_id (pos + 1),
        q ≤ head ∧ head ≤ q + 1 := by
      intro q hq'
      rcases List.mem_or_eq_of_mem_set hq' with h | h
      · exact hp q h
      · omega
    obtain ⟨h1, h2, h3⟩ := drop_consumed_spec
      { m_source := src, m_output_queue := queue, m_head := head,
        m_skip_next_block := skipb, m_consumer_pos := cpos.set consumer_id (pos + 1) }
      (fun q hq' => (hall q hq').2)
    refine ⟨?_, Nat.le_trans h1 (by decide)⟩
    rw [h2, h3]
    exact hall

theorem coupled_of_reachable (node : execution_node) (h : LockStepReachable node) :
    Coupled node := by
  induction h with
  | init source =>
    exact ⟨fun p hp => absurd hp (List.not_mem_nil p), by simp [init]⟩
  | register node _ hhead ih =>
    refine ⟨?_, ih.2⟩
    intro p hp
    simp only [register_consumer, List.mem_append, List.mem_singleton] at hp
    rcases hp with h | h
    · exact ih.1 p h
    · simp only [register_consumer]; omega
  | pull node consumer_id pos skip _ hpos hslow ih =>
    exact coupled_get_next node consumer_id pos skip ih hpos hslow

/-- C13: in every state an execution node reaches when its consumers are registered and
then pull in lock step, the positions of any two registered consumers differ by at most 1
and the output queue holds at most 2 batches. -/
theorem lock_step_positions_and_queue (node : execution_node) (h : LockStepReachable node) :
    (∀ (i j p q : Nat), node.m_consumer_pos[i]? = some p → node.m_consumer_pos[j]? = some q →
        p ≤ q + 1 ∧ q ≤ p + 1) ∧
      node.m_output_queue.length ≤ 2 := by
  obtain ⟨hp, hq⟩ := coupled_of_reachable node h
  refine ⟨?_, hq⟩
  intro i j p q hi hj
  have h1 := hp p (List.mem_iff_getElem?.mpr ⟨i, hi⟩)
  have h2 := hp q (List.mem_iff_getElem?.mpr ⟨j, hj⟩)
  omega

theorem lock_step_positions_and_queue_witness :
    LockStepReachable two_consumers_one_pull ∧
      two_consumers_one_pull.m_consumer_pos = [1, 0] ∧
      two_consumers_one_pull.m_output_queue.length = 1 ∧
      ((∀ (i j p q : Nat), two_consumers_one_pull.m_consumer_pos[i]? = some p →
          two_consumers_one_pull.m_consumer_pos[j]? = some q → p ≤ q + 1 ∧ q ≤ p + 1) ∧
        two_consumers_one_pull.m_output_queue.length ≤ 2) :=
  have hr : LockStepReachable two_consumers_one_pull :=
    LockStepReachable.pull _ 0 0 false
      (LockStepReachable.register _ (LockStepReachable.register _ (LockStepReachable.init _) rfl)
        rfl)
      rfl (fun _ _ => Nat.zero_le _)
  ⟨hr, rfl, rfl, lock_step_positions_and_queue two_consumers_one_pull hr⟩

end execution_node

namespace unity_sarray

theorem get_type_eq_UNDEFINED (f : flexible_type) :
    f.get_type = .UNDEFINED ↔ f = .UNDEFINED := by
  cases f <;> simp [flexible_type.get_type]

theorem transform_fn_with_undefined (op : String) (transformfn : binary_operator)
    (f g : flexible_type) (frest grest : List flexible_type)
    (h : f = .UNDEFINED ∨ g = .UNDEFINED) :
    transform_fn_with_undefined_checking op transformfn (f :: frest) (g :: grest) =
      .ok (if op = "==" then .INTEGER (if f = .UNDEFINED ∧ g = .UNDEFINED then 1 else 0)
        else if op = "!=" then .INTEGER (if f = .UNDEFINED ∧ g = .UNDEFINED then 0 else 1)
        else .UNDEFINED) := by
  have hu : f.get_type = .UNDEFINED ∨ g.get_type = .UNDEFINED := by
    rcases h with h | h
    · exact Or.inl ((get_type_eq_UNDEFINED f).mpr h)
    · exact Or.inr ((get_type_eq_UNDEFINED g).mpr h)
  have hboth : f.get_type = g.get_type ↔ (f = .UNDEFINED ∧ g = .UNDEFINED) := by
    rcases h with h | h
    · subst h
      constructor
      · intro e; exact ⟨rfl, (get_type_eq_UNDEFINED g).mp e.symm⟩
      · intro e; rw [e.2]
    · subst h
      constructor
      · intro e; exact ⟨(get_type_eq_UNDEFINED f).mp e, rfl⟩
      · intro e; rw [e.1]
  simp only [transform_fn_with_undefined_checking, row_front, bind, Except.bind, pure,
    Except.pure, if_pos hu]
  by_cases h1 : op = "=="
  · subst h1
    by_cases hb : f = .UNDEFINED ∧ g = .UNDEFINED
    · simp [flexible_type.of_bool, hboth, hb]
    · simp [flexible_type.of_bool, hboth, hb]
  · by_cases h2 : op = "!="
    · subst h2
      by_cases hb : f = .UNDEFINED ∧ g = .UNDEFINED
      · simp [flexible_type.of_bool, hboth, hb]
      · simp [flexible_type.of_bool, hboth, hb]
    · simp [h1, h2]

/-- C14: in the row function of `unity_sarray::vector_operator`, for every pair of cells of
which at least one is UNDEFINED and whatever the binary operator is (it is not called): with
"==" the result is 1 exactly when both are UNDEFINED and 0 otherwise, with "!=" it is 0
exactly when both are UNDEFINED and 1 otherwise, and with every other operator it is
UNDEFINED. -/
theorem vector_operator_with_undefined (senv : sarray_env) (transformfn : binary_operator)
    (this_dtype other_dtype : flex_type_enum) (op : String) (f g : flexible_type)
    (frest grest : List flexible_type) (h : f = .UNDEFINED ∨ g = .UNDEFINED) :
    transform_fn_with_undefined_checking op transformfn (f :: frest) (g :: grest) =
        vector_operator_fn senv this_dtype other_dtype op (f :: frest) (g :: grest) ∧
      (op = "==" →
        vector_operator_fn senv this_dtype other_dtype op (f :: frest) (g :: grest) =
          .ok (.INTEGER (if f = .UNDEFINED ∧ g = .UNDEFINED then 1 else 0))) ∧
      (op = "!=" →
        vector_operator_fn senv this_dtype other_dtype op (f :: frest) (g :: grest) =
          .ok (.INTEGER (if f = .UNDEFINED ∧ g = .UNDEFINED then 0 else 1))) ∧
      (op ≠ "==" → op ≠ "!=" →
        vector_operator_fn senv this_dtype other_dtype op (f :: frest) (g :: grest) =
          .ok .UNDEFINED) := by
  have e (fn : binary_operator) := transform_fn_with_undefined op fn f g frest grest h
  refine ⟨?_, ?_, ?_, ?_⟩
  · rw [vector_operator_fn, e, e]
  · intro h1
    rw [vector_operator_fn, e, if_pos h1]
  · intro h2
    have h1 : op ≠ "==" := by rw [h2]; decide
    rw [vector_operator_fn, e, if_neg h1, if_pos h2]
  · intro h1 h2
    rw [vector_operator_fn, e, if_neg h1, if_neg h2]

theorem vector_operator_with_undefined_witness :
    (unity_sarray.vector_operator_fn sample_sarray_env .INTEGER .INTEGER "=="
        [.UNDEFINED] [.INTEGER 3] = .ok (.INTEGER 0)) ∧
      (unity_sarray.vector_operator_fn sample_sarray_env .INTEGER .INTEGER "!="
        [.UNDEFINED] [.UNDEFINED] = .ok (.INTEGER 0)) ∧
      (unity_sarray.vector_operator_fn sample_sarray_env .INTEGER .INTEGER "+"
        [.INTEGER 3] [.UNDEFINED] = .ok .UNDEFINED) :=
  ⟨(vector_operator_with_undefined sample_sarray_env (fun _ _ => .error .bad_any_cast)
      .INTEGER .INTEGER "==" .UNDEFINED (.INTEGER 3) [] [] (Or.inl rfl)).2.1 rfl,
   (vector_operator_with_undefined sample_sarray_env (fun _ _ => .error .bad_any_cast)
      .INTEGER .INTEGER "!=" .UNDEFINED .UNDEFINED [] [] (Or.inl rfl)).2.2.1 rfl,
   (vector_operator_with_undefined sample_sarray_env (fun _ _ => .error .bad_any_cast)
      .INTEGER .INTEGER "+" (.INTEGER 3) .UNDEFINED [] [] (Or.inr rfl)).2.2.2
      (by decide) (by decide)⟩

end unity_sarray
namespace unity_sarray

theorem scalar_operator_fn_undefined (senv : sarray_env) (dtype : flex_type_enum)
    (other : flexible_type) (op : String) (right_operator : Bool)
    (rest : List flexible_type) (h : other ≠ .UNDEFINED) :
    scalar_operator_fn senv dtype other op right_operator (.UNDEFINED :: rest) =
      .ok .UNDEFINED := by
  have hn : other.get_type ≠ .UNDEFINED := fun e => h ((get_type_eq_UNDEFINED other).mp e)
  simp only [scalar_operator_fn, transform_lambda_fn, row_front, bind, Except.bind, pure,
    Except.pure]
  rw [if_pos]
  exact ⟨decide_eq_true hn, rfl⟩

theorem ok_UNDEFINED_ne_INTEGER (v : Int) :
    (Except.ok flexible_type.UNDEFINED : Except Exn flexible_type) ≠ .ok (.INTEGER v) := by
  intro e
  cases e

/-- C15: in `unity_sarray::scalar_operator` with a scalar operand that is not UNDEFINED, the
output cell for an UNDEFINED element is UNDEFINED, for every operator ("==" and "!="
included) and on either side (`left_scalar_operator` and `right_scalar_operator`). -/
theorem scalar_operator_skips_undefined (senv : sarray_env) (dtype : flex_type_enum)
    (other : flexible_type) (op : String) (rest : List flexible_type)
    (h : other ≠ .UNDEFINED) :
    left_scalar_operator_fn senv dtype other op (.UNDEFINED :: rest) = .ok .UNDEFINED ∧
      right_scalar_operator_fn senv dtype other op (.UNDEFINED :: rest) = .ok .UNDEFINED :=
  ⟨scalar_operator_fn_undefined senv dtype other op false rest h,
   scalar_operator_fn_undefined senv dtype other op true rest h⟩

theorem scalar_operator_skips_undefined_witness :
    left_scalar_operator_fn sample_sarray_env .INTEGER (.INTEGER 5) "!=" [.UNDEFINED] =
        .ok .UNDEFINED ∧
      right_scalar_operator_fn sample_sarray_env .INTEGER (.INTEGER 5) "!=" [.UNDEFINED] =
        .ok .UNDEFINED :=
  scalar_operator_skips_undefined sample_sarray_env .INTEGER (.INTEGER 5) "!=" []
    (by decide)

/-- With the scalar 5 and the operator "==", the output cell for an UNDEFINED element is
UNDEFINED, not 0; with "!=" it is UNDEFINED, not 1; on the left and on the right. -/
theorem scalar_operator_undefined_element_is_not_compared :
    left_scalar_operator_fn sample_sarray_env .INTEGER (.INTEGER 5) "==" [.UNDEFINED] =
        .ok .UNDEFINED ∧
      left_scalar_operator_fn sample_sarray_env .INTEGER (.INTEGER 5) "==" [.UNDEFINED] ≠
        .ok (.INTEGER 0) ∧
      right_scalar_operator_fn sample_sarray_env .INTEGER (.INTEGER 5) "!=" [.UNDEFINED] =
        .ok .UNDEFINED ∧
      right_scalar_operator_fn sample_sarray_env .INTEGER (.INTEGER 5) "!=" [.UNDEFINED] ≠
        .ok (.INTEGER 1) ∧
      left_scalar_operator_fn sample_sarray_env .INTEGER (.INTEGER 5) "==" [.INTEGER 4] =
        .ok (.INTEGER 0) :=
  ⟨rfl, ok_UNDEFINED_ne_INTEGER 0, rfl, ok_UNDEFINED_ne_INTEGER 1, rfl⟩

end unity_sarray

namespace unity_sarray

/-- C16: with the value types of the two arrays determined, `unity_sarray::append(other)`
raises "Both SArrays have to have the same value type" whenever they differ, in the state
it was called in (no planner node built, none changed); when they are equal it builds a new
`APPEND_NODE` whose first input is the node of this array and whose second input is the
node of `other`, leaves the existing nodes as they are, and hands the new node to the
constructor of the result. -/
theorem append_checks_dtype (env : Env) (senv : sarray_env) (fuel : Nat) (st : State)
    (this other : unity_sarray) (a b : flex_type_enum)
    (ha : dtype senv st.heap this = .ok a) (hb : dtype senv st.heap other = .ok b) :
    (a ≠ b →
        append env senv fuel st this other =
          (st, .error (.exn (.logged "Both SArrays have to have the same value type")))) ∧
      (a = b →
        ∃ (st1 : State) (node : pnode_ptr) (built : planner_node),
          op_append.make_planner_node st this.m_planner_node other.m_planner_node =
              (st1, node) ∧
            st.heap[node]? = none ∧
            st1.deref node = .ok built ∧
            built.operator_type = .APPEND_NODE ∧
            built.inputs = [this.m_planner_node, other.m_planner_node] ∧
            Extends st.heap st1.heap ∧
            st1.heap.length = st.heap.length + 1 ∧
            append env senv fuel st this other =
              (match construct_from_planner_node env senv fuel st1 node with
                | .ok (st2, ret_sarray) => (st2, .ok ret_sarray)
                | .error e => (st1, .error e))) := by
  constructor
  · intro hne
    simp only [append, append_check_dtype, ha, hb, bind, Except.bind, if_pos hne]
  · intro heq
    refine ⟨{ st with heap := st.heap ++ [plain_node .APPEND_NODE
      [this.m_planner_node, other.m_planner_node]] }, st.heap.length,
      plain_node .APPEND_NODE [this.m_planner_node, other.m_planner_node],
      rfl, ?_, ?_, rfl, rfl, ?_, ?_, ?_⟩
    · exact List.getElem?_eq_none (Nat.le_refl _)
    · simp [State.deref]
    · intro q node hq
      simp only []
      have hlt : q < st.heap.length := by
        by_contra hge
        rw [List.getElem?_eq_none (Nat.le_of_not_lt hge)] at hq
        cases hq
      rw [List.getElem?_append_left hlt]
      exact hq
    · simp
    · simp only [append, append_check_dtype, ha, hb, bind, Except.bind, heq, ne_eq,
        not_true_eq_false, if_false, pure, Except.pure]
      rfl

theorem append_checks_dtype_witness :
    append sample_env sample_sarray_env 1 mixed_state ⟨0⟩ ⟨1⟩ =
        (mixed_state, .error (.exn (.logged "Both SArrays have to have the same value type"))) ∧
      append sample_env sample_sarray_env 1 mixed_state ⟨0⟩ ⟨0⟩ =
        (mixed_state_appended, .ok ⟨2⟩) :=
  ⟨(append_checks_dtype sample_env sample_sarray_env 1 mixed_state ⟨0⟩ ⟨1⟩ .INTEGER .STRING
      rfl rfl).1 (by decide),
   rfl⟩

end unity_sarray

theorem wrap_int64_add (x y : Int) : wrap_int64 (wrap_int64 x + y) = wrap_int64 (x + y) := by
  unfold wrap_int64
  omega

theorem wrap_int64_add_right (x y : Int) :
    wrap_int64 (x + wrap_int64 y) = wrap_int64 (x + y) := by
  unfold wrap_int64
  omega

theorem wrap_int64_idem (x : Int) : wrap_int64 (wrap_int64 x) = wrap_int64 x := by
  unfold wrap_int64
  omega

theorem defined_sum_nil : defined_sum [] = 0 := rfl

theorem defined_sum_append (xs ys : sarray) :
    defined_sum (xs ++ ys) = defined_sum xs + defined_sum ys := by
  simp [defined_sum, List.map_append, List.sum_append]

namespace unity_sarray

theorem fold_sum_reductionfn
    (plus_assign : flexible_type → flexible_type → flexible_type)
    (hplus : ∀ (a b : Int), plus_assign (.INTEGER a) (.INTEGER b) = .INTEGER (wrap_int64 (a + b)))
    (segment : sarray) :
    ∀ (a : Int), (∀ c ∈ segment, c.get_type = .INTEGER ∨ c.get_type = .UNDEFINED) →
      wrap_int64 a = a →
      segment.foldl (fun acc f => sum_reductionfn plus_assign f acc) (.INTEGER a) =
        .INTEGER (wrap_int64 (a + defined_sum segment)) := by
  induction segment with
  | nil =>
    intro a _ ha
    simp [defined_sum, ha]
  | cons c rest ih =>
    intro a hc ha
    have hrest : ∀ c ∈ rest, c.get_type = .INTEGER ∨ c.get_type = .UNDEFINED :=
      fun c h => hc c (List.mem_cons_of_mem _ h)
    have hds (v : Int) : defined_sum (.INTEGER v :: rest) = v + defined_sum rest := by
      simp [defined_sum]
    rw [List.foldl_cons]
    cases c with
    | INTEGER v =>
      have h1 : sum_reductionfn plus_assign (.INTEGER v) (.INTEGER a) =
          .INTEGER (wrap_int64 (a + v)) := by
        simp [sum_reductionfn, flexible_type.get_type, hplus]
      rw [h1, ih _ hrest (wrap_int64_idem _), wrap_int64_add, hds, Int.add_assoc]
    | UNDEFINED =>
      have h1 : sum_reductionfn plus_assign .UNDEFINED (.INTEGER a) = .INTEGER a := by
        simp [sum_reductionfn, flexible_type.get_type]
      have h2 : defined_sum (.UNDEFINED :: rest) = defined_sum rest := by
        simp [defined_sum]
      rw [h1, ih _ hrest ha, h2]
    | _ =>
      exfalso
      have := hc _ (List.mem_cons_self _ _)
      simp [flexible_type.get_type] at this

theorem reduce_sum_reductionfn
    (plus_assign : flexible_type → flexible_type → flexible_type)
    (hplus : ∀ (a b : Int), plus_assign (.INTEGER a) (.INTEGER b) = .INTEGER (wrap_int64 (a + b)))
    (segments : List sarray) :
    ∀ (a : Int), (∀ c ∈ segments.flatten, c.get_type = .INTEGER ∨ c.get_type = .UNDEFINED) →
      wrap_int64 a = a →
      (segments.map fun segment =>
          segment.foldl (fun acc f => sum_reductionfn plus_assign f acc) (.INTEGER 0)).foldl
        (fun acc segment_result => sum_reductionfn plus_assign segment_result acc)
          (.INTEGER a) =
        .INTEGER (wrap_int64 (a + defined_sum segments.flatten)) := by
  induction segments with
  | nil =>
    intro a _ ha
    simp [defined_sum, ha]
  | cons segment rest ih =>
    intro a hc ha
    have hseg : ∀ c ∈ segment, c.get_type = .INTEGER ∨ c.get_type = .UNDEFINED :=
      fun c h => hc c (by simp [h])
    have hrest : ∀ c ∈ rest.flatten, c.get_type = .INTEGER ∨ c.get_type = .UNDEFINED :=
      fun c h => hc c (by rw [List.flatten_cons]; exact List.mem_append_right _ h)
    rw [List.map_cons, List.foldl_cons, fold_sum_reductionfn plus_assign hplus segment 0 hseg rfl]
    have h1 : sum_reductionfn plus_assign (.INTEGER (wrap_int64 (0 + defined_sum segment)))
        (.INTEGER a) = .INTEGER (wrap_int64 (a + defined_sum segment)) := by
      simp [sum_reductionfn, flexible_type.get_type, hplus, wrap_int64_add_right]
    rw [h1, ih _ hrest (wrap_int64_idem _), wrap_int64_add, List.flatten_cons, defined_sum_append,
      Int.add_assoc]

/-- C17: the integer sum of `unity_sarray::sum` does not depend on the segmentation: for
every column of integers (with or without UNDEFINED cells) and every split of it into
consecutive segments, folding each segment from 0 with the reduction function and combining
the results of the segments in order with the same function gives the sum, in 64-bit
wrap-around arithmetic, of the defined cells; this is the result with a single segment and
what `sum()` returns for a non-empty column of type INTEGER. -/
theorem sum_independent_of_segmentation (senv : sarray_env)
    (plus_assign : flexible_type → flexible_type → flexible_type)
    (vector_sum : List sarray → Except Exn flexible_type) (h : Heap) (this : unity_sarray)
    (segments : List sarray)
    (hplus : ∀ (a b : Int), plus_assign (.INTEGER a) (.INTEGER b) = .INTEGER (wrap_int64 (a + b)))
    (hcol : ∀ c ∈ segments.flatten, c.get_type = .INTEGER ∨ c.get_type = .UNDEFINED) :
    reduce segments (sum_reductionfn plus_assign) (sum_reductionfn plus_assign) (.INTEGER 0) =
        .INTEGER (wrap_int64 (defined_sum segments.flatten)) ∧
      reduce segments (sum_reductionfn plus_assign) (sum_reductionfn plus_assign) (.INTEGER 0) =
        reduce [segments.flatten] (sum_reductionfn plus_assign) (sum_reductionfn plus_assign)
          (.INTEGER 0) ∧
      (dtype senv h this = .ok .INTEGER → segments.flatten ≠ [] →
        sum senv plus_assign vector_sum h this segments =
          .ok (.INTEGER (wrap_int64 (defined_sum segments.flatten)))) := by
  have e1 : reduce segments (sum_reductionfn plus_assign) (sum_reductionfn plus_assign)
      (.INTEGER 0) = .INTEGER (wrap_int64 (defined_sum segments.flatten)) := by
    have := reduce_sum_reductionfn plus_assign hplus segments 0 hcol rfl
    rw [Int.zero_add] at this
    exact this
  have e2 : reduce [segments.flatten] (sum_reductionfn plus_assign) (sum_reductionfn plus_assign)
      (.INTEGER 0) = .INTEGER (wrap_int64 (defined_sum segments.flatten)) := by
    have := reduce_sum_reductionfn plus_assign hplus [segments.flatten] 0
      (by simpa using hcol) rfl
    rw [Int.zero_add] at this
    simpa using this
  refine ⟨e1, e1.trans e2.symm, ?_⟩
  intro hd hne
  have hlen : segments.flatten.length > 0 := List.length_pos.mpr hne
  simp only [sum, if_pos hlen, hd, bind, Except.bind, true_or, if_true, pure, Except.pure,
    e1]

theorem sum_independent_of_segmentation_witness :
    reduce [[.INTEGER 1, .INTEGER 2], [], [.INTEGER 3, .INTEGER 4, .INTEGER 5]]
        (sum_reductionfn sample_plus_assign) (sum_reductionfn sample_plus_assign)
        (.INTEGER 0) = .INTEGER 15 ∧
      reduce [column_one_to_five] (sum_reductionfn sample_plus_assign)
        (sum_reductionfn sample_plus_assign) (.INTEGER 0) = .INTEGER 15 ∧
      sum sample_sarray_env sample_plus_assign (fun _ => .error .bad_any_cast)
        one_to_five_state.heap ⟨0⟩
        [[.INTEGER 1, .INTEGER 2], [], [.INTEGER 3, .INTEGER 4, .INTEGER 5]] =
          .ok (.INTEGER 15) :=
  have hw := sum_independent_of_segmentation sample_sarray_env sample_plus_assign
    (fun _ => .error .bad_any_cast) one_to_five_state.heap ⟨0⟩
    [[.INTEGER 1, .INTEGER 2], [], [.INTEGER 3, .INTEGER 4, .INTEGER 5]]
    (fun _ _ => rfl) (by decide)
  ⟨hw.1, hw.2.1.symm.trans hw.1, hw.2.2 rfl (by decide)⟩

end unity_sarray

namespace cppipc

/-- C18: `cppipc::must_cancel()` returns true if and only if the running command equals
`uint64_t(-1)`, that is 2^64 - 1; it leaves the running command as it is, and the state it
leaves is the one it found with the cancel-bit-checked flag set to true. -/
theorem must_cancel_iff (st : cancel_state) :
    ((must_cancel st).2 = true ↔ st.srv_running_command = 2 ^ 64 - 1) ∧
      (must_cancel st).1.srv_running_command = st.srv_running_command ∧
      (must_cancel st).1.cancel_bit_checked = true ∧
      (must_cancel st).1 = { st with cancel_bit_checked := true } := by
  refine ⟨?_, rfl, rfl, rfl⟩
  simp [must_cancel, max_64bit]

theorem trailing_misses_snoc (outcomes : List Bool) (answered : Bool) :
    trailing_misses (outcomes ++ [answered]) =
      if answered then 0 else trailing_misses outcomes + 1 := by
  cases answered <;> simp [trailing_misses, List.takeWhile_cons]

theorem trailing_misses_le (outcomes : List Bool) :
    trailing_misses outcomes ≤ outcomes.length := by
  have := List.Sublist.length_le
    (List.takeWhile_sublist (fun answered => !answered) (l := outcomes.reverse))
  simpa [trailing_misses] using this

theorem ping_loop_invariant (num_tolerable_ping_failures : Nat) (st : ping_state)
    (halive : st.server_alive = true) (hcount : st.ping_failure_count = 0)
    (hN : 1 ≤ num_tolerable_ping_failures) (outcomes : List Bool) :
    outcomes.length < 2 ^ 64 →
      (ping_loop num_tolerable_ping_failures st outcomes).ping_failure_count =
          trailing_misses outcomes ∧
        ((ping_loop num_tolerable_ping_failures st outcomes).server_alive = false ↔
          num_tolerable_ping_failures ≤ trailing_misses outcomes) := by
  induction outcomes using List.reverseRecOn with
  | nil =>
    intro _
    simp only [ping_loop, List.foldl_nil, trailing_misses, List.reverse_nil,
      List.takeWhile_nil, List.length_nil]
    refine ⟨hcount, ?_⟩
    rw [halive]
    constructor
    · intro h; cases h
    · intro h; omega
  | append_singleton outcomes answered ih =>
    intro hlen
    rw [List.length_append, List.length_singleton] at hlen
    obtain ⟨ih1, ih2⟩ := ih (by omega)
    have hle := trailing_misses_le outcomes
    unfold ping_loop at ih1 ih2 ⊢
    rw [List.foldl_append, List.foldl_cons, List.foldl_nil, trailing_misses_snoc]
    cases answered with
    | true =>
      simp [ping_turn]
      omega
    | false =>
      have hmod : (trailing_misses outcomes + 1) % 2 ^ 64 = trailing_misses outcomes + 1 :=
        Nat.mod_eq_of_lt (by omega)
      simp only [ping_turn, Bool.false_eq_true, if_false, ih1, hmod, ge_iff_le]
      by_cases hge : num_tolerable_ping_failures ≤ trailing_misses outcomes + 1
      · rw [if_pos hge]
        exact ⟨rfl, fun _ => hge, fun _ => rfl⟩
      · rw [if_neg hge]
        refine ⟨rfl, ?_⟩
        simp only []
        rw [ih2]
        constructor
        · intro h; omega
        · intro h; omega

/-- C19: in the loop of the ping thread, with `num_tolerable_ping_failures` at least 1 and
the client starting with the server alive and no failure counted, after any sequence of
ping outcomes `ping_failure_count` is the number of unanswered pings at the end of the
sequence and `server_alive` is false exactly when that number is at least
`num_tolerable_ping_failures`; an answered ping sets the count to 0 and marks the server
alive. -/
theorem ping_loop_counts_trailing_misses (num_tolerable_ping_failures : Nat) (st : ping_state)
    (outcomes : List Bool) (hN : 1 ≤ num_tolerable_ping_failures)
    (halive : st.server_alive = true) (hcount : st.ping_failure_count = 0)
    (hlen : outcomes.length < 2 ^ 64) :
    (ping_loop num_tolerable_ping_failures st outcomes).ping_failure_count =
        trailing_misses outcomes ∧
      ((ping_loop num_tolerable_ping_failures st outcomes).server_alive = false ↔
        num_tolerable_ping_failures ≤ trailing_misses outcomes) ∧
      (trailing_misses outcomes < num_tolerable_ping_failures →
        (ping_loop num_tolerable_ping_failures st outcomes).server_alive = true) ∧
      (∀ (st1 : ping_state), ping_turn num_tolerable_ping_failures st1 true =
        { server_alive := true, ping_failure_count := 0 }) := by
  obtain ⟨h1, h2⟩ :=
    ping_loop_invariant num_tolerable_ping_failures st halive hcount hN outcomes hlen
  refine ⟨h1, h2, ?_, fun _ => rfl⟩
  intro hlt
  cases hs : (ping_loop num_tolerable_ping_failures st outcomes).server_alive with
  | true => rfl
  | false => exact absurd (h2.mp hs) (by omega)

theorem ping_loop_counts_trailing_misses_witness :
    (ping_loop 3 ⟨true, 0⟩ [false, false, false, true, false, false]).ping_failure_count = 2 ∧
      (ping_loop 3 ⟨true, 0⟩ [false, false, false, true, false, false]).server_alive = true ∧
      (ping_loop 3 ⟨true, 0⟩ [true, false, false, false]).server_alive = false :=
  have h1 := ping_loop_counts_trailing_misses 3 ⟨true, 0⟩
    [false, false, false, true, false, false] (by decide) rfl rfl (by simp)
  have h2 := ping_loop_counts_trailing_misses 3 ⟨true, 0⟩
    [true, false, false, false] (by decide) rfl rfl (by simp)
  ⟨h1.1, h1.2.2.1 (by decide), h2.2.1.mpr (by decide)⟩

/-- C20: `comm_client::decr_ref_count(id)` returns the new reference count: for an id
tracked with a count c of at least 1 it returns c - 1, after which `get_ref_count(id)` is
c - 1 when c > 1 and the id is untracked when c = 1; for an untracked id it returns
`size_t(-1)` and leaves the client as it is.  Whenever it returns, the list with the id has
been sent to the server if the returned count is 0, and nothing has been sent otherwise. -/
theorem decr_ref_count_returns_new_count (st : ref_count_state) (object_id : Nat) :
    (∀ (c : Nat), st.object_ref_count object_id = some c → 1 ≤ c →
        ∃ (st1 : ref_count_state), decr_ref_count st object_id = .ok (st1, c - 1) ∧
          (1 < c → get_ref_count st1 object_id = c - 1) ∧
          (c = 1 → st1.object_ref_count object_id = none ∧
            get_ref_count st1 object_id = 2 ^ 64 - 1) ∧
          (∀ (id : Nat), id ≠ object_id → st1.object_ref_count id = st.object_ref_count id)) ∧
      (st.object_ref_count object_id = none →
        decr_ref_count st object_id = .ok (st, 2 ^ 64 - 1)) ∧
      (∀ (st1 : ref_count_state) (ref_cnt : Nat),
        decr_ref_count st object_id = .ok (st1, ref_cnt) →
          (ref_cnt = 0 → st1.deletion_lists = st.deletion_lists ++ [[object_id]]) ∧
          (ref_cnt ≠ 0 → st1.deletion_lists = st.deletion_lists)) := by
  refine ⟨?_, ?_, ?_⟩
  · intro c hc h1
    by_cases hgt : c > 1
    · refine ⟨set_ref_count st object_id (some (c - 1)), ?_, ?_, ?_, ?_⟩
      · have hne : c - 1 ≠ 0 := by omega
        simp [decr_ref_count, decr_ref_count_locked, hc, hgt, bind, Except.bind, hne, pure,
          Except.pure]
      · intro _
        simp [get_ref_count, set_ref_count]
      · intro h; omega
      · intro id hid
        simp [set_ref_count, hid]
    · have hc1 : c = 1 := by omega
      subst hc1
      refine ⟨send_deletion_list (set_ref_count st object_id none) [object_id], ?_, ?_, ?_, ?_⟩
      · simp [decr_ref_count, decr_ref_count_locked, hc, bind, Except.bind, pure,
          Except.pure]
      · intro h; omega
      · intro _
        simp [get_ref_count, set_ref_count, send_deletion_list, max_64bit]
      · intro id hid
        simp [set_ref_count, send_deletion_list, hid]
  · intro hnone
    simp [decr_ref_count, decr_ref_count_locked, hnone, bind, Except.bind, pure,
      Except.pure, max_64bit]
  · intro st1 ref_cnt h
    unfold decr_ref_count at h
    rw [bind_ok_iff] at h
    obtain ⟨⟨st0, r0⟩, h0, h⟩ := h
    have hkeep : st0.deletion_lists = st.deletion_lists := by
      unfold decr_ref_count_locked at h0
      split at h0
      · split at h0
        · cases h0; rfl
        · split at h0
          · cases h0; rfl
          · cases h0
      · cases h0; rfl
    simp only [] at h
    by_cases hz : r0 = 0
    · rw [if_pos hz] at h
      cases h
      exact ⟨fun _ => by simp [send_deletion_list, hkeep], fun hne => absurd hz hne⟩
    · rw [if_neg hz] at h
      cases h
      exact ⟨fun h0 => absurd h0 hz, fun _ => hkeep⟩

theorem decr_ref_count_returns_new_count_witness :
    (∃ (st1 : ref_count_state), decr_ref_count sample_ref_counts 7 = .ok (st1, 1) ∧
        get_ref_count st1 7 = 1 ∧ st1.deletion_lists = []) ∧
      (∃ (st1 : ref_count_state), decr_ref_count sample_ref_counts 9 = .ok (st1, 0) ∧
        get_ref_count st1 9 = 2 ^ 64 - 1 ∧ st1.deletion_lists = [[9]]) ∧
      decr_ref_count sample_ref_counts 8 = .ok (sample_ref_counts, 2 ^ 64 - 1) :=
  have h := decr_ref_count_returns_new_count sample_ref_counts
  ⟨(h 7).1 2 rfl (by decide) |>.elim fun st1 hs =>
      ⟨st1, hs.1, hs.2.1 (by decide), ((h 7).2.2 st1 1 hs.1).2 (by decide)⟩,
   (h 9).1 1 rfl (by decide) |>.elim fun st1 hs =>
      ⟨st1, hs.1, (hs.2.2.1 rfl).2, ((h 9).2.2 st1 0 hs.1).1 rfl⟩,
   (h 8).2.1 rfl⟩

end cppipc

/-! ## Atomic maximum and minimum -/

theorem atomic_set_instance_iff (T : int_type) :
    atomic_compare_and_swap_val_instance T int_type.size_t T = some T ↔
      T = int_type.size_t := by
  cases T <;> simp [atomic_compare_and_swap_val_instance]

theorem atomic_set_max_eq (fuel max_value new_value : Nat) :
    atomic_set_max (fuel + 1) max_value new_value = some (max max_value new_value) := by
  unfold atomic_set_max
  simp only []
  by_cases hlt : max_value < new_value
  · rw [if_pos hlt]
    simp only [atomic_set_max_loop, atomic_compare_and_swap_val, if_true]
    rw [max_eq_right (Nat.le_of_lt hlt)]
  · rw [if_neg hlt, max_eq_left (Nat.le_of_not_lt hlt)]

theorem atomic_set_min_eq (fuel min_value new_value : Nat) :
    atomic_set_min (fuel + 1) min_value new_value = some (min min_value new_value) := by
  unfold atomic_set_min
  simp only []
  by_cases hgt : min_value > new_value
  · rw [if_pos hgt]
    simp only [atomic_set_min_loop, atomic_compare_and_swap_val, if_true]
    rw [min_eq_right (Nat.le_of_lt hgt)]
  · rw [if_neg hgt, min_eq_left (Nat.le_of_not_lt hgt)]

/-- C21, as stated, fails: for `T = int64_t` (and for `int32_t`, `uint32_t`) the call of
`atomic_compare_and_swap_val` in `atomic_set_max` and in `atomic_set_min` gets a `T&`, a
`size_t` and a `T` and has no instance, so that there is no `atomic_set_max<int64_t>` to be
equivalent to `std::max` on negative values. -/
theorem atomic_set_max_min_no_signed_instance :
    atomic_set_max_instance int_type.int64_t = none ∧
      atomic_set_min_instance int_type.int64_t = none ∧
      atomic_set_max_instance int_type.int32_t = none ∧
      atomic_set_min_instance int_type.int32_t = none ∧
      atomic_set_max_instance int_type.uint32_t = none ∧
      atomic_set_min_instance int_type.uint32_t = none := by
  refine ⟨by decide, by decide, by decide, by decide, by decide, by decide⟩

/-- C21, amended: `atomic_set_max` and `atomic_set_min` have an instance for `T` exactly
when `T` is `size_t`, and for `size_t`, run without interference with room for one round
of the loop, `atomic_set_max(max_value, new_value)` leaves `std::max(max_value, new_value)`
in `max_value` and `atomic_set_min(min_value, new_value)` leaves
`std::min(min_value, new_value)` in `min_value`, for all values. -/
theorem atomic_set_max_min_for_size_t (fuel : Nat) (hfuel : 0 < fuel) :
    (∀ T, atomic_set_max_instance T = some T ↔ T = int_type.size_t) ∧
      (∀ T, atomic_set_min_instance T = some T ↔ T = int_type.size_t) ∧
      (∀ max_value new_value,
        atomic_set_max fuel max_value new_value = some (max max_value new_value)) ∧
      (∀ min_value new_value,
        atomic_set_min fuel min_value new_value = some (min min_value new_value)) := by
  obtain ⟨k, rfl⟩ : ∃ k, fuel = k + 1 := ⟨fuel - 1, by omega⟩
  exact ⟨atomic_set_instance_iff, atomic_set_instance_iff,
    atomic_set_max_eq k, atomic_set_min_eq k⟩

theorem atomic_set_max_min_for_size_t_witness :
    (0 < 1) ∧ atomic_set_max 1 3 5 = some 5 ∧ atomic_set_min 1 5 3 = some 3 ∧
      atomic_set_max 1 (2 ^ 64 - 1) 5 = some (2 ^ 64 - 1) :=
  ⟨by decide, (atomic_set_max_min_for_size_t 1 (by decide)).2.2.1 3 5,
    (atomic_set_max_min_for_size_t 1 (by decide)).2.2.2 5 3,
    (atomic_set_max_min_for_size_t 1 (by decide)).2.2.1 (2 ^ 64 - 1) 5⟩

/-! ## The handle returned by `partial_materialize_impl` -/

/-- C26: on an acyclic plan, with collaborators that leave existing nodes alone and a memo
as `partial_materialize_impl` builds it (the empty one included).  Whenever
`partial_materialize_impl(n, ...)` returns, it returns the handle `n`; the memo it leaves
maps every handle in it to itself, `n` included; the loop
`n->inputs[i] = partial_materialize_impl(n->inputs[i], ...)` leaves the node behind `n` as
it was; and every node of the plan either is as it was, with the same input edges, or has
been overwritten in place by a source without inputs.  With a budget above the rank of `n`
plus the largest number of inputs it is never the budget that stops the call. -/
theorem partial_materialize_impl_returns_its_argument (env : Env) (hp : env.Preserves)
    (p : materialize_options) (rk : pnode_ptr → Nat) (N : Nat)
    (st : State) (memo : Memo) (n : pnode_ptr)
    (hdag : Dag rk N st.heap) (hn : n < N) (hm : MemoInv env st.heap memo) :
    (∀ fuel st' memo' r,
      partial_materialize_impl env p fuel st memo n = .ok (st', memo', r) →
        r = n ∧
        (∀ (k v : pnode_ptr), memo'.lookup k = some v → v = k) ∧
        memo'.lookup n = some n ∧
        (∀ (q : pnode_ptr) (node : planner_node), st.heap[q]? = some node →
          ∃ node', st'.heap[q]? = some node' ∧
            (node' = node ∨ (IsSource node' ∧ node'.inputs = [])))) ∧
      (∀ fuel budget i st1 memo1 node, st.heap[n]? = some node →
        materialize_inputs_loop (partial_materialize_impl env p fuel) n budget i st memo =
          .ok (st1, memo1) →
        st1.heap[n]? = some node) ∧
      (∀ W fuel, InputsBounded N W st.heap → rk n + W < fuel →
        partial_materialize_impl env p fuel st memo n ≠ .error .out_of_fuel) := by
  refine ⟨?_, ?_, ?_⟩
  · intro fuel st' memo' r e
    have post := partial_materialize_impl_spec env hp p rk N fuel st memo n st' memo' r
      hdag hn hm e
    refine ⟨post.ret, fun k v hkv => (post.memo_inv k v hkv).1, post.recorded, ?_⟩
    intro q node hq
    rcases post.rewritten q node hq with h | ⟨node', h, hc⟩
    · exact ⟨node, h, Or.inl rfl⟩
    · exact ⟨node', h, Or.inr ⟨hc.2.2, hc.2.2.inputs⟩⟩
  · intro fuel budget i st1 memo1 node hnode e
    have hloop := materialize_inputs_loop_spec env p rk N
      (partial_materialize_impl env p fuel) n node
      (fun st memo q st' memo' r hd hq hmm he =>
        partial_materialize_impl_spec env hp p rk N fuel st memo q st' memo' r hd hq hmm he)
      hn budget i st memo st1 memo1 hdag hnode hm e
    exact hloop.1.unchanged hnode (fun node' hc => Nat.lt_irrefl _ hc.2.1)
  · intro W fuel hb hfuel
    exact partial_materialize_impl_fuel env hp p rk N W fuel st memo n hdag hn hm hb hfuel

/-- C26, on a logical filter over a data column and a mask column. -/
theorem partial_materialize_impl_returns_its_argument_witness :
    ((2 : pnode_ptr) = 2 ∧
        (∀ (k v : pnode_ptr), List.lookup k [((2 : pnode_ptr), (2 : pnode_ptr)), (1, 1), (0, 0)] =
          some v → v = k) ∧
        List.lookup (2 : pnode_ptr) [((2 : pnode_ptr), (2 : pnode_ptr)), (1, 1), (0, 0)] =
          some 2 ∧
        (∀ (q : pnode_ptr) (node : planner_node), filter_state.heap[q]? = some node →
          ∃ node', filter_state_done.heap[q]? = some node' ∧
            (node' = node ∨ (IsSource node' ∧ node'.inputs = [])))) ∧
      partial_materialize_impl sample_env sample_options 5 filter_state [] 2 ≠
        .error .out_of_fuel :=
  ⟨(partial_materialize_impl_returns_its_argument sample_env sample_env_preserves
      sample_options (fun q => q) 3 filter_state [] 2 (three_node_dag _ _ _ rfl rfl rfl)
      (by decide) (memoInv_nil _ _)).1 3 filter_state_done [(2, 2), (1, 1), (0, 0)] 2 rfl,
    (partial_materialize_impl_returns_its_argument sample_env sample_env_preserves
      sample_options (fun q => q) 3 filter_state [] 2 (three_node_dag _ _ _ rfl rfl rfl)
      (by decide) (memoInv_nil _ _)).2.2 2 5 (three_node_bounded _ _ _ rfl rfl rfl)
      (by decide)⟩

/-! ## The retry path of `unity_sarray::head` -/

/-- C25: when the first run of `planner().materialize` fails and the second delivers the
rows 1, 2, 3, `head(2)` returns an empty array, not the rows 1, 2: the rows of the second
run are written through the iterator of the sarray created first, not into the sarray that
`head` closes and returns.  Without the failure the same rows give 1, 2. -/
theorem head_retry_loses_the_rows :
    unity_sarray.head failing_run three_rows_run 2 = .ok [] ∧
      unity_sarray.head failing_run three_rows_run 2 ≠ .ok [.INTEGER 1, .INTEGER 2] ∧
      (run_materialize three_rows_run 2
        { store := [[], []], sa_head := 1, out := 0, row_counter := 0 }).1 =
        { store := [[.INTEGER 1, .INTEGER 2], []], sa_head := 1, out := 0,
          row_counter := 2 } ∧
      unity_sarray.head three_rows_run three_rows_run 2 = .ok [.INTEGER 1, .INTEGER 2] := by
  refine ⟨rfl, ?_, rfl, rfl⟩
  rw [show unity_sarray.head failing_run three_rows_run 2 = .ok [] from rfl]
  intro e
  cases e

namespace cppipc

theorem apply_ref_count_op_within (k : Nat) (st : ref_count_state) (op : ref_count_op)
    (hk : k + 1 < 2 ^ 64) (h : CountsWithin k st) :
    ∃ st1, apply_ref_count_op st op = .ok st1 ∧ CountsWithin (k + 1) st1 := by
  cases op with
  | incr object_id =>
    refine ⟨_, rfl, ?_⟩
    intro id c hc
    unfold incr_ref_count at hc
    cases hs : st.object_ref_count object_id with
    | none =>
      rw [hs] at hc
      simp only [set_ref_count] at hc
      by_cases hid : id = object_id
      · rw [if_pos hid] at hc
        cases hc
        exact ⟨Nat.le_refl _, by omega⟩
      · rw [if_neg hid] at hc
        have := h id c hc
        omega
    | some count =>
      rw [hs] at hc
      simp only [set_ref_count] at hc
      have hcount := h object_id count hs
      by_cases hid : id = object_id
      · rw [if_pos hid] at hc
        cases hc
        rw [Nat.mod_eq_of_lt (by omega)]
        omega
      · rw [if_neg hid] at hc
        have := h id c hc
        omega
  | decr object_id =>
    cases hs : st.object_ref_count object_id with
    | none =>
      refine ⟨st, ?_, fun id c hc => by have := h id c hc; omega⟩
      simp [apply_ref_count_op, decr_ref_count, decr_ref_count_locked, hs, bind, Except.bind,
        pure, Except.pure, max_64bit]
    | some count =>
      have hcount := h object_id count hs
      by_cases hgt : count > 1
      · refine ⟨set_ref_count st object_id (some (count - 1)), ?_, ?_⟩
        · have hne : count - 1 ≠ 0 := by omega
          simp [apply_ref_count_op, decr_ref_count, decr_ref_count_locked, hs, hgt, bind,
            Except.bind, pure, Except.pure, hne]
        · intro id c hc
          simp only [set_ref_count] at hc
          by_cases hid : id = object_id
          · rw [if_pos hid] at hc
            cases hc
            omega
          · rw [if_neg hid] at hc
            have := h id c hc
            omega
      · have h1 : count = 1 := by omega
        subst h1
        refine ⟨send_deletion_list (set_ref_count st object_id none) [object_id], ?_, ?_⟩
        · simp [apply_ref_count_op, decr_ref_count, decr_ref_count_locked, hs, bind,
            Except.bind, pure, Except.pure]
        · intro id c hc
          simp only [set_ref_count, send_deletion_list] at hc
          by_cases hid : id = object_id
          · rw [if_pos hid] at hc
            cases hc
          · rw [if_neg hid] at hc
            have := h id c hc
            omega

theorem run_ref_count_ops_within (ops : List ref_count_op) :
    ∀ (k : Nat) (st : ref_count_state), k + ops.length < 2 ^ 64 → CountsWithin k st →
      ∃ st1, run_ref_count_ops ops st = .ok st1 ∧ CountsWithin (k + ops.length) st1 := by
  induction ops with
  | nil =>
    intro k st _ h
    exact ⟨st, rfl, h⟩
  | cons op rest ih =>
    intro k st hk h
    rw [List.length_cons] at hk
    obtain ⟨st1, e1, h1⟩ := apply_ref_count_op_within k st op (by omega) h
    obtain ⟨st2, e2, h2⟩ := ih (k + 1) st1 (by omega) h1
    refine ⟨st2, ?_, ?_⟩
    · simp only [run_ref_count_ops, e1, bind, Except.bind]
      exact e2
    · rw [List.length_cons]
      have : k + (rest.length + 1) = k + 1 + rest.length := by omega
      rw [this]
      exact h2

theorem incr_then_decr_restores (st : ref_count_state) (object_id : Nat)
    (h : st.object_ref_count object_id = none) :
    ∃ st2, decr_ref_count (incr_ref_count st object_id).1 object_id = .ok (st2, 0) ∧
      st2.object_ref_count = st.object_ref_count := by
  refine ⟨send_deletion_list (set_ref_count (set_ref_count st object_id (some 1)) object_id
    none) [object_id], ?_, ?_⟩
  · simp [incr_ref_count, h, decr_ref_count, decr_ref_count_locked, set_ref_count, bind,
      Except.bind, pure, Except.pure]
  · funext id
    simp only [send_deletion_list, set_ref_count]
    by_cases hid : id = object_id
    · rw [if_pos hid, hid, h]
    · rw [if_neg hid, if_neg hid]

/-- C27: after every sequence of fewer than 2^64 calls of `incr_ref_count` and
`decr_ref_count` from the empty table (none of the calls raises), every reference count
stored in `object_ref_count` is at least 1; so a call of `decr_ref_count` does not reach the
branch for a stored count of 0 and returns, and for an untracked id `incr_ref_count(id)`
followed by `decr_ref_count(id)`, which returns 0, leaves the table as it was. -/
theorem ref_counts_at_least_one (ops : List ref_count_op) (h : ops.length < 2 ^ 64) :
    ∃ st, run_ref_count_ops ops empty_ref_counts = .ok st ∧
      (∀ (id c : Nat), st.object_ref_count id = some c → 1 ≤ c) ∧
      (∀ (id : Nat), decr_ref_count_locked st id ≠ .error .undefined_behaviour) ∧
      (∀ (id : Nat), ∃ r, decr_ref_count st id = .ok r) ∧
      (∀ (id : Nat), st.object_ref_count id = none →
        ∃ st2, decr_ref_count (incr_ref_count st id).1 id = .ok (st2, 0) ∧
          st2.object_ref_count = st.object_ref_count) := by
  obtain ⟨st, e, hin⟩ := run_ref_count_ops_within ops 0 empty_ref_counts (by omega)
    (fun id c hc => by simp [empty_ref_counts] at hc)
  have hlocked : ∀ (id : Nat), ∃ r, decr_ref_count_locked st id = .ok r := by
    intro id
    unfold decr_ref_count_locked
    cases hs : st.object_ref_count id with
    | none => exact ⟨_, rfl⟩
    | some count =>
      have := (hin id count hs).1
      by_cases hgt : count > 1
      · simp only [if_pos hgt]; exact ⟨_, rfl⟩
      · have h1 : count = 1 := by omega
        subst h1
        simp only [gt_iff_lt, Nat.lt_irrefl, if_false, if_true]
        exact ⟨_, rfl⟩
  refine ⟨st, e, fun id c hc => (hin id c hc).1, ?_, ?_, ?_⟩
  · intro id
    obtain ⟨r, hr⟩ := hlocked id
    rw [hr]
    intro hcontra
    cases hcontra
  · intro id
    obtain ⟨⟨st1, ref_cnt⟩, hr⟩ := hlocked id
    unfold decr_ref_count
    rw [hr]
    simp only [bind, Except.bind]
    by_cases hz : ref_cnt = 0
    · rw [if_pos hz]; exact ⟨_, rfl⟩
    · rw [if_neg hz]; exact ⟨_, rfl⟩
  · intro id hnone
    exact incr_then_decr_restores st id hnone

theorem ref_counts_at_least_one_witness :
    ∃ st, run_ref_count_ops [.incr 7, .incr 7, .incr 9, .decr 7, .decr 9, .decr 8]
        empty_ref_counts = .ok st ∧
      (∀ (id c : Nat), st.object_ref_count id = some c → 1 ≤ c) ∧
      (∀ (id : Nat), decr_ref_count_locked st id ≠ .error .undefined_behaviour) ∧
      (∀ (id : Nat), ∃ r, decr_ref_count st id = .ok r) ∧
      (∀ (id : Nat), st.object_ref_count id = none →
        ∃ st2, decr_ref_count (incr_ref_count st id).1 id = .ok (st2, 0) ∧
          st2.object_ref_count = st.object_ref_count) :=
  ref_counts_at_least_one [.incr 7, .incr 7, .incr 9, .decr 7, .decr 9, .decr 8]
    (by simp)

end cppipc

/-! ## The sink options never reach the intermediate materializations -/

theorem LogsWith.nothing (p : materialize_options) (tr : List Call) : LogsWith p tr tr :=
  ⟨[], by simp, fun c hc => absurd hc (List.not_mem_nil c)⟩

theorem LogsWith.followed_by {p : materialize_options} {tr1 tr2 tr3 : List Call}
    (a : LogsWith p tr1 tr2) (b : LogsWith p tr2 tr3) : LogsWith p tr1 tr3 := by
  obtain ⟨x, hx, hxc⟩ := a
  obtain ⟨y, hy, hyc⟩ := b
  refine ⟨x ++ y, by rw [hy, hx, List.append_assoc], ?_⟩
  intro c hc
  rcases List.mem_append.mp hc with h | h
  · exact hxc c h
  · exact hyc c h

theorem LogsWith.one (p : materialize_options) (tr : List Call) (c : Call)
    (h : Call.made_with p.write_callback p.output_index_file c) : LogsWith p tr (tr ++ [c]) :=
  ⟨[c], rfl, fun c' hc' => by rw [List.mem_singleton.mp hc']; exact h⟩

theorem LogsWith.without_sink {p : materialize_options} {tr tr' : List Call}
    (h : LogsWith p tr tr') (hwc : p.write_callback = none) (hfile : p.output_index_file = "") :
    ∃ extra, tr' = tr ++ extra ∧ ∀ c ∈ extra, Call.without_sink c := by
  obtain ⟨extra, he, hc⟩ := h
  refine ⟨extra, he, ?_⟩
  intro c hmem
  have := hc c hmem
  rw [hwc, hfile] at this
  cases c with
  | run n q => exact this
  | run_concat segs q => exact this
  | save sf f => exact absurd rfl this.2

theorem execute_node_impl_logs (env : Env) (st st' : State)
    (n : pnode_ptr) (p : materialize_options) (sf : sframe)
    (e : execute_node_impl env st n p = .ok (st', sf)) : LogsWith p st.trace st'.trace := by
  unfold execute_node_impl at e
  split at e
  · rw [bind_ok_iff] at e
    obtain ⟨⟨h1, segs⟩, e1, e⟩ := e
    rw [bind_ok_iff] at e
    obtain ⟨sf1, -, e3⟩ := e
    simp only [pure_ok_iff, Prod.mk.injEq] at e3
    rw [← e3.1]
    exact LogsWith.one p _ _ ⟨rfl, rfl⟩
  · rw [bind_ok_iff] at e
    obtain ⟨sf1, -, e3⟩ := e
    simp only [pure_ok_iff, Prod.mk.injEq] at e3
    rw [← e3.1]
    exact LogsWith.one p _ _ ⟨rfl, rfl⟩

theorem execute_sframe_source_logs (env : Env) (st st' : State)
    (node : planner_node) (n : pnode_ptr) (p : materialize_options) (sf : sframe)
    (e : execute_sframe_source env st node n p = .ok (st', sf)) :
    LogsWith p st.trace st'.trace := by
  unfold execute_sframe_source at e
  rw [bind_ok_iff] at e
  obtain ⟨v, -, e⟩ := e
  rw [bind_ok_iff] at e
  obtain ⟨sf0, -, e⟩ := e
  rw [bind_ok_iff] at e
  obtain ⟨full, -, e⟩ := e
  split at e
  · split at e
    · rename_i hfile
      rw [bind_ok_iff] at e
      obtain ⟨u, -, e⟩ := e
      rw [bind_ok_iff] at e
      obtain ⟨sf1, -, e⟩ := e
      rw [bind_ok_iff] at e
      obtain ⟨u2, -, e⟩ := e
      simp only [pure_ok_iff, Prod.mk.injEq] at e
      rw [← e.1]
      exact LogsWith.one p _ _ ⟨rfl, hfile⟩
    · simp only [pure_ok_iff, Prod.mk.injEq] at e
      rw [← e.1]; exact LogsWith.nothing _ _
  · exact execute_node_impl_logs env _ _ _ _ _ e

theorem execute_sarray_source_logs (env : Env) (st st' : State)
    (node : planner_node) (n : pnode_ptr) (p : materialize_options) (sf : sframe)
    (e : execute_sarray_source env st node n p = .ok (st', sf)) :
    LogsWith p st.trace st'.trace := by
  unfold execute_sarray_source at e
  rw [bind_ok_iff] at e
  obtain ⟨v, -, e⟩ := e
  rw [bind_ok_iff] at e
  obtain ⟨sa, -, e⟩ := e
  rw [bind_ok_iff] at e
  obtain ⟨full, -, e⟩ := e
  split at e
  · rw [bind_ok_iff] at e
    obtain ⟨sf0, -, e⟩ := e
    split at e
    · rename_i hfile
      rw [bind_ok_iff] at e
      obtain ⟨u, -, e⟩ := e
      rw [bind_ok_iff] at e
      obtain ⟨name, -, e⟩ := e
      rw [bind_ok_iff] at e
      obtain ⟨u2, -, e⟩ := e
      simp only [pure_ok_iff, Prod.mk.injEq] at e
      rw [← e.1]
      exact LogsWith.one p _ _ ⟨rfl, hfile⟩
    · simp only [pure_ok_iff, Prod.mk.injEq] at e
      rw [← e.1]; exact LogsWith.nothing _ _
  · exact execute_node_impl_logs env _ _ _ _ _ e

theorem materialize_missing_columns_logs (env : Env) (st st' : State)
    (n : pnode_ptr) (p : materialize_options) (cols : List Nat)
    (r r' : List (Option sarray))
    (e : materialize_missing_columns env st n p cols r = .ok (st', r')) :
    LogsWith p st.trace st'.trace := by
  unfold materialize_missing_columns at e
  rw [bind_ok_iff] at e
  obtain ⟨⟨h1, pn⟩, e1, e⟩ := e
  rw [bind_ok_iff] at e
  obtain ⟨⟨h2, opt_n⟩, e2, e⟩ := e
  rw [bind_ok_iff] at e
  obtain ⟨⟨st3, newc⟩, e3, e⟩ := e
  rw [bind_ok_iff] at e
  obtain ⟨r2, -, e⟩ := e
  simp only [pure_ok_iff, Prod.mk.injEq] at e
  rw [← e.1]
  have h3 := execute_node_impl_logs env _ _ _ _ _ e3
  exact h3

theorem execute_union_project_logs (env : Env) (st st' : State)
    (node : planner_node) (n : pnode_ptr) (p : materialize_options) (sf : sframe)
    (e : execute_union_project env st node n p = .ok (st', sf)) :
    LogsWith p st.trace st'.trace := by
  unfold execute_union_project at e
  split at e
  · exact execute_node_impl_logs env _ _ _ _ _ e
  · rw [bind_ok_iff] at e
    obtain ⟨m, -, e⟩ := e
    split at e
    · simp only [] at e
      split at e
      · rw [bind_ok_iff] at e
        obtain ⟨⟨st3, r⟩, e1, e⟩ := e
        rw [bind_ok_iff] at e
        obtain ⟨sf1, -, e⟩ := e
        simp only [pure_ok_iff, Prod.mk.injEq] at e
        rw [← e.1]
        exact materialize_missing_columns_logs env _ _ _ _ _ _ _ e1
      · rw [bind_ok_iff] at e
        obtain ⟨⟨st3, r⟩, e1, e⟩ := e
        rw [bind_ok_iff] at e
        obtain ⟨sf1, -, e⟩ := e
        simp only [pure_ok_iff, Prod.mk.injEq] at e e1
        rw [← e.1, ← e1.1]; exact LogsWith.nothing _ _
    · exact execute_node_impl_logs env _ _ _ _ _ e

theorem execute_node_logs (env : Env) (st st' : State)
    (n : pnode_ptr) (p : materialize_options) (sf : sframe)
    (e : execute_node env st n p = .ok (st', sf)) : LogsWith p st.trace st'.trace := by
  unfold execute_node at e
  split at e
  · exact execute_node_impl_logs env _ _ _ _ _ e
  · rw [bind_ok_iff] at e
    obtain ⟨node, -, e⟩ := e
    split at e
    · exact execute_sframe_source_logs env _ _ _ _ _ _ e
    · split at e
      · exact execute_sarray_source_logs env _ _ _ _ _ _ e
      · split at e
        · exact execute_union_project_logs env _ _ _ _ _ _ e
        · exact execute_node_impl_logs env _ _ _ _ _ e

theorem assign_trace (st st' : State) (q : pnode_ptr) (node : planner_node)
    (e : st.assign q node = .ok st') : st'.trace = st.trace := by
  obtain ⟨_, rfl⟩ := (assign_ok_iff _ _ _ _).mp e
  rfl

theorem materialize_input_in_place_logs (env : Env)
    (p : materialize_options) (n : pnode_ptr) (i : Nat) (st st' : State)
    (e : materialize_input_in_place env p n i st = .ok st') :
    LogsWith p st.trace st'.trace := by
  unfold materialize_input_in_place at e
  rw [bind_ok_iff] at e
  obtain ⟨node, -, e⟩ := e
  split at e
  · cases e
  · rw [bind_ok_iff] at e
    obtain ⟨⟨st1, sf⟩, e1, e2⟩ := e
    rw [assign_trace _ _ _ _ e2]
    exact execute_node_logs env _ _ _ _ _ e1

theorem materialize_mismatched_inputs_logs (env : Env)
    (p : materialize_options) (n : pnode_ptr) (codes : List Nat) (l : List Nat) :
    ∀ (allowed : Nat) (st st' : State),
      materialize_mismatched_inputs env p n codes l allowed st = .ok st' →
      LogsWith p st.trace st'.trace := by
  induction l with
  | nil =>
    intro allowed st st' e
    simp only [materialize_mismatched_inputs, Except.ok.injEq] at e
    rw [← e]; exact LogsWith.nothing _ _
  | cons i rest ih =>
    intro allowed st st' e
    unfold materialize_mismatched_inputs at e
    split at e
    · cases e
    · split at e
      · split at e
        · split at e
          · rw [bind_ok_iff] at e
            obtain ⟨st1, e1, e2⟩ := e
            exact (materialize_input_in_place_logs env p n i st st1 e1).followed_by
              (ih _ _ _ e2)
          · exact ih _ _ _ e
        · exact ih _ _ _ e
      · exact ih _ _ _ e

theorem materialize_for_same_rates_logs (env : Env)
    (p : materialize_options) (n : pnode_ptr) (st st' : State)
    (e : materialize_for_same_rates env p n st = .ok st') :
    LogsWith p st.trace st'.trace := by
  unfold materialize_for_same_rates at e
  simp only [] at e
  split at e
  · cases e
  · exact materialize_mismatched_inputs_logs env p n _ _ _ _ _ e

theorem materialize_all_inputs_logs (env : Env)
    (p : materialize_options) (n : pnode_ptr) (l : List Nat) :
    ∀ (st st' : State), materialize_all_inputs env p n l st = .ok st' →
      LogsWith p st.trace st'.trace := by
  induction l with
  | nil =>
    intro st st' e
    simp only [materialize_all_inputs, Except.ok.injEq] at e
    rw [← e]; exact LogsWith.nothing _ _
  | cons k rest ih =>
    intro st st' e
    unfold materialize_all_inputs at e
    rw [bind_ok_iff] at e
    obtain ⟨node, -, e⟩ := e
    split at e
    · cases e
    · rw [bind_ok_iff] at e
      obtain ⟨⟨h1, optimized_i⟩, -, e⟩ := e
      rw [bind_ok_iff] at e
      obtain ⟨⟨st2, sf⟩, e2, e⟩ := e
      rw [bind_ok_iff] at e
      obtain ⟨st3, e3, e4⟩ := e
      have h2 := execute_node_logs env _ _ _ _ _ e2
      have h4 := ih _ _ e4
      rw [assign_trace _ _ _ _ e3] at h4
      exact h2.followed_by h4

theorem materialize_where_needed_logs (env : Env)
    (p : materialize_options) (n : pnode_ptr) (node : planner_node) (st st' : State)
    (e : materialize_where_needed env p n node st = .ok st') :
    LogsWith p st.trace st'.trace := by
  unfold materialize_where_needed at e
  split at e
  · exact materialize_for_same_rates_logs env p n _ _ e
  · exact materialize_all_inputs_logs env p n _ _ _ e

theorem instantiate_unless_linear_logs (env : Env)
    (p : materialize_options) (n : pnode_ptr) (st st' : State)
    (e : instantiate_unless_linear env p n st = .ok st') :
    LogsWith p st.trace st'.trace := by
  unfold instantiate_unless_linear at e
  rw [bind_ok_iff] at e
  obtain ⟨node, -, e⟩ := e
  split at e
  · simp only [pure_ok_iff] at e
    rw [← e]; exact LogsWith.nothing _ _
  · rw [bind_ok_iff] at e
    obtain ⟨⟨h1, optimized_n⟩, -, e⟩ := e
    rw [bind_ok_iff] at e
    obtain ⟨⟨st2, sf⟩, e2, e3⟩ := e
    rw [assign_trace _ _ _ _ e3]
    have h2 := execute_node_logs env _ _ _ _ _ e2
    exact h2

theorem materialize_inputs_loop_logs (p : materialize_options)
    (recurse : State → Memo → pnode_ptr → ImplResult) (n : pnode_ptr)
    (hrec : ∀ st memo q st' memo' r, recurse st memo q = .ok (st', memo', r) →
      LogsWith p st.trace st'.trace)
    (budget : Nat) :
    ∀ (i : Nat) (st : State) (memo : Memo) (st' : State) (memo' : Memo),
      materialize_inputs_loop recurse n budget i st memo = .ok (st', memo') →
      LogsWith p st.trace st'.trace := by
  induction budget with
  | zero =>
    intro i st memo st' memo' e
    unfold materialize_inputs_loop at e
    rw [bind_ok_iff] at e
    obtain ⟨node0, _, e⟩ := e
    split at e
    · cases e
    · simp only [pure_ok_iff, Prod.mk.injEq] at e
      rw [← e.1]; exact LogsWith.nothing _ _
  | succ budget ih =>
    intro i st memo st' memo' e
    unfold materialize_inputs_loop at e
    rw [bind_ok_iff] at e
    obtain ⟨node0, _, e⟩ := e
    split at e
    · simp only [pure_ok_iff, Prod.mk.injEq] at e
      rw [← e.1]; exact LogsWith.nothing _ _
    · rw [bind_ok_iff] at e
      obtain ⟨⟨st1, memo1, r⟩, e1, e⟩ := e
      rw [bind_ok_iff] at e
      obtain ⟨node1, _, e⟩ := e
      split at e
      · rw [bind_ok_iff] at e
        obtain ⟨st2, e2, e3⟩ := e
        rw [liftExn_ok_iff] at e2
        have h3 := ih _ _ _ _ _ e3
        rw [assign_trace _ _ _ _ e2] at h3
        exact (hrec _ _ _ _ _ _ e1).followed_by h3
      · cases e

theorem partial_materialize_impl_logs (env : Env) (p : materialize_options) (fuel : Nat) :
    ∀ (st : State) (memo : Memo) (n : pnode_ptr) (st' : State) (memo' : Memo) (r : pnode_ptr),
      partial_materialize_impl env p fuel st memo n = .ok (st', memo', r) →
      LogsWith p st.trace st'.trace := by
  induction fuel with
  | zero =>
    intro st memo n st' memo' r e
    cases e
  | succ fuel ih =>
    intro st memo n st' memo' r e
    unfold partial_materialize_impl at e
    split at e
    · simp only [Except.ok.injEq, Prod.mk.injEq] at e
      rw [← e.1]; exact LogsWith.nothing _ _
    · rw [bind_ok_iff] at e
      obtain ⟨⟨st1, memo1⟩, e1, e⟩ := e
      have h1 := materialize_inputs_loop_logs p _ n ih fuel 0 st memo st1 memo1 e1
      rw [bind_ok_iff] at e
      obtain ⟨node, _, e⟩ := e
      split at e
      · simp only [pure_ok_iff, Prod.mk.injEq] at e
        rw [← e.1]; exact h1
      · rw [bind_ok_iff] at e
        obtain ⟨st2, e2, e⟩ := e
        rw [liftExn_ok_iff] at e2
        rw [bind_ok_iff] at e
        obtain ⟨st3, e3, e⟩ := e
        rw [liftExn_ok_iff] at e3
        simp only [pure_ok_iff, Prod.mk.injEq] at e
        rw [← e.1]
        exact (h1.followed_by (materialize_where_needed_logs env p n node _ _ e2)).followed_by
          (instantiate_unless_linear_logs env p n _ _ e3)

theorem naive_inputs_loop_logs (env : Env) (p : materialize_options)
    (recurse : State → pnode_ptr → Except Err (State × pnode_ptr)) (n : pnode_ptr)
    (hrec : ∀ st q st' r, recurse st q = .ok (st', r) → LogsWith p st.trace st'.trace)
    (budget : Nat) :
    ∀ (i : Nat) (st st' : State),
      naive_inputs_loop env p recurse n budget i st = .ok st' →
      LogsWith p st.trace st'.trace := by
  induction budget with
  | zero =>
    intro i st st' e
    unfold naive_inputs_loop at e
    rw [bind_ok_iff] at e
    obtain ⟨node0, _, e⟩ := e
    split at e
    · cases e
    · simp only [pure_ok_iff] at e
      rw [← e]; exact LogsWith.nothing _ _
  | succ budget ih =>
    intro i st st' e
    unfold naive_inputs_loop at e
    rw [bind_ok_iff] at e
    obtain ⟨node0, _, e⟩ := e
    split at e
    · simp only [pure_ok_iff] at e
      rw [← e]; exact LogsWith.nothing _ _
    · rw [bind_ok_iff] at e
      obtain ⟨input_node, _, e⟩ := e
      split at e
      · rw [bind_ok_iff] at e
        obtain ⟨⟨st1, q⟩, e1, e⟩ := e
        rw [bind_ok_iff] at e
        obtain ⟨⟨st2, sf⟩, e2, e⟩ := e
        rw [liftExn_ok_iff] at e2
        simp only [State.alloc] at e
        rw [bind_ok_iff] at e
        obtain ⟨node3, _, e⟩ := e
        split at e
        · rw [bind_ok_iff] at e
          obtain ⟨st4, e4, e5⟩ := e
          rw [liftExn_ok_iff] at e4
          have h5 := ih _ _ _ e5
          rw [assign_trace _ _ _ _ e4] at h5
          exact ((hrec _ _ _ _ e1).followed_by (execute_node_logs env _ _ _ _ _ e2)).followed_by h5
        · cases e
      · exact ih _ _ _ e

theorem naive_partial_materialize_logs (env : Env) (p : materialize_options) (fuel : Nat) :
    ∀ (st : State) (n : pnode_ptr) (st' : State) (r : pnode_ptr),
      naive_partial_materialize env p fuel st n = .ok (st', r) →
      LogsWith p st.trace st'.trace := by
  induction fuel with
  | zero =>
    intro st n st' r e
    cases e
  | succ fuel ih =>
    intro st n st' r e
    unfold naive_partial_materialize at e
    rw [bind_ok_iff] at e
    obtain ⟨st1, e1, e⟩ := e
    simp only [pure_ok_iff, Prod.mk.injEq] at e
    rw [← e.1]
    exact naive_inputs_loop_logs env p _ n ih fuel 0 st st1 e1

theorem partial_materialize_logs (env : Env) (fuel : Nat) (st st' : State)
    (ptip r : pnode_ptr) (p : materialize_options)
    (e : partial_materialize env fuel st ptip p = .ok (st', r)) :
    LogsWith p st.trace st'.trace := by
  unfold partial_materialize at e
  split at e
  · exact naive_partial_materialize_logs env p fuel _ _ _ _ e
  · rw [bind_ok_iff] at e
    obtain ⟨⟨st1, memo1, r1⟩, e1, e⟩ := e
    simp only [pure_ok_iff, Prod.mk.injEq] at e
    rw [← e.1]
    exact partial_materialize_impl_logs env p fuel _ _ _ _ _ _ e1

theorem default_num_segments_sink (env : Env) (p : materialize_options) :
    (planner.default_num_segments env p).write_callback = p.write_callback ∧
      (planner.default_num_segments env p).output_index_file = p.output_index_file ∧
      (planner.default_num_segments env p).partial_materialize = p.partial_materialize := by
  unfold planner.default_num_segments
  split <;> exact ⟨rfl, rfl, rfl⟩

theorem optimize_tip_trace (env : Env) (st st1 : State) (ptip optimized : pnode_ptr)
    (p : materialize_options) (e : planner.optimize_tip env st ptip p = .ok (st1, optimized)) :
    st1.trace = st.trace := by
  unfold planner.optimize_tip at e
  split at e
  · rw [bind_ok_iff] at e
    obtain ⟨⟨h1, o⟩, -, e⟩ := e
    simp only [pure_ok_iff, Prod.mk.injEq] at e
    rw [← e.1]
  · simp only [pure_ok_iff, Prod.mk.injEq] at e
    rw [← e.1]

theorem execute_final_node_logs (env : Env) (st st' : State) (original_ptip final_node : pnode_ptr)
    (p : materialize_options) (sf : sframe)
    (e : planner.execute_final_node env st original_ptip final_node p = .ok (st', sf)) :
    LogsWith p st.trace st'.trace := by
  unfold planner.execute_final_node at e
  split at e
  · rw [bind_ok_iff] at e
    obtain ⟨⟨st3, ret_sf⟩, e1, e⟩ := e
    rw [bind_ok_iff] at e
    obtain ⟨st4, e2, e⟩ := e
    simp only [pure_ok_iff, Prod.mk.injEq] at e
    rw [← e.1, assign_trace _ _ _ _ e2]
    exact execute_node_logs env _ _ _ _ _ e1
  · exact execute_node_logs env _ _ _ _ _ e

/-- C24: when `planner::materialize` is called with `partial_materialize` set and returns,
every executor call logged while `partial_materialize` ran was made without write callback
and without output location, and nothing was saved: the calls of `execute_node` in it
receive the options with `write_callback = nullptr` and `output_index_file = ""`.  The
calls logged after it are those of the one final `execute_node` on the tip, made with the
write callback and the output location of the caller. -/
theorem sink_options_reach_only_the_final_node (env : Env) (fuel : Nat) (st : State)
    (ptip : pnode_ptr) (exec_params : materialize_options) (st' : State) (sf : sframe)
    (hpm : exec_params.partial_materialize = true)
    (e : planner.materialize env fuel st ptip exec_params = .ok (st', sf)) :
    ∃ (st1 : State) (optimized : pnode_ptr) (st2 : State) (final_node : pnode_ptr)
      (recursive_exec_params : materialize_options) (inner final : List Call),
      st1.trace = st.trace ∧
      recursive_exec_params.write_callback = none ∧
      recursive_exec_params.output_index_file = "" ∧
      partial_materialize env fuel st1 optimized recursive_exec_params =
        .ok (st2, final_node) ∧
      st2.trace = st.trace ++ inner ∧
      (∀ c ∈ inner, Call.without_sink c) ∧
      planner.execute_final_node env st2 ptip final_node
        (planner.default_num_segments env exec_params) = .ok (st', sf) ∧
      st'.trace = st2.trace ++ final ∧
      (∀ c ∈ final,
        Call.made_with exec_params.write_callback exec_params.output_index_file c) := by
  obtain ⟨hwc, hfile, hpart⟩ := default_num_segments_sink env exec_params
  unfold planner.materialize at e
  simp only [] at e
  rw [bind_ok_iff] at e
  obtain ⟨⟨st1, optimized⟩, e1, e⟩ := e
  rw [liftExn_ok_iff] at e1
  rw [bind_ok_iff] at e
  obtain ⟨⟨st2, final_node⟩, e2, e3⟩ := e
  rw [liftExn_ok_iff] at e3
  unfold planner.partial_materialize_tip at e2
  rw [if_pos (hpart.trans hpm)] at e2
  simp only [] at e2
  have ht1 := optimize_tip_trace env _ _ _ _ _ e1
  obtain ⟨inner, hinner, hin⟩ :=
    (partial_materialize_logs env fuel _ _ _ _ _ e2).without_sink rfl rfl
  obtain ⟨final, hfinal, hfin⟩ := execute_final_node_logs env _ _ _ _ _ _ e3
  refine ⟨st1, optimized, st2, final_node, _, inner, final, ht1, ?_, ?_, e2, ?_, hin, e3,
    hfinal, ?_⟩
  · rfl
  · rfl
  · rw [hinner, ht1]
  · intro c hc
    have := hfin c hc
    rw [hwc, hfile] at this
    exact this

/-- The result of materializing the append of `append_state` to the write callback 7. -/
theorem sink_options_reach_only_the_final_node_witness :
    ∃ (st1 : State) (optimized : pnode_ptr) (st2 : State) (final_node : pnode_ptr)
      (recursive_exec_params : materialize_options) (inner final : List Call),
      st1.trace = append_state.trace ∧
      recursive_exec_params.write_callback = none ∧
      recursive_exec_params.output_index_file = "" ∧
      partial_materialize sample_env 5 st1 optimized recursive_exec_params =
        .ok (st2, final_node) ∧
      st2.trace = append_state.trace ++ inner ∧
      (∀ c ∈ inner, Call.without_sink c) ∧
      planner.execute_final_node sample_env st2 2 final_node
        (planner.default_num_segments sample_env
          { sample_options with write_callback := some 7, output_index_file := "out" }) =
        .ok (append_state_to_callback, sample_frame 2) ∧
      append_state_to_callback.trace = st2.trace ++ final ∧
      (∀ c ∈ final, Call.made_with (some 7) "out" c) :=
  sink_options_reach_only_the_final_node sample_env 5 append_state 2
    { sample_options with write_callback := some 7, output_index_file := "out" }
    append_state_to_callback (sample_frame 2) rfl rfl

/-! ## The naive partial materialization -/

/-- C22: with the delimiter `::`, quoting not preserved, the line `"a::b"` gives the one
token `"a:b"`: the delimiter inside the quotes does not end the field, but its first
character is lost.  With the delimiter `:` the token of the line `"a:b"` is the field as it
is in the line. -/
theorem quoted_field_loses_delimiter_character :
    csv_line_tokenizer.tokenize_line (sample_tokenizer [':', ':']) 6
        ['"', 'a', ':', ':', 'b', '"'] collect_tokens [] =
        .ok ([['"', 'a', ':', 'b', '"']], true) ∧
      (['"', 'a', ':', 'b', '"'] : List Char) ≠ ['"', 'a', ':', ':', 'b', '"'] ∧
      csv_line_tokenizer.tokenize_line (sample_tokenizer [':']) 5
        ['"', 'a', ':', 'b', '"'] collect_tokens [] =
        .ok ([['"', 'a', ':', 'b', '"']], true) := by
  refine ⟨rfl, by decide, rfl⟩

/-! ## Lines without quotes: one token per field -/

theorem fields_of_length (d : Char) (line : List Char) :
    ∀ (cur : List Char), (fields_of d line cur).length = line.count d + 1 := by
  induction line with
  | nil => intro cur; rfl
  | cons c rest ih =>
    intro cur
    unfold fields_of
    by_cases hc : c = d
    · rw [if_pos hc, List.length_cons, ih, hc, List.count_cons_self]
    · rw [if_neg hc, ih, List.count_cons_of_ne (Ne.symm hc)]

theorem fields_of_ne_nil (d : Char) (line cur : List Char) : fields_of d line cur ≠ [] := by
  intro h
  have := fields_of_length d line cur
  rw [h] at this
  simp at this

theorem intercalate_cons_of_ne_nil (sep x : List Char) (xs : List (List Char))
    (h : xs ≠ []) : sep.intercalate (x :: xs) = x ++ sep ++ sep.intercalate xs := by
  cases xs with
  | nil => exact absurd rfl h
  | cons y ys => simp [List.intercalate, List.intersperse]

theorem fields_of_intercalate (d : Char) (line : List Char) :
    ∀ (cur : List Char), [d].intercalate (fields_of d line cur) = cur ++ line := by
  induction line with
  | nil => intro cur; simp [fields_of, List.intercalate]
  | cons c rest ih =>
    intro cur
    unfold fields_of
    by_cases hc : c = d
    · rw [if_pos hc, intercalate_cons_of_ne_nil _ _ _ (fields_of_ne_nil d rest []), ih, hc]
      simp
    · rw [if_neg hc, ih]
      simp
namespace csv_line_tokenizer

theorem delimiter_test_single {t : csv_line_tokenizer} {d : Char}
    (h : SingleCharDelimiter t d) (c : Char) (r : List Char) :
    DELIMITER_TEST t (c :: r) = (c == d) := by
  simp [DELIMITER_TEST, h.not_empty, h.first, h.singlechar]

theorem tokenize_step_outside_quotes {σ : Type} (t : csv_line_tokenizer) (d : Char)
    (h : SingleCharDelimiter t d) (add_token : List Char → σ → σ × Bool)
    (lookahead : List Char → σ → σ × Option (List Char)) (canceltoken : σ → σ)
    (hadd : ∀ token s, (add_token token s).2 = true) (c : Char) (r : List Char)
    (hc : PlainChar t c) (flag esc : Bool) (state : tokenizer_state) (fb : List Char) (s : σ)
    (hstate : state = .IN_FIELD ∨ (state = .START_FIELD ∧ fb = [])) :
    ∃ (esc1 flag1 : Bool) (state1 : tokenizer_state) (fb1 : List Char) (s1 : σ),
      tokenize_step t add_token lookahead canceltoken
          { buf := c :: r, good := true, keep_parsing := true,
            start_field_with_delimiter_encountered := flag, escape_sequence := esc,
            state := state, field_buffer := fb, callbacks := s } =
        .ok { buf := r, good := true, keep_parsing := true,
              start_field_with_delimiter_encountered := flag1, escape_sequence := esc1,
              state := state1, field_buffer := fb1, callbacks := s1 } ∧
      (state1 = .IN_FIELD ∨ (state1 = .START_FIELD ∧ fb1 = [])) ∧
      (tokens_to_come d state flag fb (c :: r)).foldl (fun s token => (add_token token s).1) s =
        (tokens_to_come d state1 flag1 fb1 r).foldl (fun s token => (add_token token s).1) s1 := by
  obtain ⟨hq, hcom, hb1, hb2⟩ := hc
  have hcom' : (t.has_comment_char && c == t.comment_char) = false := by
    cases hh : t.has_comment_char with
    | false => rfl
    | true => simpa using hcom hh
  have hcomP : ¬ (t.has_comment_char = true ∧ c = t.comment_char) := fun hh => hcom hh.1 hh.2
  have hdt := delimiter_test_single h c r
  by_cases hcd : c = d
  · have hdt' : DELIMITER_TEST t (c :: r) = true := by rw [hdt]; simpa using hcd
    have hdrop : (c :: r).drop (t.delimiter.length - 1) = c :: r := by rw [h.length]; rfl
    rcases hstate with hs | ⟨hs, hfb⟩
    · subst hs
      refine ⟨false, true, .START_FIELD, [], (add_token fb s).1, ?_, Or.inr ⟨rfl, rfl⟩, ?_⟩
      · simp only [tokenize_step, hdt', if_true, hdrop, case_IN_FIELD, END_FIELD, hadd]
        cases esc <;> simp
      · simp [tokens_to_come, fields_of, hcd]
    · subst hs; subst hfb
      refine ⟨false, true, .START_FIELD, [], (add_token [] s).1, ?_, Or.inr ⟨rfl, rfl⟩, ?_⟩
      · simp only [tokenize_step, hdt', if_true, hdrop, case_START_FIELD, if_neg hq, h.skip,
          Bool.and_false, END_FIELD, BEGIN_FIELD, hadd]
        cases esc <;> simp
      · simp [tokens_to_come, fields_of, hcd]
  · have hdt' : DELIMITER_TEST t (c :: r) = false := by rw [hdt]; simpa using hcd
    rcases hstate with hs | ⟨hs, hfb⟩
    · subst hs
      refine ⟨(if esc then false else c == t.escape_char), flag, .IN_FIELD, fb ++ [c], s, ?_,
        Or.inl rfl, ?_⟩
      · simp only [tokenize_step, hdt', Bool.false_eq_true, if_false, case_IN_FIELD, hcom',
          PUSH_CHAR]
        cases esc <;> simp [hcomP]
      · simp [tokens_to_come, fields_of, hcd]
    · subst hs; subst hfb
      refine ⟨(if esc then false else c == t.escape_char), false, .IN_FIELD, [c], s, ?_,
        Or.inl rfl, ?_⟩
      · simp only [tokenize_step, hdt', Bool.false_eq_true, if_false, case_START_FIELD,
          if_neg hq, h.skip, Bool.and_false, hcom', REGULAR_CHARACTER, PUSH_CHAR]
        cases esc <;> simp [hb1, hb2, hcomP]
      · simp [tokens_to_come, fields_of, hcd]

end csv_line_tokenizer
namespace csv_line_tokenizer

theorem tokenize_loop_outside_quotes {σ : Type} (t : csv_line_tokenizer) (d : Char)
    (h : SingleCharDelimiter t d) (add_token : List Char → σ → σ × Bool)
    (lookahead : List Char → σ → σ × Option (List Char)) (canceltoken : σ → σ)
    (hadd : ∀ token s, (add_token token s).2 = true) (rest : List Char) :
    (∀ c ∈ rest, PlainChar t c) →
    ∀ (fuel : Nat) (flag esc : Bool) (state : tokenizer_state) (fb : List Char) (s : σ),
      rest.length ≤ fuel →
      (state = .IN_FIELD ∨ (state = .START_FIELD ∧ fb = [])) →
      ∃ v1, tokenize_loop t add_token lookahead canceltoken fuel
          { buf := rest, good := true, keep_parsing := true,
            start_field_with_delimiter_encountered := flag, escape_sequence := esc,
            state := state, field_buffer := fb, callbacks := s } = .ok v1 ∧
        tokenize_cleanup add_token v1 =
          ((tokens_to_come d state flag fb rest).foldl
            (fun s token => (add_token token s).1) s, true) := by
  induction rest with
  | nil =>
    intro _ fuel flag esc state fb s _ hstate
    refine ⟨{ buf := [], good := true, keep_parsing := true,
              start_field_with_delimiter_encountered := flag, escape_sequence := esc,
              state := state, field_buffer := fb, callbacks := s }, ?_, ?_⟩
    · cases fuel <;> simp [tokenize_loop]
    · have hpair : ∀ token, add_token token s = ((add_token token s).1, true) := by
        intro token
        rw [← hadd token s]
      rcases hstate with hs | ⟨hs, hfb⟩
      · subst hs
        simp only [tokenize_cleanup, tokens_to_come, fields_of, List.foldl_cons,
          List.foldl_nil]
        simpa using hpair fb
      · subst hs; subst hfb
        cases flag
        · simp [tokenize_cleanup, tokens_to_come]
        · simp only [tokenize_cleanup, tokens_to_come, fields_of]
          simpa using hpair []
  | cons c r ih =>
    intro hplain fuel flag esc state fb s hfuel hstate
    cases fuel with
    | zero => simp at hfuel
    | succ fuel =>
      obtain ⟨esc1, flag1, state1, fb1, s1, hstep, hstate1, htok⟩ :=
        tokenize_step_outside_quotes t d h add_token lookahead canceltoken hadd c r
          (hplain c (List.mem_cons_self _ _)) flag esc state fb s hstate
      obtain ⟨v1, hloop, hclean⟩ := ih (fun c' hc' => hplain c' (List.mem_cons_of_mem _ hc'))
        fuel flag1 esc1 state1 fb1 s1 (by simpa using hfuel) hstate1
      refine ⟨v1, ?_, ?_⟩
      · rw [tokenize_loop]
        simp only [Bool.true_and, List.isEmpty_cons, Bool.not_false, if_true, hstep]
        exact hloop
      · rw [hclean, htok]

theorem init_single_char (parser_factory : List Char → Char → flexible_type_parser_t)
    (t : csv_line_tokenizer) (d : Char) (hd : t.delimiter = [d])
    (hskip : t.skip_initial_space = false) : SingleCharDelimiter (init parser_factory t) d := by
  refine ⟨?_, ?_, ?_, ?_, ?_⟩ <;> simp [init, hd, hskip]

/-- C28: for a tokenizer set up by `init()` with the single-character delimiter `d`, which
does not skip initial spaces and whose delimiter is not the line terminator, a callback
that accepts every token, and a line without quote character, comment character, `[` and
opening brace: `tokenize_line` returns true, within as many rounds as the line has
characters; the callback receives, in order, the tokens of the line; there is none for the
empty line and one more than there are occurrences of `d` for any other; and the tokens
joined with `d` are the line. -/
theorem tokenize_line_splits_at_delimiter {σ : Type}
    (parser_factory : List Char → Char → flexible_type_parser_t) (t : csv_line_tokenizer)
    (d : Char) (line : List Char) (fn : List Char → Nat → σ → σ × Bool) (s : σ) (fuel : Nat)
    (hd : t.delimiter = [d]) (hskip : t.skip_initial_space = false)
    (hnl : (init parser_factory t).delimiter_is_new_line = false)
    (hquote : t.quote_char ∉ line)
    (hcomment : t.has_comment_char = true → t.comment_char ∉ line)
    (hbracket : '[' ∉ line ∧ '\x7b' ∉ line)
    (hfn : ∀ token len s, (fn token len s).2 = true)
    (hfuel : line.length ≤ fuel) :
    tokenize_line (init parser_factory t) fuel line fn s =
        .ok ((expected_tokens d line).foldl (fun s token => (fn token token.length s).1) s,
          true) ∧
      (line = [] → expected_tokens d line = []) ∧
      (line ≠ [] → (expected_tokens d line).length = line.count d + 1) ∧
      [d].intercalate (expected_tokens d line) = line := by
  have hsingle := init_single_char parser_factory t d hd hskip
  have hplain : ∀ c ∈ line, PlainChar (init parser_factory t) c := by
    intro c hc
    refine ⟨?_, ?_, ?_, ?_⟩
    · intro e; exact hquote (by rw [show t.quote_char = c from e.symm]; exact hc)
    · intro hh e
      exact hcomment hh (by rw [show t.comment_char = c from e.symm]; exact hc)
    · intro e; exact hbracket.1 (by rw [← e]; exact hc)
    · intro e; exact hbracket.2 (by rw [← e]; exact hc)
  obtain ⟨v1, hloop, hclean⟩ := tokenize_loop_outside_quotes (init parser_factory t) d hsingle
    (fun buf s => fn buf buf.length s) (tokenize_line_lookahead (init parser_factory t) fn)
    (fun s => s) (fun token s => hfn token token.length s) line hplain fuel false false
    .START_FIELD [] s hfuel (Or.inr ⟨rfl, rfl⟩)
  have htok : tokens_to_come d .START_FIELD false [] line = expected_tokens d line := by
    simp [tokens_to_come, expected_tokens]
  refine ⟨?_, ?_, ?_, ?_⟩
  · unfold tokenize_line tokenize_line_impl
    rw [hnl]
    simp only [init, Bool.false_eq_true, if_false]
    simp only [init] at hloop
    rw [hloop]
    simp only []
    rw [hclean, htok]
  · intro hl
    simp [expected_tokens, hl]
  · intro hl
    simp only [expected_tokens, if_neg hl]
    exact fields_of_length d line []
  · by_cases hl : line = []
    · simp [expected_tokens, hl, List.intercalate]
    · simp only [expected_tokens, if_neg hl]
      simpa using fields_of_intercalate d line []

theorem tokenize_line_splits_at_delimiter_witness :
    tokenize_line (sample_tokenizer [',']) 4 ['a', ',', ',', 'b'] collect_tokens [] =
        .ok ([['a'], [], ['b']], true) ∧
      ((['a', ',', ',', 'b'] : List Char) = [] →
        expected_tokens ',' ['a', ',', ',', 'b'] = []) ∧
      ((['a', ',', ',', 'b'] : List Char) ≠ [] →
        (expected_tokens ',' ['a', ',', ',', 'b']).length =
          List.count ',' ['a', ',', ',', 'b'] + 1) ∧
      [','].intercalate (expected_tokens ',' ['a', ',', ',', 'b']) = ['a', ',', ',', 'b'] :=
  tokenize_line_splits_at_delimiter sample_parser_factory
    { delimiter := [','], line_terminator := ['\n'], quote_char := '"',
      escape_char := '\\', double_quote := true, preserve_quoting := false,
      skip_initial_space := false, has_comment_char := false, comment_char := '#',
      parser := none, is_regular_line_terminator := false, delimiter_is_new_line := false,
      delimiter_is_not_empty := false, delimiter_is_space_but_not_tab := false,
      delimiter_first_character := ' ', delimiter_is_singlechar := false }
    ',' ['a', ',', ',', 'b'] collect_tokens [] 4 rfl rfl rfl (by decide) (by decide)
    (by decide) (fun _ _ _ => rfl) (by decide)

end csv_line_tokenizer

end query_eval
end graphlab
